import Mathlib

/-!
BATcave Facebook crawler: scheduling, pagination walk and dedup bookkeeping.

A shallow embedding of `facebook.go`.  Go strings are lists of characters, the
machine integers (`int`, `int64`, `uint64`) are `Int`/`Nat` with explicit
wrap-around, and a Go panic is a `Fault`.  The three external services are
capabilities: the HTTP transport is a function from the requested URL to the
body it returns, `time.Parse` is a function from the time string to the Unix
seconds of the parsed time (`none` on a parse error) and the wall clock is the
reading taken by `time.Now().Unix()`.  The database session and its inserts are
taken to succeed; every inserted document is appended to `World.store`.
-/

namespace FacebookCrawler

/-! ## Integers, strings and faults -/

/-- A Go string, as the sequence of its characters. -/
abbrev Str := List Char

/-- The ways a run of the program stops with a panic (`fuel` is the only one
that is no Go panic: the model was given too few steps).  `httpGet` is
`panicIf(err1)` after `http.Get`, `readBody` is `panicIf(err2)` after
`ioutil.ReadAll`. -/
inductive Fault where
  | sliceBounds
  | indexRange
  | queueFull
  | httpGet
  | readBody
  | fuel
  deriving DecidableEq, Repr

/-- Outcome of a piece of stateful code: it returns with a state, or it
panics, and then the state is the one reached when the panic was raised. -/
inductive Run (σ : Type) where
  | done (s : σ)
  | halt (f : Fault) (s : σ)
  deriving DecidableEq, Repr

/-- Result of a fallible computation without state: a value, or a panic. -/
inductive Res (α : Type) where
  | ok (a : α)
  | fail (f : Fault)
  deriving DecidableEq, Repr

/-- State carried by an outcome, returned or not. -/
def Run.state {σ : Type} : Run σ → σ
  | .done s => s
  | .halt _ s => s

/-- What the program gets for a URL: `http.Get` reports an error, or it
returns a response whose body `ioutil.ReadAll` cannot read, or the body is
read. -/
inductive Response where
  | getError
  | readError
  | body (s : Str)
  deriving DecidableEq, Repr

/-- The transport: the response to each URL. -/
abbrev Transport := Str → Response

/-- Conversion `uint64(x)` of a signed 64-bit value. -/
def toUint64 (x : Int) : Nat := (x % 18446744073709551616).toNat

/-- Wrap-around of the Go type `int` (64 bits). -/
def wrapInt (x : Int) : Int :=
  (x + 9223372036854775808) % 18446744073709551616 - 9223372036854775808

def BASEURL : Str := "https://graph.facebook.com/".toList

/-- Go `strings.Index` counted from offset `k`: the position of the first
occurrence of `sep`, or `-1`. -/
def indexFrom (sep : Str) : Str → Nat → Int
  | [], k => if sep.isEmpty then (k : Int) else -1
  | c :: cs, k => if sep.isPrefixOf (c :: cs) then (k : Int) else indexFrom sep cs (k + 1)

/-- Go `strings.Index(s, sep)`. -/
def Index (s sep : Str) : Int := indexFrom sep s 0

/-- Go slice expression `s[lo:hi]`; `none` is the out-of-range panic. -/
def slice (s : Str) (lo hi : Int) : Option Str :=
  if 0 ≤ lo ∧ lo ≤ hi ∧ hi ≤ (s.length : Int) then
    some ((s.drop lo.toNat).take (hi - lo).toNat)
  else none

/-- Go slice expression `s[lo:]`. -/
def sliceFrom (s : Str) (lo : Int) : Option Str := slice s lo (s.length : Int)

/-- Go slice expression `s[:hi]`. -/
def sliceTo (s : Str) (hi : Int) : Option Str := slice s 0 hi

/-- Error component of a `strconv` result. -/
inductive NumError where
  | ok
  | errSyntax
  | errRange
  deriving DecidableEq, Repr

/-- Value of a decimal digit. -/
def digitVal (c : Char) : Option Nat :=
  if 48 ≤ c.toNat ∧ c.toNat ≤ 57 then some (c.toNat - 48) else none

/-- Digit loop of `strconv.ParseUint(s, 10, 64)` with accumulator `n`: a
character that is no digit gives `(0, ErrSyntax)`, an overflow gives
`(1<<64 - 1, ErrRange)` at once. -/
def parseUintLoop : Str → Nat → Nat × NumError
  | [], n => (n, .ok)
  | c :: cs, n =>
    match digitVal c with
    | none => (0, .errSyntax)
    | some v =>
      if n * 10 + v > 18446744073709551615 then (18446744073709551615, .errRange)
      else parseUintLoop cs (n * 10 + v)

/-- Go `strconv.ParseUint(s, 10, 64)`. -/
def ParseUint (s : Str) : Nat × NumError :=
  match s with
  | [] => (0, .errSyntax)
  | _ => parseUintLoop s 0

/-- Go `strconv.ParseInt(s, 10, 64)`: value and error.  The value is `0` on a
syntax error and the nearest bound on a range error. -/
def ParseInt (s : Str) : Int × NumError :=
  match s with
  | [] => (0, .errSyntax)
  | c :: cs =>
    let neg : Bool := c = Char.ofNat 45
    let body : Str := if c = Char.ofNat 43 ∨ c = Char.ofNat 45 then cs else c :: cs
    match ParseUint body with
    | (_, .errSyntax) => (0, .errSyntax)
    | (un, _) =>
      if !neg ∧ un ≥ 9223372036854775808 then (9223372036854775807, .errRange)
      else if neg ∧ un > 9223372036854775808 then (-9223372036854775808, .errRange)
      else (if neg then -(un : Int) else (un : Int), .ok)

/-- Go `strconv.Atoi(s)` on a 64-bit platform. -/
def Atoi (s : Str) : Int × NumError := ParseInt s

/-- Source `maxint`. -/
def maxint (x y : Int) : Int := if x > y then x else y

/-- Source `getnext`: the "next" hyperlink of a page, the empty string when the
page has none. -/
def getnext (webpage : Str) : Res Str :=
  let target1 := Index webpage "\"next\"".toList
  if target1 = -1 then .ok []
  else
    let target1 := target1 + ("next :   https://graph.facebook.com/  ".toList.length : Int)
    match sliceFrom webpage target1 with
    | none => .fail .sliceBounds
    | some rest =>
      let target2 := target1 + Index rest "\"".toList
      match slice webpage target1 target2 with
      | none => .fail .sliceBounds
      | some link => .ok (BASEURL ++ link)

/-- Source `getuntil`: what follows `until=` in the next hyperlink. -/
def getuntil (next : Str) : Res Str :=
  let target1 := Index next "until=".toList
  if target1 = -1 then .ok []
  else
    match sliceFrom next (target1 + ("until=".toList.length : Int)) with
    | none => .fail .sliceBounds
    | some r => .ok r

/-- Shared shape of `getmessage`, `getid` and `gettime`: find `key`, skip
`skip` characters, capture up to the next double quote.  The result is the
captured text and the position of that quote; `none` is "No more links.". -/
def getfield (webpage key : Str) (skip : Int) : Res (Option (Str × Int)) :=
  let target1 := Index webpage key
  if target1 = -1 then .ok none
  else
    let target1 := target1 + skip
    match sliceFrom webpage target1 with
    | none => .fail .sliceBounds
    | some rest =>
      let target2 := target1 + Index rest "\"".toList
      match slice webpage target1 target2 with
      | none => .fail .sliceBounds
      | some link => .ok (some (link, target2))

/-- Source `getmessage`. -/
def getmessage (webpage : Str) : Res (Option (Str × Int)) :=
  getfield webpage "\"message\"".toList (("message".toList.length : Int) + 4)

/-- Source `getid`: only the part of the id after the first underscore. -/
def getid (webpage : Str) : Res (Option (Str × Int)) :=
  match getfield webpage "\"id\"".toList (("id".toList.length : Int) + 4) with
  | .fail f => .fail f
  | .ok none => .ok none
  | .ok (some (link, target2)) =>
    let target3 := Index link "_".toList
    match sliceFrom link (target3 + 1) with
    | none => .fail .sliceBounds
    | some link2 => .ok (some (link2, target2))

/-- Source `gettime`. -/
def gettime (webpage : Str) : Res (Option (Str × Int)) :=
  getfield webpage "created_time".toList (("created_time".toList.length : Int) + 3)

/-- Source `getdata` with a step budget: the fields of the page three at a
time, appended to `mentionList`; an absent field appends the empty string and
ends the scan. -/
def getdataAux : Nat → Str → List Str → Res (List Str)
  | 0, _, _ => .fail .fuel
  | fuel + 1, webpage, mentionList =>
    match getmessage webpage with
    | .fail f => .fail f
    | .ok none => .ok (mentionList ++ [[]])
    | .ok (some (gotLink, _)) =>
      let mentionList := mentionList ++ [gotLink]
      match getid webpage with
      | .fail f => .fail f
      | .ok none => .ok (mentionList ++ [[]])
      | .ok (some (gotLink, _)) =>
        let mentionList := mentionList ++ [gotLink]
        match gettime webpage with
        | .fail f => .fail f
        | .ok none => .ok (mentionList ++ [[]])
        | .ok (some (gotLink, i)) =>
          let mentionList := mentionList ++ [gotLink]
          match sliceFrom webpage i with
          | none => .fail .sliceBounds
          | some rest => getdataAux fuel rest mentionList

/-- Source `getdata`; every recursive call is on a shorter page, so the budget
is never used up (`getdata_fail`). -/
def getdata (webpage : Str) (mentionList : List Str) : Res (List Str) :=
  getdataAux (webpage.length + 1) webpage mentionList

/-- Source `fixspace` with a step budget.  The result of the recursive call is
discarded, as in the source. -/
def fixspaceAux : Nat → Str → Res Str
  | 0, _ => .fail .fuel
  | fuel + 1, name =>
    let target1 := Index name " ".toList
    if target1 = -1 then .ok name
    else
      match sliceTo name target1, sliceFrom name (target1 + 1) with
      | some front, some back =>
        match fixspaceAux fuel (front ++ "%20".toList ++ back) with
        | .fail f => .fail f
        | .ok _ => .ok name
      | _, _ => .fail .sliceBounds

/-- Source `fixspace`; each recursive call has one space fewer, so the budget
is never used up (`fixspace_eq`). -/
def fixspace (name : Str) : Res Str := fixspaceAux (name.length + 1) name

/-! ## Timestamps -/

/-- The capability `time.Parse("2006-01-02T15:04:05+0000", s)`: the Unix seconds
of the parsed time, `none` when Go reports a parse error. -/
abbrev TimeParse := Str → Option Int

/-- Unix seconds of the zero `time.Time`, which `time.Parse` returns together
with an error. -/
def zeroTimeUnix : Int := -62135596800

/-- The expression `uint64(temptime.Unix())` of `convertdata`, the error of
`time.Parse` being ignored as in the source. -/
def unixOf (parse : TimeParse) (s : Str) : Nat :=
  toUint64 (match parse s with
    | some u => u
    | none => zeroTimeUnix)

/-- Value of a run of decimal digits, `none` if a character is no digit. -/
def digitsVal : Str → Nat → Option Nat
  | [], n => some n
  | c :: cs, n =>
    match digitVal c with
    | none => none
    | some v => digitsVal cs (n * 10 + v)

/-- Days of a month of the proleptic Gregorian calendar. -/
def daysIn (year month : Nat) : Nat :=
  if month = 2 then
    (if year % 4 = 0 ∧ (year % 100 ≠ 0 ∨ year % 400 = 0) then 29 else 28)
  else if month = 4 ∨ month = 6 ∨ month = 9 ∨ month = 11 then 30
  else 31

/-- Days from 1970-01-01 to the given civil date. -/
def daysFromCivil (year month day : Nat) : Int :=
  let y : Int := if month ≤ 2 then (year : Int) - 1 else (year : Int)
  let era : Int := y / 400
  let yoe : Int := y - era * 400
  let mp : Int := if month > 2 then (month : Int) - 3 else (month : Int) + 9
  let doy : Int := (153 * mp + 2) / 5 + (day : Int) - 1
  let doe : Int := yoe * 365 + yoe / 4 - yoe / 100 + doy
  era * 146097 + doe - 719468

/-- A `TimeParse` for concrete runs: it decodes the fixed-width form
`YYYY-MM-DDTHH:MM:SS+0000` of the layout, with the calendar ranges checked, and
reports a parse error on every other string.  On strings of the fixed-width
form, and on strings without a digit, it agrees with `time.Parse`; `time.Parse`
accepts in addition a one-digit hour and a fraction after the seconds, forms
that none of the concrete inputs has.  The general statements are about an
arbitrary `TimeParse`. -/
def parseLayout : TimeParse := fun s =>
  if s.length = 24 ∧ (s.drop 4).take 1 = "-".toList ∧ (s.drop 7).take 1 = "-".toList
      ∧ (s.drop 10).take 1 = "T".toList ∧ (s.drop 13).take 1 = ":".toList
      ∧ (s.drop 16).take 1 = ":".toList ∧ s.drop 19 = "+0000".toList then
    match digitsVal (s.take 4) 0, digitsVal ((s.drop 5).take 2) 0,
        digitsVal ((s.drop 8).take 2) 0, digitsVal ((s.drop 11).take 2) 0,
        digitsVal ((s.drop 14).take 2) 0, digitsVal ((s.drop 17).take 2) 0 with
    | some year, some month, some day, some hour, some min, some sec =>
      if 1 ≤ month ∧ month ≤ 12 ∧ 1 ≤ day ∧ day ≤ daysIn year month
          ∧ hour < 24 ∧ min < 60 ∧ sec < 60 then
        some (daysFromCivil year month day * 86400 + (hour : Int) * 3600
          + (min : Int) * 60 + (sec : Int))
      else none
    | _, _, _, _, _, _ => none
  else none

/-! ## Data model -/

/-- Source `Brand`. -/
structure Brand where
  Name : Str
  Aliases : List Str
  searchedbefore : Int
  time : Nat
  pass : Int
  index : Int
  deriving DecidableEq, Repr

/-- Source `Item`. -/
structure Item where
  mention : Str
  id : Int
  time : Nat
  index : Int
  deriving DecidableEq, Repr

/-- Source `Mention`, the document written to the store. -/
structure Mention where
  Name : Str
  Timestamp : Nat
  Source : Str
  Text : Str
  SourceLink : Str
  deriving DecidableEq, Repr

/-- What the heap methods of `Brands` and of `PriorityQueue` use of an
element: its `time` and the assignment to its `index`. -/
class HeapElem (α : Type) where
  time : α → Nat
  withIndex : α → Int → α

instance : HeapElem Brand where
  time := Brand.time
  withIndex := fun b i => { b with index := i }

instance : HeapElem Item where
  time := Item.time
  withIndex := fun x i => { x with index := i }

/-- A Go slice of elements: its contents and the capacity of its backing
array. -/
structure Queue (α : Type) where
  items : List α
  cap : Nat
  deriving DecidableEq, Repr

/-- Source `Brands`. -/
abbrev Brands := Queue Brand

/-- Source `PriorityQueue`. -/
abbrev PriorityQueue := Queue Item

namespace Queue

variable {α : Type} [HeapElem α]

/-- Source `Len` (both queue types). -/
def Len (q : Queue α) : Nat := q.items.length

/-- Source `Less` (both queue types): compares the `time` fields; an index
outside the slice panics. -/
def Less (l : List α) (i j : Nat) : Res Bool :=
  match l[i]?, l[j]? with
  | some a, some b => .ok (decide (HeapElem.time a < HeapElem.time b))
  | _, _ => .fail .indexRange

/-- Source `Swap` (both queue types): exchanges the two slots, then stores the
slot numbers in the `index` fields. -/
def Swap (l : List α) (i j : Nat) : Res (List α) :=
  match l[i]?, l[j]? with
  | some a, some b => .ok ((l.set i (HeapElem.withIndex b (i : Int))).set j (HeapElem.withIndex a (j : Int)))
  | _, _ => .fail .indexRange

/-- Source `Push` (both queue types): re-slices to length `n+1` inside the
backing array, which panics when the capacity is used up. -/
def Push (q : Queue α) (x : α) : Res (Queue α) :=
  if q.items.length + 1 ≤ q.cap then
    .ok { q with items := q.items ++ [HeapElem.withIndex x (q.items.length : Int)] }
  else .fail .queueFull

/-- Source `Pop` (both queue types): removes the last slot. -/
def Pop (q : Queue α) : Res (α × Queue α) :=
  match q.items.getLast? with
  | none => .fail .indexRange
  | some x => .ok (HeapElem.withIndex x (-1), { q with items := q.items.dropLast })

end Queue

namespace heap

variable {α : Type} [HeapElem α]

/-- Loop of `container/heap.up` from slot `j` (as in the current Go library:
the slot moves up while it is `Less` than its parent), with a step budget that
`j + 1` steps never use up (`up_ok`). -/
def up : Nat → List α → Nat → Res (List α)
  | 0, _, _ => .fail .fuel
  | fuel + 1, l, j =>
    let i := (j - 1) / 2
    if i = j then .ok l
    else
      match Queue.Less l j i with
      | .fail f => .fail f
      | .ok false => .ok l
      | .ok true =>
        match Queue.Swap l i j with
        | .fail f => .fail f
        | .ok l1 => up fuel l1 i

/-- Loop of `container/heap.down` from slot `i` over the first `n` slots (as in
the current Go library: the slot moves down while its least child is `Less`
than it), with a step budget that `n - i + 1` steps never use up (`down_ok`). -/
def down : Nat → List α → Nat → Nat → Res (List α)
  | 0, _, _, _ => .fail .fuel
  | fuel + 1, l, i, n =>
    let j1 := 2 * i + 1
    if j1 ≥ n then .ok l
    else
      match (if j1 + 1 < n then Queue.Less l (j1 + 1) j1 else .ok false) with
      | .fail f => .fail f
      | .ok right =>
        let j := if right then j1 + 1 else j1
        match Queue.Less l j i with
        | .fail f => .fail f
        | .ok false => .ok l
        | .ok true =>
          match Queue.Swap l i j with
          | .fail f => .fail f
          | .ok l1 => down fuel l1 j n

/-- Go `heap.Push(h, x)`: the method `Push`, then `up` from the last slot. -/
def Push (h : Queue α) (x : α) : Res (Queue α) :=
  match Queue.Push h x with
  | .fail f => .fail f
  | .ok h1 =>
    match up (Queue.Len h1) h1.items (Queue.Len h1 - 1) with
    | .fail f => .fail f
    | .ok l => .ok { h1 with items := l }

/-- Go `heap.Pop(h)`: swap the first and the last slot, `down` from the first
over the others, then the method `Pop`.  On an empty queue the swap panics. -/
def Pop (h : Queue α) : Res (α × Queue α) :=
  if Queue.Len h = 0 then .fail .indexRange
  else
    let n := Queue.Len h - 1
    match Queue.Swap h.items 0 n with
    | .fail f => .fail f
    | .ok l1 =>
      match down (n + 1) l1 0 n with
      | .fail f => .fail f
      | .ok l2 => Queue.Pop { h with items := l2 }

end heap

/-! ## The crawl -/

/-- Process state outside the brand queue, with the trace of what a run did.
`pq` and `tempTimestamp` are the variables of the source; `store` is the
collection "mention" (documents in insertion order); `fetched` lists the URLs
requested with `http.Get`, `extracted` the cursor depth and raw list of every
page handed to `convertdata`, and `popped` the brands as `heap.Pop` returned
them. -/
structure World where
  pq : PriorityQueue
  tempTimestamp : Nat
  store : List Mention
  fetched : List Str
  extracted : List (Int × List Str)
  popped : List Brand
  deriving DecidableEq, Repr

/-- The document `convertdata` inserts for a record of brand `cb`. -/
def mkMention (cb : Brand) (text : Str) (time : Nat) : Mention :=
  { Name := cb.Name, Timestamp := time, Source := "facebook".toList, Text := text,
    SourceLink := "n/a".toList }

/-- Loop of source `convertdata` from index `i`, with a step budget. -/
def convertLoop (parse : TimeParse) (mentionList : List Str) (cb : Brand) :
    Nat → Nat → World → Run World
  | 0, _, w => .halt .fuel w
  | fuel + 1, i, w =>
    if (i : Int) < (mentionList.length : Int) - 2 then
      match mentionList[i]?, mentionList[i + 1]?, mentionList[i + 2]? with
      | some text, some idStr, some timeStr =>
        let temp : Item :=
          { mention := text, id := (ParseInt idStr).1, time := unixOf parse timeStr, index := 0 }
        if cb.time ≥ temp.time then .done w
        else
          let w1 : World :=
            if temp.time > w.tempTimestamp then { w with tempTimestamp := temp.time } else w
          match heap.Push w1.pq temp with
          | .fail f => .halt f w1
          | .ok pq1 =>
            convertLoop parse mentionList cb fuel (i + 3)
              { w1 with pq := pq1, store := w1.store ++ [mkMention cb temp.mention temp.time] }
      | _, _, _ => .halt .indexRange w
    else .done w

/-- Source `convertdata`.  Every pass of the loop advances the index by three,
so the budget is never used up (`convertdata_eq`). -/
def convertdata (parse : TimeParse) (mentionList : List Str) (w : World) (cb : Brand) :
    Run World :=
  convertLoop parse mentionList cb (mentionList.length + 1) 0 w

/-- Source `crawl` with a step budget; `resp` is the body of the response, as
`ioutil.ReadAll` has read it, and `fetch` the transport.  The call
`http.Get(nextLink)` is logged in `fetched` whatever its result; an error of
that call, or of reading the body at the start of the recursive call, is a
panic. -/
def crawlAux (parse : TimeParse) (fetch : Transport) :
    Nat → Str → Int → World → Brand → Run (World × Brand)
  | 0, _, _, w, cb => .halt .fuel (w, cb)
  | fuel + 1, resp, page, w, cb =>
    let page := wrapInt (page + 1)
    match getnext resp with
    | .fail f => .halt f (w, cb)
    | .ok nextLink =>
      if page > 4 ∨ nextLink = [] then .done (w, cb)
      else
        match getuntil nextLink with
        | .fail f => .halt f (w, cb)
        | .ok str =>
          let depth := (Atoi str).1
          if cb.pass > 1 ∧ cb.searchedbefore ≥ depth then .done (w, cb)
          else
            let cb1 : Brand := { cb with searchedbefore := maxint cb.searchedbefore depth }
            match getdata resp [] with
            | .fail f => .halt f (w, cb1)
            | .ok mentionList =>
              let w1 : World := { w with extracted := w.extracted ++ [(depth, mentionList)] }
              match convertdata parse mentionList w1 cb1 with
              | .halt f w2 => .halt f (w2, cb1)
              | .done w2 =>
                let w3 : World := { w2 with fetched := w2.fetched ++ [nextLink] }
                match fetch nextLink with
                | .getError => .halt .httpGet (w3, cb1)
                | .readError => .halt .readBody (w3, cb1)
                | .body next => crawlAux parse fetch fuel next page w3 cb1

/-- Source `crawl`.  From page 0 the recursion is at most five calls deep, so
the budget is never used up (`crawlAux_fuel`, `crawlAux_spec`). -/
def crawl (parse : TimeParse) (fetch : Transport) (resp : Str) (page : Int) (w : World)
    (cb : Brand) : Run (World × Brand) :=
  crawlAux parse fetch 5 resp page w cb

/-- URL of the first search page of a brand. -/
def firstUrl (name : Str) : Str :=
  BASEURL ++ "/search?fields=message&q=".toList ++ name ++ "&type=post&limit=100".toList

/-- Body of the loop of source `crawler` between `heap.Pop` and `heap.Push`:
one crawl cycle of `currentbrand`, `now` being the reading `time.Now().Unix()`.
An error of the first `http.Get` is a panic before `pass` is counted up, an
error of reading the body a panic at the start of `crawl`, after it. -/
def cycle (parse : TimeParse) (fetch : Transport) (now : Int) (w : World)
    (currentbrand : Brand) : Run (World × Brand) :=
  let w1 : World := { w with tempTimestamp := currentbrand.time }
  match fixspace currentbrand.Name with
  | .fail f => .halt f (w1, currentbrand)
  | .ok name =>
    let url := firstUrl name
    let w2 : World := { w1 with fetched := w1.fetched ++ [url] }
    let cb1 : Brand := { currentbrand with pass := wrapInt (currentbrand.pass + 1) }
    match fetch url with
    | .getError => .halt .httpGet (w2, currentbrand)
    | .readError => .halt .readBody (w2, cb1)
    | .body resp =>
      match crawl parse fetch resp 0 w2 cb1 with
      | .halt f s => .halt f s
      | .done (w3, cb2) =>
        let cb3 : Brand :=
          if cb2.time < w3.tempTimestamp then { cb2 with time := w3.tempTimestamp } else cb2
        .done (w3, { cb3 with time := toUint64 now })

/-- What one pass of the loop of `crawler` meets outside the program: the
transport and the wall-clock reading. -/
structure Env where
  fetch : Transport
  now : Int

/-- One pass of the loop of source `crawler`. -/
def crawlerStep (parse : TimeParse) (env : Env) (w : World) (brand : Brands) :
    Run (World × Brands) :=
  match heap.Pop brand with
  | .fail f => .halt f (w, brand)
  | .ok (currentbrand, brand1) =>
    let w1 : World := { w with popped := w.popped ++ [currentbrand] }
    match cycle parse env.fetch env.now w1 currentbrand with
    | .halt f (w2, _) => .halt f (w2, brand1)
    | .done (w2, cb) =>
      match heap.Push brand1 cb with
      | .fail f => .halt f (w2, brand1)
      | .ok brand2 => .done (w2, brand2)

/-- Loop of source `crawler` from counter `i`, with a step budget; `envs i` is
what pass `i` meets. -/
def crawlerLoop (parse : TimeParse) (envs : Nat → Env) :
    Nat → Nat → World → Brands → Run (World × Brands)
  | 0, _, w, brand => .halt .fuel (w, brand)
  | fuel + 1, i, w, brand =>
    if i < Queue.Len brand then
      match crawlerStep parse (envs i) w brand with
      | .halt f s => .halt f s
      | .done (w1, brand1) => crawlerLoop parse envs fuel (i + 1) w1 brand1
    else .done (w, brand)

/-- Source `crawler`: one sweep over the queue.  A pass leaves the length of
the queue as it was, so the budget is never used up (`crawlerLoop_inv`). -/
def crawler (parse : TimeParse) (envs : Nat → Env) (w : World) (brand : Brands) :
    Run (World × Brands) :=
  crawlerLoop parse envs (Queue.Len brand + 1) 0 w brand

/-- Loop of source `retrieveBrands`: for every loaded record, in order, a new
brand with the record's `Name` (and nothing else of it) is pushed onto `br`. -/
def rebuild : List Brand → Brands → Res Brands
  | [], br => .ok br
  | r :: rest, br =>
    let item : Brand :=
      { Name := r.Name, Aliases := [], searchedbefore := 0, time := 0, pass := 0, index := 0 }
    match heap.Push br item with
    | .fail f => .fail f
    | .ok br1 => rebuild rest br1

/-- Source `retrieveBrands`: `brand` is the queue held by the program and
`brandList` the records the store returns (the query is taken to succeed). -/
def retrieveBrands (brand : Brands) (brandList : List Brand) : Res Brands :=
  if brand.items.length = brandList.length then .ok brand
  else rebuild brandList { items := [], cap := brandList.length }

/-! ## Notions used to state the properties -/

/-- Laws of the two element types: assigning `index` leaves `time` alone, and
the last assignment wins. -/
class LawfulHeapElem (α : Type) [HeapElem α] : Prop where
  time_withIndex : ∀ (a : α) (i : Int),
    HeapElem.time (HeapElem.withIndex a i) = HeapElem.time a
  withIndex_withIndex : ∀ (a : α) (i j : Int),
    HeapElem.withIndex (HeapElem.withIndex a i) j = HeapElem.withIndex a j

instance : LawfulHeapElem Brand where
  time_withIndex := fun _ _ => rfl
  withIndex_withIndex := fun _ _ _ => rfl

instance : LawfulHeapElem Item where
  time_withIndex := fun _ _ => rfl
  withIndex_withIndex := fun _ _ _ => rfl

/-- The `time` held in slot `k` (0 outside the slice). -/
def timeAt {α : Type} [HeapElem α] (l : List α) (k : Nat) : Nat :=
  match l[k]? with
  | some a => HeapElem.time a
  | none => 0

/-- Min-heap order on `time` over the first `n` slots: no slot is below its
parent slot `(j - 1) / 2`. -/
def heapUpTo {α : Type} [HeapElem α] (l : List α) (n : Nat) : Prop :=
  ∀ j, j < n → timeAt l ((j - 1) / 2) ≤ timeAt l j

instance {α : Type} [HeapElem α] (l : List α) (n : Nat) : Decidable (heapUpTo l n) := by
  unfold heapUpTo; infer_instance

/-- The queue satisfies the min-heap order on `time`. -/
def Queue.ordered {α : Type} [HeapElem α] (q : Queue α) : Prop :=
  heapUpTo q.items q.items.length

instance {α : Type} [HeapElem α] (q : Queue α) : Decidable q.ordered := by
  unfold Queue.ordered; infer_instance

/-- An element without the bookkeeping of the heap (its `index` reset). -/
def unindexed {α : Type} [HeapElem α] (a : α) : α := HeapElem.withIndex a 0

/-- The complete `(text, id, timeString)` records of a raw list, in order. -/
def triples : List Str → List (Str × Str × Str)
  | a :: b :: c :: rest => (a, b, c) :: triples rest
  | _ => []

/-- Timestamp `convertdata` gives a record. -/
def recTime (parse : TimeParse) (r : Str × Str × Str) : Nat := unixOf parse r.2.2

/-- The longest leading run of records whose timestamp is strictly greater
than the mark `T`. -/
def fresh (parse : TimeParse) (T : Nat) (raw : List Str) : List (Str × Str × Str) :=
  (triples raw).takeWhile (fun r => decide (T < recTime parse r))

/-- The loop of `convertdata` read record by record instead of by index
(`convertLoop_eq` relates the two). -/
def convertRecords (parse : TimeParse) (cb : Brand) : List (Str × Str × Str) → World → Run World
  | [], w => .done w
  | (text, idStr, timeStr) :: rs, w =>
    let temp : Item :=
      { mention := text, id := (ParseInt idStr).1, time := unixOf parse timeStr, index := 0 }
    if cb.time ≥ temp.time then .done w
    else
      let w1 : World :=
        if temp.time > w.tempTimestamp then { w with tempTimestamp := temp.time } else w
      match heap.Push w1.pq temp with
      | .fail f => .halt f w1
      | .ok pq1 =>
        convertRecords parse cb rs
          { w1 with pq := pq1, store := w1.store ++ [mkMention cb temp.mention temp.time] }

/-- The documents written for a list of records. -/
def mentionsOf (parse : TimeParse) (cb : Brand) (rs : List (Str × Str × Str)) : List Mention :=
  rs.map (fun r => mkMention cb r.1 (recTime parse r))

/-- The deepest cursor depth among `sb` and the pages of an `extracted`
trace, taken with `maxint` page after page. -/
def deepest (sb : Int) (ex : List (Int × List Str)) : Int :=
  ex.foldl (fun m e => maxint m e.1) sb

/-- The documents written for the pages of an `extracted` trace: of each page
the leading run of records newer than `cb.time`. -/
def pageMentions (parse : TimeParse) (cb : Brand) : List (Int × List Str) → List Mention
  | [] => []
  | e :: ex => mentionsOf parse cb (fresh parse cb.time e.2) ++ pageMentions parse cb ex

/-- The next links a walk requests when only the stopping rules of the walker
are applied (page limit, absent next cursor, depth check against `sb` on a
pass above 1) and the walk ends at a link the transport gives no body for: no
record and no timestamp is looked at. -/
def walkLinks (fetch : Transport) : Nat → Str → Int → Int → Int → List Str
  | 0, _, _, _, _ => []
  | fuel + 1, resp, page, pass, sb =>
    match getnext resp with
    | .fail _ => []
    | .ok nextLink =>
      if page + 1 > 4 ∨ nextLink = [] then []
      else
        match getuntil nextLink with
        | .fail _ => []
        | .ok str =>
          if pass > 1 ∧ sb ≥ (Atoi str).1 then []
          else
            nextLink ::
              match fetch nextLink with
              | .body next => walkLinks fetch fuel next (page + 1) pass (maxint sb (Atoi str).1)
              | _ => []

/-- Successive crawl cycles of one brand, one per entry of `envs`: the brand
as it stands after each completed cycle (a panic ends the list). -/
def cycles (parse : TimeParse) : List Env → World → Brand → List Brand
  | [], _, _ => []
  | e :: es, w, cb =>
    match cycle parse e.fetch e.now w cb with
    | .halt _ _ => []
    | .done (w1, cb1) => cb1 :: cycles parse es w1 cb1

/-- Where a sweep of `crawler` over the brands `L0` stands when the brands `P`
have been popped, in this order: `R` are the brands of `L0` not yet popped, `Q`
the brands pushed back, all of them later than every time of `L0`. -/
def SweepInv (L0 : List Brand) (w0 : World) (cap : Nat) (wi : World) (q : Brands)
    (P : List Brand) : Prop :=
  wi.popped = w0.popped ++ P
  ∧ ∃ R Q : List Brand,
      (P.map unindexed ++ R).Perm (L0.map unindexed)
      ∧ (q.items.map unindexed).Perm (R ++ Q)
      ∧ (∀ x, x ∈ Q → ∀ b, b ∈ L0 → b.time < x.time)
      ∧ (P.map Brand.time).Pairwise (fun a b => a ≤ b)
      ∧ (∀ p, p ∈ P → ∀ r, r ∈ R → p.time ≤ r.time)
      ∧ q.ordered ∧ q.items.length = L0.length ∧ q.cap = cap

/-- The brands `retrieveBrands` makes of loaded records, the first of them
for slot `start`: name of the record, everything else zero, `index` the slot. -/
def freshBrands : Nat → List Brand → List Brand
  | _, [] => []
  | start, r :: rest =>
    { Name := r.Name, Aliases := [], searchedbefore := 0, time := 0, pass := 0,
      index := (start : Int) } :: freshBrands (start + 1) rest

/-- State `w1` is reached from `w` by writing mentions: the store has grown by
the list `new`, the in-memory queue by one item per mention of `new`, and its
backing array is the same. -/
def Grows (w w1 : World) : Prop :=
  ∃ new : List Mention, w1.store = w.store ++ new
    ∧ w1.pq.items.length = w.pq.items.length + new.length
    ∧ w1.pq.cap = w.pq.cap

/-- The trace `ex` lists pages that a walk arriving at the page `resp`, with
page counter `page` and depth mark `sb`, hands to `convertdata` one after the
other: each of them has a next cursor, the page index `page + 1` is at most 4,
the depth check lets it pass, the entry is its cursor depth and the raw list
`getdata` makes of it, and the page after it, if there is one in the trace, is
the body of the response to its next link. -/
def walked (fetch : Transport) (pass : Int) :
    Int → Int → Str → List (Int × List Str) → Prop
  | _, _, _, [] => True
  | page, sb, resp, e :: ex =>
    ∃ nextLink str, getnext resp = .ok nextLink ∧ nextLink ≠ [] ∧ page + 1 ≤ 4
      ∧ getuntil nextLink = .ok str ∧ ¬ (pass > 1 ∧ sb ≥ (Atoi str).1)
      ∧ e.1 = (Atoi str).1 ∧ getdata resp [] = .ok e.2
      ∧ (ex = [] ∨ ∃ next, fetch nextLink = .body next
          ∧ walked fetch pass (page + 1) (maxint sb e.1) next ex)

/-! ## Concrete inputs -/

/-- The process state right after `main` has made the in-memory queue. -/
def startWorld : World :=
  { pq := { items := [], cap := 99999 }, tempTimestamp := 0, store := [], fetched := [],
    extracted := [], popped := [] }

/-- The first `n` passes of the endless loop of source `main` (the sleep
aside), from the empty in-memory queue and the nil brand queue: `loads k` is
the brand list the store returns in pass `k` and `envs k` what the sweep of
pass `k` meets. -/
def mainRun (parse : TimeParse) (loads : Nat → List Brand) (envs : Nat → Nat → Env) :
    Nat → Run (World × Brands)
  | 0 => .done (startWorld, { items := [], cap := 0 })
  | n + 1 =>
    match mainRun parse loads envs n with
    | .halt f s => .halt f s
    | .done (w, brand) =>
      match retrieveBrands brand (loads n) with
      | .fail f => .halt f (w, brand)
      | .ok brand1 => crawler parse (envs n) w brand1

/-- Two records loaded from the store, with aliases. -/
def loaded2 : List Brand :=
  [{ Name := "acme".toList, Aliases := ["acme inc".toList], searchedbefore := 0, time := 0,
     pass := 0, index := 0 },
   { Name := "bolt".toList, Aliases := [], searchedbefore := 0, time := 0, pass := 0,
     index := 0 }]

/-- Three records loaded from the store. -/
def loaded3 : List Brand :=
  [{ Name := "acme".toList, Aliases := [], searchedbefore := 0, time := 0, pass := 0, index := 0 },
   { Name := "dune".toList, Aliases := [], searchedbefore := 0, time := 0, pass := 0, index := 0 },
   { Name := "coil".toList, Aliases := [], searchedbefore := 0, time := 0, pass := 0, index := 0 }]

/-- A brand whose mark is 80 seconds after the epoch. -/
def brand80 : Brand :=
  { Name := "acme".toList, Aliases := [], searchedbefore := 0, time := 80, pass := 1, index := -1 }

/-- A raw list of four records with timestamps 100, 80, 50 and 30, ended by
the empty field `getdata` appends. -/
def raw100 : List Str :=
  ["first".toList, "11".toList, "1970-01-01T00:01:40+0000".toList,
   "second".toList, "12".toList, "1970-01-01T00:01:20+0000".toList,
   "third".toList, "13".toList, "1970-01-01T00:00:50+0000".toList,
   "fourth".toList, "14".toList, "1970-01-01T00:00:30+0000".toList,
   []]

/-- Three brands in heap order, in a slice of capacity 3. -/
def brands3 : Brands :=
  { items :=
      [{ Name := "acme".toList, Aliases := [], searchedbefore := 0, time := 10, pass := 1, index := 0 },
       { Name := "bolt".toList, Aliases := [], searchedbefore := 0, time := 30, pass := 1, index := 1 },
       { Name := "coil".toList, Aliases := [], searchedbefore := 0, time := 20, pass := 1, index := 2 }],
    cap := 3 }

/-- One post of a search page, printed as the Graph API prints it. -/
def post (id message time : String) : Str :=
  "\x7b\"id\":\"".toList ++ id.toList ++ "\",\"message\":\"".toList ++ message.toList
    ++ "\",\"created_time\":\"".toList ++ time.toList ++ "\"\x7d".toList

/-- A search page: its posts and, unless `next` is empty, the paging object
whose next link is `next` on the API host (slashes escaped as the API does). -/
def searchPage (posts : List Str) (next : String) : Str :=
  "\x7b\"data\":[".toList ++ List.intercalate ",".toList posts ++ "]".toList
    ++ (if next = "" then []
        else ",\"paging\":\x7b\"next\":\"https:\\/\\/graph.facebook.com\\/".toList
          ++ next.toList ++ "\"\x7d".toList)
    ++ "\x7d".toList

/-- First page of a small feed: one post of timestamp 80 and a next link of
depth 70. -/
def feedPage1 : Str :=
  searchPage [post "7_11" "old news" "1970-01-01T00:01:20+0000"] "search?q=acme&until=70"

/-- Second page: one post of timestamp 100 and a next link of depth 60. -/
def feedPage2 : Str :=
  searchPage [post "7_12" "fresh news" "1970-01-01T00:01:40+0000"] "search?q=acme&until=60"

/-- Third page: one post of timestamp 90 and no next link. -/
def feedPage3 : Str :=
  searchPage [post "7_13" "last news" "1970-01-01T00:01:30+0000"] ""

/-- Transport of the small feed: the two next links lead to the second and
third page, every other URL to the first page. -/
def feed : Transport := fun url =>
  if url = "https://graph.facebook.com/search?q=acme&until=70".toList then .body feedPage2
  else if url = "https://graph.facebook.com/search?q=acme&until=60".toList then .body feedPage3
  else .body feedPage1

/-- A brand as `retrieveBrands` rebuilds it, popped from the queue. -/
def brand0 : Brand :=
  { Name := "acme".toList, Aliases := [], searchedbefore := 0, time := 0, pass := 0, index := -1 }

/-- A page without posts and without next link. -/
def lastPage : Str := searchPage [] ""

/-- The feed of brand "acme" at a first cycle: the first search page shows one
post, created 2013-05-01 10:00:05 UTC (1367402405), and a next link of depth
1367402000 that leads to `lastPage`. -/
def skewFeed1 : Transport := fun url =>
  if url = firstUrl "acme".toList then
    .body (searchPage [post "7_21" "launch day" "2013-05-01T10:00:05+0000"]
      "search?q=acme&until=1367402000")
  else .body lastPage

/-- The same feed one cycle later: the same post is still first, the next
cursor has moved to depth 1367402300. -/
def skewFeed2 : Transport := fun url =>
  if url = firstUrl "acme".toList then
    .body (searchPage [post "7_21" "launch day" "2013-05-01T10:00:05+0000"]
      "search?q=acme&until=1367402300")
  else .body lastPage

/-- A first search page with one post of timestamp 100 and a next link whose
cursor is no number (`until=soon`). -/
def badCursorPage : Str :=
  searchPage [post "7_31" "hello" "1970-01-01T00:01:40+0000"] "search?q=acme&until=soon"

/-- Transport that answers the next link of `badCursorPage`, and every other
URL, with `lastPage`. -/
def badCursorFeed : Transport := fun _ => .body lastPage

/-- A first search page with one post of timestamp 100 and a next link whose
cursor holds a tab character (`until=<tab>5`). -/
def tabCursorPage : Str :=
  searchPage [post "7_32" "hello" "1970-01-01T00:01:40+0000"] "search?q=acme&until=\t5"

/-- Transport that refuses, as `http.Get` does, a URL with an ASCII control
character in it, and answers every other URL with `lastPage`. -/
def strictFeed : Transport := fun url =>
  if url.any (fun c => decide (c.toNat < 32 ∨ c.toNat = 127)) then .getError
  else .body lastPage

/-- A raw list of two records newer than the mark 80, the first with an id
that is no number, ended by the empty field `getdata` appends. -/
def rawBadId : List Str :=
  ["first".toList, "x11".toList, "1970-01-01T00:01:40+0000".toList,
   "second".toList, "12".toList, "1970-01-01T00:01:30+0000".toList,
   []]

/-- A raw list of two records: the first dated one second before the epoch,
the second with a time string that is no time. -/
def rawBadTime : List Str :=
  ["early".toList, "41".toList, "1969-12-31T23:59:59+0000".toList,
   "undated".toList, "42".toList, "yesterday".toList,
   []]

/-- A raw list of two records for the mark 80: the first is not newer than
the mark, the second is newer and has an id that is no number. -/
def rawBehind : List Str :=
  ["old".toList, "21".toList, "1970-01-01T00:01:20+0000".toList,
   "new".toList, "x22".toList, "1970-01-01T00:01:40+0000".toList,
   []]

/-! ## The string helpers -/

theorem indexFrom_ge (sep : Str) : ∀ (s : Str) (k : Nat),
    indexFrom sep s k = -1 ∨ (k : Int) ≤ indexFrom sep s k
  | [], k => by
    unfold indexFrom
    split
    · exact Or.inr (Int.le_refl _)
    · exact Or.inl rfl
  | c :: cs, k => by
    unfold indexFrom
    split
    · exact Or.inr (Int.le_refl _)
    · rcases indexFrom_ge sep cs (k + 1) with h | h
      · exact Or.inl h
      · exact Or.inr (by omega)

theorem Index_ge (s sep : Str) : Index s sep = -1 ∨ 0 ≤ Index s sep := by
  rcases indexFrom_ge sep s 0 with h | h
  · exact Or.inl h
  · exact Or.inr (by simpa [Index] using h)

/-- Search for a single character: it is absent, or the index is the length of
the part before its first occurrence. -/
theorem indexFrom_single (x : Char) : ∀ (s : Str) (k : Nat),
    (indexFrom [x] s k = -1 ∧ x ∉ s)
    ∨ ∃ a b, s = a ++ x :: b ∧ x ∉ a ∧ indexFrom [x] s k = (k : Int) + (a.length : Int)
  | [], k => Or.inl ⟨by simp [indexFrom], by simp⟩
  | c :: cs, k => by
    unfold indexFrom
    by_cases hc : x = c
    · subst hc
      refine Or.inr ⟨[], cs, rfl, by simp, ?_⟩
      simp [List.isPrefixOf]
    · have hp : List.isPrefixOf [x] (c :: cs) = false := by
        simp [List.isPrefixOf, hc]
      rw [hp]
      simp only [Bool.false_eq_true, if_false]
      rcases indexFrom_single x cs (k + 1) with ⟨h1, h2⟩ | ⟨a, b, h1, h2, h3⟩
      · exact Or.inl ⟨h1, by simp [hc, h2]⟩
      · refine Or.inr ⟨c :: a, b, by simp [h1], ?_, ?_⟩
        · simp [hc, h2]
        · rw [h3]; simp only [List.length_cons]; push_cast; omega

theorem slice_split (a b : Str) (x : Char) :
    sliceTo (a ++ x :: b) (a.length : Int) = some a
    ∧ sliceFrom (a ++ x :: b) ((a.length : Int) + 1) = some b := by
  constructor
  · unfold sliceTo slice
    have h : (0 : Int) ≤ 0 ∧ (0 : Int) ≤ (a.length : Int)
        ∧ (a.length : Int) ≤ ((a ++ x :: b).length : Int) := by
      simp only [List.length_append, List.length_cons]; omega
    rw [if_pos h]
    simp
  · unfold sliceFrom slice
    have h : (0 : Int) ≤ (a.length : Int) + 1
        ∧ (a.length : Int) + 1 ≤ ((a ++ x :: b).length : Int)
        ∧ ((a ++ x :: b).length : Int) ≤ ((a ++ x :: b).length : Int) := by
      simp only [List.length_append, List.length_cons]; omega
    rw [if_pos h]
    have e1 : ((a.length : Int) + 1).toNat = a.length + 1 := by omega
    have e2 : (((a ++ x :: b).length : Int) - ((a.length : Int) + 1)).toNat = b.length := by
      simp only [List.length_append, List.length_cons]; omega
    rw [e1, e2]
    have e3 : List.drop (a.length + 1) (a ++ x :: b) = b := by
      simp [List.drop_append_eq_append_drop]
    rw [e3]
    simp

/-- The recursion of `fixspace` ends within one call per space, and the value
returned is the name it was given: the substitution made for the recursive
call is discarded. -/
theorem fixspaceAux_eq : ∀ (fuel : Nat) (name : Str),
    name.count (Char.ofNat 32) < fuel → fixspaceAux fuel name = .ok name
  | 0, _, h => by omega
  | fuel + 1, name, h => by
    unfold fixspaceAux
    have hsp : " ".toList = [Char.ofNat 32] := by decide
    simp only [Index, hsp]
    rcases indexFrom_single (Char.ofNat 32) name 0 with ⟨h1, _⟩ | ⟨a, b, h1, h2, h3⟩
    · simp [h1]
    · have hne : ¬ indexFrom [Char.ofNat 32] name 0 = -1 := by rw [h3]; omega
      rw [if_neg hne, h3]
      have e : ((0 : Nat) : Int) + (a.length : Int) = (a.length : Int) := by omega
      rw [e]
      subst h1
      rw [(slice_split a b _).1, (slice_split a b _).2]
      simp only []
      have hcount : (a ++ "%20".toList ++ b).count (Char.ofNat 32) < fuel := by
        have h20 : "%20".toList.count (Char.ofNat 32) = 0 := by decide
        simp only [List.count_append, List.count_cons_self, h20] at h ⊢
        omega
      rw [fixspaceAux_eq fuel _ hcount]

/-- `fixspace` returns, and returns its argument. -/
theorem fixspace_eq (name : Str) : fixspace name = .ok name :=
  fixspaceAux_eq _ name (Nat.lt_succ_of_le (List.count_le_length _ _))

theorem slice_some {s : Str} {lo hi : Int} {r : Str} (h : slice s lo hi = some r) :
    0 ≤ lo ∧ lo ≤ hi ∧ hi ≤ (s.length : Int) ∧ (r.length : Int) = hi - lo := by
  unfold slice at h
  split at h
  · rename_i hc
    have : r = List.take (hi - lo).toNat (List.drop lo.toNat s) := by
      cases h; rfl
    refine ⟨hc.1, hc.2.1, hc.2.2, ?_⟩
    rw [this, List.length_take, List.length_drop]
    omega
  · cases h

/-- A captured field ends after the key and the skipped characters; the only
panic of the capture is a slice out of range. -/
theorem getfield_ok {webpage key : Str} {skip : Int} {link : Str} {t : Int}
    (h : getfield webpage key skip = .ok (some (link, t))) :
    skip ≤ t ∧ t ≤ (webpage.length : Int) := by
  unfold getfield at h
  simp only [] at h
  split at h
  · cases h
  · rename_i hidx
    have hge : 0 ≤ Index webpage key := by
      rcases Index_ge webpage key with h1 | h1
      · exact absurd h1 hidx
      · exact h1
    split at h
    · cases h
    · split at h
      · cases h
      · rename_i link1 hs
        cases h
        obtain ⟨_, h2, h3, _⟩ := slice_some hs
        exact ⟨by omega, h3⟩

theorem getfield_fail {webpage key : Str} {skip : Int} {f : Fault}
    (h : getfield webpage key skip = .fail f) : f = .sliceBounds := by
  unfold getfield at h
  simp only [] at h
  split at h
  · cases h
  · split at h
    · cases h; rfl
    · split at h
      · cases h; rfl
      · cases h

theorem getid_fail {webpage : Str} {f : Fault} (h : getid webpage = .fail f) :
    f = .sliceBounds := by
  unfold getid at h
  split at h
  · rename_i f1 hf
    cases h
    exact getfield_fail hf
  · cases h
  · simp only [] at h
    split at h
    · cases h; rfl
    · cases h

/-- The recursion of `getdata` is on an ever shorter page: with a budget above
the length of the page its only panic is a slice out of range. -/
theorem getdataAux_fail : ∀ (fuel : Nat) (webpage : Str) (mentionList : List Str) (f : Fault),
    webpage.length < fuel → getdataAux fuel webpage mentionList = .fail f → f = .sliceBounds
  | 0, _, _, _, h, _ => by omega
  | fuel + 1, webpage, mentionList, f, hfuel, h => by
    unfold getdataAux at h
    split at h
    · rename_i f1 hf
      cases h
      exact getfield_fail hf
    · cases h
    · simp only [] at h
      split at h
      · rename_i f1 hf
        cases h
        exact getid_fail hf
      · cases h
      · split at h
        · rename_i f1 hf
          cases h
          exact getfield_fail hf
        · cases h
        · rename_i gotLink i ht
          split at h
          · cases h; rfl
          · rename_i rest hr
            have h1 := (getfield_ok ht).1
            have h2 := slice_some hr
            have hlen : rest.length < fuel := by
              have : (("created_time".toList.length : Nat) : Int) = 12 := by decide
              omega
            exact getdataAux_fail fuel rest _ f hlen h

theorem getdata_fail (webpage : Str) (mentionList : List Str) (f : Fault)
    (h : getdata webpage mentionList = .fail f) : f = .sliceBounds :=
  getdataAux_fail _ webpage mentionList f (Nat.lt_succ_self _) h

theorem getnext_fail {webpage : Str} {f : Fault} (h : getnext webpage = .fail f) :
    f = .sliceBounds := by
  unfold getnext at h
  simp only [] at h
  split at h
  · cases h
  · split at h
    · cases h; rfl
    · split at h
      · cases h; rfl
      · cases h

theorem getuntil_fail {next : Str} {f : Fault} (h : getuntil next = .fail f) :
    f = .sliceBounds := by
  unfold getuntil at h
  simp only [] at h
  split at h
  · cases h
  · split at h
    · cases h; rfl
    · cases h

/-! ## The heap operations -/

section HeapLemmas

variable {α : Type} [HeapElem α]

theorem timeAt_of_getElem? {l : List α} {k : Nat} {a : α} (h : l[k]? = some a) :
    timeAt l k = HeapElem.time a := by
  simp [timeAt, h]

theorem timeAt_set (l : List α) (i k : Nat) (x : α) :
    timeAt (l.set i x) k = if i = k ∧ i < l.length then HeapElem.time x else timeAt l k := by
  unfold timeAt
  rw [List.getElem?_set]
  by_cases h : i = k
  · subst h
    by_cases h2 : i < l.length
    · simp [h2]
    · have : l[i]? = none := by simp; omega
      simp [h2, this]
  · simp [h]

theorem getElem?_some_of_lt {β : Type} (l : List β) {i : Nat} (hi : i < l.length) :
    ∃ a, l[i]? = some a :=
  ⟨l[i], List.getElem?_eq_getElem hi⟩

theorem Less_ok (l : List α) {i j : Nat} (hi : i < l.length) (hj : j < l.length) :
    Queue.Less l i j = .ok (decide (timeAt l i < timeAt l j)) := by
  obtain ⟨a, ha⟩ := getElem?_some_of_lt l hi
  obtain ⟨b, hb⟩ := getElem?_some_of_lt l hj
  simp [Queue.Less, timeAt, ha, hb]

theorem perm_set_cons {β : Type} (x b : β) :
    ∀ (xs : List β) (k : Nat), xs[k]? = some b → (b :: xs.set k x).Perm (x :: xs)
  | [], k, h => by simp at h
  | y :: ys, 0, h => by
    have : y = b := by simpa using h
    subst this
    exact List.Perm.swap _ _ _
  | y :: ys, k + 1, h => by
    have h1 : ys[k]? = some b := by simpa using h
    have ih := perm_set_cons x b ys k h1
    exact ((List.Perm.swap y b _).trans (ih.cons y)).trans (List.Perm.swap x y _)

theorem plainSwap_perm {β : Type} :
    ∀ (l : List β) (i j : Nat) (a b : β), l[i]? = some a → l[j]? = some b →
      ((l.set i b).set j a).Perm l
  | [], i, _, _, _, h, _ => by simp at h
  | x :: xs, 0, 0, a, b, hi, hj => by
    have h1 : x = a := by simpa using hi
    simp [h1]
  | x :: xs, 0, j + 1, a, b, hi, hj => by
    have h1 : x = a := by simpa using hi
    have h2 : xs[j]? = some b := by simpa using hj
    subst h1
    simpa using perm_set_cons x b xs j h2
  | x :: xs, i + 1, 0, a, b, hi, hj => by
    have h1 : x = b := by simpa using hj
    have h2 : xs[i]? = some a := by simpa using hi
    subst h1
    simpa using perm_set_cons x a xs i h2
  | x :: xs, i + 1, j + 1, a, b, hi, hj => by
    have h1 : xs[i]? = some a := by simpa using hi
    have h2 : xs[j]? = some b := by simpa using hj
    simpa using (plainSwap_perm xs i j a b h1 h2).cons x

/-- In a heap-ordered slice the first slot holds a least `time`. -/
theorem heapUpTo_root_le (l : List α) (n : Nat) (h : heapUpTo l n) :
    ∀ k, k < n → timeAt l 0 ≤ timeAt l k := by
  intro k
  induction k using Nat.strong_induction_on with
  | _ k ih =>
    intro hk
    by_cases h0 : k = 0
    · subst h0; exact Nat.le_refl _
    · exact Nat.le_trans (ih ((k - 1) / 2) (by omega) (by omega)) (h k hk)

variable [LawfulHeapElem α]

theorem unindexed_withIndex (a : α) (i : Int) : unindexed (HeapElem.withIndex a i) = unindexed a :=
  LawfulHeapElem.withIndex_withIndex a i 0

/-- What `Swap` does on two slots of the slice. -/
theorem Swap_ok (l : List α) {i j : Nat} {a b : α} (hi : l[i]? = some a) (hj : l[j]? = some b) :
    ∃ l1, Queue.Swap l i j = .ok l1 ∧ l1.length = l.length
      ∧ (∀ k, timeAt l1 k = if k = j then timeAt l i else if k = i then timeAt l j else timeAt l k)
      ∧ (l1.map unindexed).Perm (l.map unindexed)
      ∧ (∀ k, k ≠ i → k ≠ j → l1[k]? = l[k]?)
      ∧ l1[j]? = some (HeapElem.withIndex a (j : Int)) := by
  have hil : i < l.length := by
    by_contra h
    have : l[i]? = none := by simp; omega
    simp [this] at hi
  have hjl : j < l.length := by
    by_contra h
    have : l[j]? = none := by simp; omega
    simp [this] at hj
  refine ⟨(l.set i (HeapElem.withIndex b (i : Int))).set j (HeapElem.withIndex a (j : Int)),
    by simp [Queue.Swap, hi, hj], by simp, ?_, ?_, ?_, ?_⟩
  · intro k
    rw [timeAt_set, timeAt_set]
    simp only [List.length_set, LawfulHeapElem.time_withIndex]
    rw [timeAt_of_getElem? hi, timeAt_of_getElem? hj]
    by_cases h1 : k = j
    · subst h1; simp [hjl]
    · by_cases h2 : k = i
      · subst h2; simp [h1, hil, Ne.symm h1]
      · simp [h1, h2, Ne.symm h1, Ne.symm h2]
  · rw [List.map_set, List.map_set, unindexed_withIndex, unindexed_withIndex]
    apply plainSwap_perm
    · simp [hi]
    · simp [hj]
  · intro k h1 h2
    rw [List.getElem?_set_ne (Ne.symm h2), List.getElem?_set_ne (Ne.symm h1)]
  · rw [List.getElem?_set]
    simp [hjl]

/-- The loop of `down` restores the heap order over the first `n` slots when
only slot `i` may be above its children; it permutes those slots and needs at
most `n - i + 1` steps. -/
theorem down_ok : ∀ (fuel : Nat) (l : List α) (i n : Nat), n ≤ l.length → i ≤ n →
    n + 1 ≤ fuel + i →
    (∀ k, k < n → (k - 1) / 2 ≠ i → timeAt l ((k - 1) / 2) ≤ timeAt l k) →
    (∀ k, k < n → (k - 1) / 2 = i → k ≠ i → 0 < i → timeAt l ((i - 1) / 2) ≤ timeAt l k) →
    ∃ l2, heap.down fuel l i n = .ok l2 ∧ l2.length = l.length ∧ heapUpTo l2 n
      ∧ (l2.map unindexed).Perm (l.map unindexed) ∧ (∀ k, n ≤ k → l2[k]? = l[k]?)
  | 0, l, i, n, _, hin, hfuel, _, _ => by omega
  | fuel + 1, l, i, n, hn, hin, hfuel, h1, h2 => by
    unfold heap.down
    by_cases hj1 : 2 * i + 1 ≥ n
    · refine ⟨l, by simp [hj1], rfl, ?_, List.Perm.refl _, fun _ _ => rfl⟩
      intro k hk
      by_cases hp : (k - 1) / 2 = i
      · have : k = i := by omega
        rw [hp, this]
      · exact h1 k hk hp
    · have hj1n : 2 * i + 1 < n := by omega
      simp only [hj1, if_false]
      have hright : (if 2 * i + 1 + 1 < n then Queue.Less l (2 * i + 1 + 1) (2 * i + 1) else Res.ok false)
          = Res.ok (decide (2 * i + 1 + 1 < n ∧ timeAt l (2 * i + 1 + 1) < timeAt l (2 * i + 1))) := by
        by_cases h : 2 * i + 1 + 1 < n
        · rw [if_pos h, Less_ok l (by omega) (by omega)]
          simp [h]
        · simp [h]
      rw [hright]
      simp only []
      generalize hjd : (if decide (2 * i + 1 + 1 < n ∧ timeAt l (2 * i + 1 + 1) < timeAt l (2 * i + 1)) = true
        then 2 * i + 1 + 1 else 2 * i + 1) = j
      have hjn : j < n := by
        subst hjd; split
        · rename_i h; simp at h; omega
        · omega
      have hjc : j = 2 * i + 1 ∨ j = 2 * i + 2 := by
        subst hjd; split <;> omega
      have hjmin : ∀ k, k < n → (k - 1) / 2 = i → k ≠ i → timeAt l j ≤ timeAt l k := by
        intro k hk hp hki
        have hk2 : k = 2 * i + 1 ∨ k = 2 * i + 2 := by omega
        subst hjd
        split
        · rename_i h
          simp at h
          rcases hk2 with rfl | rfl
          · exact Nat.le_of_lt h.2
          · exact Nat.le_refl _
        · rename_i h
          simp at h
          rcases hk2 with rfl | rfl
          · exact Nat.le_refl _
          · exact h hk
      rw [Less_ok l (by omega) (by omega)]
      by_cases hlt : timeAt l j < timeAt l i
      · simp only [hlt, decide_True]
        obtain ⟨a, ha⟩ := getElem?_some_of_lt l (show i < l.length by omega)
        obtain ⟨b, hb⟩ := getElem?_some_of_lt l (show j < l.length by omega)
        obtain ⟨l1, hs, hlen, ht, hperm, hother, _⟩ := Swap_ok l ha hb
        rw [hs]
        simp only []
        have hij : i ≠ j := by omega
        obtain ⟨l2, hd, hlen2, hheap, hperm2, hother2⟩ :=
          down_ok fuel l1 j n (by omega) (by omega) (by omega)
            (by
              intro k hk hp
              rw [ht, ht]
              by_cases hkj : k = j
              · have hpi : (k - 1) / 2 = i := by omega
                have hpj : ¬ (k - 1) / 2 = j := hp
                simp only [hkj, hpi, if_true, if_neg hij]
                subst hkj
                simp only [hpi, if_neg hij, if_true]
                exact Nat.le_of_lt hlt
              · by_cases hki : k = i
                · subst hki
                  by_cases h0 : k = 0
                  · subst h0
                    simp
                  · have hpk : (k - 1) / 2 ≠ k := by omega
                    simp only [if_neg hp, if_neg hpk, if_neg hkj, if_true]
                    exact h2 j hjn (by omega) (by omega) (by omega)
                · simp only [if_neg hp, if_neg hkj, if_neg hki]
                  by_cases hpi : (k - 1) / 2 = i
                  · simp only [hpi, if_true]
                    exact hjmin k hk hpi hki
                  · simp only [if_neg hpi]
                    exact h1 k hk hpi)
            (by
              intro k hk hp hkj h0
              rw [ht, ht]
              have hpj : (j - 1) / 2 = i := by omega
              have hki : k ≠ i := by omega
              simp only [hpj, if_neg hij, if_true, if_neg hkj, if_neg hki]
              have h3 := h1 k hk (by omega)
              rwa [hp] at h3)
        exact ⟨l2, hd, by omega, hheap, hperm2.trans hperm, fun k hk => by
          rw [hother2 k hk, hother k (by omega) (by omega)]⟩
      · simp only [hlt, decide_False]
        refine ⟨l, rfl, rfl, ?_, List.Perm.refl _, fun _ _ => rfl⟩
        intro k hk
        by_cases hp : (k - 1) / 2 = i
        · by_cases hki : k = i
          · rw [hp, hki]
          · rw [hp]
            exact Nat.le_trans (Nat.le_of_not_lt hlt) (hjmin k hk hp hki)
        · exact h1 k hk hp

/-- The loop of `up` from slot `j` returns within `j + 1` steps with a
permutation of the slots; when only slot `j` may be below its parent, the
result is in heap order. -/
theorem up_ok : ∀ (fuel : Nat) (l : List α) (j : Nat), j < l.length → j < fuel →
    ∃ l2, heap.up fuel l j = .ok l2 ∧ l2.length = l.length
      ∧ (l2.map unindexed).Perm (l.map unindexed)
      ∧ ((∀ k, k < l.length → k ≠ j → timeAt l ((k - 1) / 2) ≤ timeAt l k) →
         (∀ k, k < l.length → (k - 1) / 2 = j → k ≠ j → 0 < j →
            timeAt l ((j - 1) / 2) ≤ timeAt l k) →
         heapUpTo l2 l.length)
  | 0, l, j, _, hfuel => by omega
  | fuel + 1, l, j, hj, hfuel => by
    unfold heap.up
    by_cases hij : (j - 1) / 2 = j
    · refine ⟨l, by simp [hij], rfl, List.Perm.refl _, ?_⟩
      intro h1 _ k hk
      by_cases hkj : k = j
      · rw [hkj, hij]
      · exact h1 k hk hkj
    · simp only [hij, if_false]
      have hi : (j - 1) / 2 < l.length := by omega
      rw [Less_ok l hj hi]
      by_cases hlt : timeAt l j < timeAt l ((j - 1) / 2)
      · simp only [hlt, decide_True]
        obtain ⟨a, ha⟩ := getElem?_some_of_lt l hi
        obtain ⟨b, hb⟩ := getElem?_some_of_lt l hj
        obtain ⟨l1, hs, hlen, ht, hperm, _, _⟩ := Swap_ok l ha hb
        rw [hs]
        simp only []
        obtain ⟨l2, hu, hlen2, hperm2, hheap⟩ :=
          up_ok fuel l1 ((j - 1) / 2) (by omega) (by omega)
        refine ⟨l2, hu, by omega, hperm2.trans hperm, ?_⟩
        intro h1 h2
        rw [← hlen]
        apply hheap
        · intro k hk hki
          rw [hlen] at hk
          rw [ht, ht]
          by_cases hkj : k = j
          · subst hkj
            simp only [if_neg hij, if_true]
            exact Nat.le_of_lt hlt
          · simp only [if_neg hkj, if_neg hki]
            by_cases hpj : (k - 1) / 2 = j
            · simp only [hpj, if_true]
              exact h2 k hk hpj hkj (by omega)
            · simp only [if_neg hpj]
              by_cases hpi : (k - 1) / 2 = (j - 1) / 2
              · simp only [hpi, if_true]
                have h3 := h1 k hk hkj
                rw [hpi] at h3
                exact Nat.le_trans (Nat.le_of_lt hlt) h3
              · simp only [if_neg hpi]
                exact h1 k hk hkj
        · intro k hk hp hki h0
          rw [hlen] at hk
          rw [ht, ht]
          have hq1 : ((j - 1) / 2 - 1) / 2 ≠ j := by omega
          have hq2 : ((j - 1) / 2 - 1) / 2 ≠ (j - 1) / 2 := by omega
          simp only [if_neg hq1, if_neg hq2, if_neg hki]
          have h4 := h1 ((j - 1) / 2) hi hij
          by_cases hkj : k = j
          · simp only [hkj, if_true]
            exact h4
          · simp only [if_neg hkj]
            have h3 := h1 k hk hkj
            rw [hp] at h3
            exact Nat.le_trans h4 h3
      · simp only [hlt, decide_False]
        refine ⟨l, rfl, rfl, List.Perm.refl _, ?_⟩
        intro h1 _ k hk
        by_cases hkj : k = j
        · rw [hkj]
          exact Nat.le_of_not_lt hlt
        · exact h1 k hk hkj

/-- The method `Push` followed by `up`: with room in the backing array
`heap.Push` returns, the queue is one longer and holds the old elements and
`x`; a queue in heap order stays in heap order. -/
theorem heap_Push_ok (h : Queue α) (x : α) (hroom : h.items.length < h.cap) :
    ∃ l, heap.Push h x = .ok { items := l, cap := h.cap } ∧ l.length = h.items.length + 1
      ∧ (l.map unindexed).Perm (unindexed x :: h.items.map unindexed)
      ∧ (h.ordered → heapUpTo l l.length) := by
  unfold heap.Push Queue.Push
  have hr : h.items.length + 1 ≤ h.cap := hroom
  simp only [hr, if_true, Queue.Len]
  obtain ⟨l2, hu, hlen, hperm, hheap⟩ :=
    up_ok (h.items ++ [HeapElem.withIndex x (h.items.length : Int)]).length
      (h.items ++ [HeapElem.withIndex x (h.items.length : Int)])
      ((h.items ++ [HeapElem.withIndex x (h.items.length : Int)]).length - 1)
      (by simp) (by simp)
  rw [hu]
  refine ⟨l2, rfl, by simpa using hlen, ?_, ?_⟩
  · refine hperm.trans ?_
    rw [List.map_append, List.map_singleton, unindexed_withIndex]
    exact List.perm_append_singleton _ _
  · intro hord
    rw [hlen]
    apply hheap
    · intro k hk hkj
      simp only [List.length_append, List.length_singleton, Nat.add_sub_cancel] at hk hkj
      have hk2 : k < h.items.length := by omega
      have hp2 : (k - 1) / 2 < h.items.length := by omega
      have e1 : timeAt (h.items ++ [HeapElem.withIndex x (h.items.length : Int)]) k
          = timeAt h.items k := by
        unfold timeAt; rw [List.getElem?_append_left hk2]
      have e2 : timeAt (h.items ++ [HeapElem.withIndex x (h.items.length : Int)]) ((k - 1) / 2)
          = timeAt h.items ((k - 1) / 2) := by
        unfold timeAt; rw [List.getElem?_append_left hp2]
      rw [e1, e2]
      exact hord k hk2
    · intro k hk hp hkj _
      simp only [List.length_append, List.length_singleton, Nat.add_sub_cancel] at hk hp hkj
      omega


/-- `heap.Pop` on a non-empty queue in heap order returns the first slot, which
holds a least `time`; the other elements stay, in heap order. -/
theorem heap_Pop_ok (h : Queue α) (hne : 0 < h.items.length) (hord : h.ordered) :
    ∃ x l r, heap.Pop h = .ok (x, { items := l, cap := h.cap })
      ∧ l.length + 1 = h.items.length
      ∧ h.items[0]? = some r ∧ x = HeapElem.withIndex r (-1)
      ∧ (∀ k, k < h.items.length → HeapElem.time x ≤ timeAt h.items k)
      ∧ (unindexed x :: l.map unindexed).Perm (h.items.map unindexed)
      ∧ heapUpTo l l.length := by
  obtain ⟨r, hr⟩ := getElem?_some_of_lt h.items hne
  obtain ⟨b, hb⟩ := getElem?_some_of_lt h.items (show h.items.length - 1 < h.items.length by omega)
  obtain ⟨l1, hs, hlen1, ht1, hperm1, _, hlast1⟩ := Swap_ok h.items hr hb
  obtain ⟨l2, hd, hlen2, hheap2, hperm2, hother2⟩ :=
    down_ok (h.items.length - 1 + 1) l1 0 (h.items.length - 1) (by omega) (by omega) (by omega)
      (by
        intro k hk hp
        rw [ht1, ht1]
        have e1 : k ≠ h.items.length - 1 := by omega
        have e2 : k ≠ 0 := by omega
        have e3 : (k - 1) / 2 ≠ h.items.length - 1 := by omega
        simp only [if_neg e1, if_neg e2, if_neg e3, if_neg hp]
        exact hord k (by omega))
      (by intro k _ _ _ h0; omega)
  have hlast2 : l2.getLast? = some (HeapElem.withIndex r ((h.items.length - 1 : Nat) : Int)) := by
    rw [List.getLast?_eq_getElem?, hlen2, hlen1, hother2 _ (Nat.le_refl _), hlast1]
  have hsplit := List.dropLast_append_getLast? _ hlast2
  refine ⟨HeapElem.withIndex r (-1), l2.dropLast, r, ?_, ?_, hr, rfl, ?_, ?_, ?_⟩
  · unfold heap.Pop Queue.Len
    have h0 : ¬ h.items.length = 0 := by omega
    simp only [h0, if_false, hs, hd]
    simp [Queue.Pop, hlast2, LawfulHeapElem.withIndex_withIndex]
  · simp; omega
  · intro k hk
    rw [LawfulHeapElem.time_withIndex, ← timeAt_of_getElem? hr]
    exact heapUpTo_root_le h.items h.items.length hord k hk
  · have hp : (l2.map unindexed).Perm (h.items.map unindexed) := hperm2.trans hperm1
    rw [← hsplit, List.map_append, List.map_singleton, unindexed_withIndex] at hp
    rw [unindexed_withIndex]
    exact (List.perm_append_singleton _ _).symm.trans hp
  · intro k hk
    have hk2 : k < h.items.length - 1 := by simpa [hlen2, hlen1] using hk
    have e : ∀ m, m < h.items.length - 1 → timeAt l2.dropLast m = timeAt l2 m := by
      intro m hm
      unfold timeAt
      rw [List.getElem?_dropLast]
      have : m < l2.length - 1 := by omega
      simp [this]
    rw [e k hk2, e _ (by omega)]
    exact hheap2 k hk2

/-- The only panic of `heap.Push` is the re-slice beyond the capacity. -/
theorem heap_Push_fail (h : Queue α) (x : α) (f : Fault) (hf : heap.Push h x = .fail f) :
    f = .queueFull ∧ h.cap ≤ h.items.length := by
  by_cases hroom : h.items.length < h.cap
  · obtain ⟨l, hl, _⟩ := heap_Push_ok h x hroom
    rw [hl] at hf
    cases hf
  · have hr : ¬ h.items.length + 1 ≤ h.cap := by omega
    simp only [heap.Push, Queue.Push, hr, if_false] at hf
    cases hf
    exact ⟨rfl, by omega⟩

/-- A returned `heap.Push` had room and made the queue one longer. -/
theorem heap_Push_done (h q : Queue α) (x : α) (hq : heap.Push h x = .ok q) :
    h.items.length < h.cap ∧ q.cap = h.cap ∧ q.items.length = h.items.length + 1 := by
  by_cases hroom : h.items.length < h.cap
  · obtain ⟨l, hl, hlen, _⟩ := heap_Push_ok h x hroom
    rw [hl] at hq
    cases hq
    exact ⟨hroom, rfl, hlen⟩
  · have hr : ¬ h.items.length + 1 ≤ h.cap := by omega
    simp [heap.Push, Queue.Push, hr] at hq

/-- `heap.Pop` on a non-empty queue in heap order, in terms of the elements:
the element returned is no later than any element of the queue. -/
theorem heap_Pop_least (h : Queue α) (hne : h.items ≠ []) (hord : h.ordered) :
    ∃ (x : α) (rest : Queue α), heap.Pop h = .ok (x, rest)
      ∧ (∀ c, c ∈ h.items → HeapElem.time x ≤ HeapElem.time c)
      ∧ (unindexed x :: rest.items.map unindexed).Perm (h.items.map unindexed)
      ∧ rest.items.length + 1 = h.items.length
      ∧ rest.cap = h.cap
      ∧ rest.ordered := by
  have hpos : 0 < h.items.length := List.length_pos.mpr hne
  obtain ⟨x, l, r, hp, hlen, _, _, hmin, hperm, hheap⟩ := heap_Pop_ok h hpos hord
  refine ⟨x, { items := l, cap := h.cap }, hp, ?_, hperm, hlen, rfl, hheap⟩
  intro c hc
  obtain ⟨k, hk⟩ := List.mem_iff_getElem?.mp hc
  have hkl : k < h.items.length := by
    by_contra hcon
    have : h.items[k]? = none := List.getElem?_eq_none (by omega)
    rw [this] at hk
    cases hk
  have := hmin k hkl
  rwa [timeAt_of_getElem? hk] at this

end HeapLemmas

/-! ## `convertdata` -/

theorem triples_drop_cons (raw : List Str) (k : Nat) (h : 3 * k + 2 < raw.length) :
    ∃ a b c, raw[3 * k]? = some a ∧ raw[3 * k + 1]? = some b ∧ raw[3 * k + 2]? = some c
      ∧ triples (raw.drop (3 * k)) = (a, b, c) :: triples (raw.drop (3 * (k + 1))) := by
  have h0 : 3 * k < raw.length := by omega
  have h1 : 3 * k + 1 < raw.length := by omega
  refine ⟨raw[3 * k], raw[3 * k + 1], raw[3 * k + 2], List.getElem?_eq_getElem h0,
    List.getElem?_eq_getElem h1, List.getElem?_eq_getElem h, ?_⟩
  rw [List.drop_eq_getElem_cons h0, List.drop_eq_getElem_cons h1, List.drop_eq_getElem_cons h]
  simp only [triples]
  rfl

theorem triples_drop_nil (raw : List Str) (k : Nat) (h : raw.length ≤ 3 * k + 2) :
    triples (raw.drop (3 * k)) = [] := by
  have hl : (raw.drop (3 * k)).length ≤ 2 := by simp; omega
  match hd : raw.drop (3 * k), hl with
  | [], _ => rfl
  | [_], _ => rfl
  | [_, _], _ => rfl
  | _ :: _ :: _ :: _, hl => simp at hl

/-- The index loop of `convertdata` reads the complete triples in order: with
a budget above the number of triples left it computes `convertRecords`. -/
theorem convertLoop_eq (parse : TimeParse) (raw : List Str) (cb : Brand) :
    ∀ (fuel k : Nat) (w : World), 0 < fuel → raw.length < 3 * k + 3 * fuel →
      convertLoop parse raw cb fuel (3 * k) w
        = convertRecords parse cb (triples (raw.drop (3 * k))) w
  | 0, k, w, h0, h => by omega
  | fuel + 1, k, w, _, h => by
    unfold convertLoop
    by_cases hc : ((3 * k : Nat) : Int) < (raw.length : Int) - 2
    · obtain ⟨a, b, c, ha, hb, hcc, ht⟩ := triples_drop_cons raw k (by omega)
      have ih : ∀ w1, convertLoop parse raw cb fuel (3 * k + 3) w1
          = convertRecords parse cb (triples (raw.drop (3 * (k + 1)))) w1 := fun w1 =>
        convertLoop_eq parse raw cb fuel (k + 1) w1 (by omega) (by omega)
      rw [if_pos hc, ha, hb, hcc, ht]
      simp only [convertRecords, ih]
    · rw [if_neg hc, triples_drop_nil raw k (by omega)]
      rfl

theorem convertdata_eq (parse : TimeParse) (raw : List Str) (w : World) (cb : Brand) :
    convertdata parse raw w cb = convertRecords parse cb (triples raw) w := by
  have h := convertLoop_eq parse raw cb (raw.length + 1) 0 w (by omega) (by omega)
  simpa [convertdata] using h

/-- The traces `fetched`, `extracted` and `popped` are not touched by
`convertdata`, whatever its outcome. -/
theorem convertRecords_frame (parse : TimeParse) (cb : Brand) :
    ∀ (rs : List (Str × Str × Str)) (w : World),
      (convertRecords parse cb rs w).state.fetched = w.fetched
      ∧ (convertRecords parse cb rs w).state.extracted = w.extracted
      ∧ (convertRecords parse cb rs w).state.popped = w.popped
  | [], w => ⟨rfl, rfl, rfl⟩
  | (text, idStr, timeStr) :: rs, w => by
    simp only [convertRecords]
    split
    · exact ⟨rfl, rfl, rfl⟩
    · split
      · split <;> exact ⟨rfl, rfl, rfl⟩
      · rename_i pq1 _
        have ih := convertRecords_frame parse cb rs
        refine ⟨(ih _).1.trans ?_, (ih _).2.1.trans ?_, (ih _).2.2.trans ?_⟩ <;>
          (split <;> rfl)

/-- The only panic of `convertdata` is the full in-memory queue: no index
into the raw list is out of range and the step budget is not used up. -/
theorem convertRecords_halt (parse : TimeParse) (cb : Brand) :
    ∀ (rs : List (Str × Str × Str)) (w : World) (f : Fault) (s : World),
      convertRecords parse cb rs w = .halt f s → f = .queueFull
  | [], w, f, s, h => by simp [convertRecords] at h
  | (text, idStr, timeStr) :: rs, w, f, s, h => by
    simp only [convertRecords] at h
    split at h
    · cases h
    · split at h
      · rename_i f1 hf
        cases h
        exact (heap_Push_fail _ _ _ hf).1
      · exact convertRecords_halt parse cb rs _ f s h

/-- With room in the in-memory queue `convertdata` returns: it has written the
leading run of records newer than `cb.time`, in order, raised `tempTimestamp`
to the newest of them and pushed one item per record. -/
theorem convertRecords_ok (parse : TimeParse) (cb : Brand) :
    ∀ (rs : List (Str × Str × Str)) (w : World),
      w.pq.items.length + (rs.takeWhile (fun r => decide (cb.time < recTime parse r))).length
        ≤ w.pq.cap →
      ∃ w1, convertRecords parse cb rs w = .done w1
        ∧ w1.store = w.store
            ++ mentionsOf parse cb (rs.takeWhile (fun r => decide (cb.time < recTime parse r)))
        ∧ w1.tempTimestamp =
            (rs.takeWhile (fun r => decide (cb.time < recTime parse r))).foldl
              (fun m r => max m (recTime parse r)) w.tempTimestamp
        ∧ w1.pq.cap = w.pq.cap
        ∧ w1.pq.items.length = w.pq.items.length
            + (rs.takeWhile (fun r => decide (cb.time < recTime parse r))).length
        ∧ w1.fetched = w.fetched ∧ w1.extracted = w.extracted ∧ w1.popped = w.popped
  | [], w, _ => ⟨w, rfl, by simp [mentionsOf], rfl, rfl, rfl, rfl, rfl, rfl⟩
  | (text, idStr, timeStr) :: rs, w, hroom => by
    simp only [convertRecords]
    by_cases hge : cb.time ≥ unixOf parse timeStr
    · have hlt : ¬ cb.time < recTime parse (text, idStr, timeStr) := by
        simp only [recTime]; omega
      simp only [hge, if_true, List.takeWhile_cons, hlt, decide_False]
      exact ⟨w, rfl, by simp [mentionsOf], rfl, rfl, rfl, rfl, rfl, rfl⟩
    · have hlt : cb.time < recTime parse (text, idStr, timeStr) := by
        simp only [recTime]; omega
      simp only [List.takeWhile_cons, hlt, decide_True, if_true, List.length_cons] at hroom
      simp only [hge, if_false, List.takeWhile_cons, hlt, decide_True, if_true]
      generalize hw1 : (if unixOf parse timeStr > w.tempTimestamp
        then ({ w with tempTimestamp := unixOf parse timeStr } : World) else w) = w1
      have hpq : w1.pq = w.pq := by subst hw1; split <;> rfl
      have hst : w1.store = w.store := by subst hw1; split <;> rfl
      have hfe : w1.fetched = w.fetched := by subst hw1; split <;> rfl
      have hex : w1.extracted = w.extracted := by subst hw1; split <;> rfl
      have hpo : w1.popped = w.popped := by subst hw1; split <;> rfl
      have htt : w1.tempTimestamp = max w.tempTimestamp (unixOf parse timeStr) := by
        subst hw1
        split
        · rename_i h; simp only []; omega
        · rename_i h; omega
      obtain ⟨l, hl, hlen, _, _⟩ := heap_Push_ok w1.pq
        ({ mention := text, id := (ParseInt idStr).1, time := unixOf parse timeStr, index := 0 } : Item)
        (by rw [hpq]; omega)
      rw [hl]
      simp only []
      obtain ⟨w2, h2, hs2, ht2, hc2, hl2, hf2, he2, hp2⟩ := convertRecords_ok parse cb rs
        { w1 with pq := { items := l, cap := w1.pq.cap },
                  store := w1.store ++ [mkMention cb text (unixOf parse timeStr)] }
        (by show l.length + _ ≤ w1.pq.cap; rw [hlen, hpq]; omega)
      refine ⟨w2, h2, ?_, ?_, ?_, ?_, ?_, ?_, ?_⟩
      · rw [hs2]; simp [mentionsOf, hst, recTime]
      · rw [ht2]; simp [htt, recTime]
      · rw [hc2]; simp [hpq]
      · have e : w2.pq.items.length = l.length + _ := hl2
        rw [e, hlen, hpq, List.length_cons]; omega
      · rw [hf2]; exact hfe
      · rw [he2]; exact hex
      · rw [hp2]; exact hpo

theorem triples_length : ∀ (raw : List Str), (triples raw).length = raw.length / 3
  | [] => rfl
  | [_] => by simp [triples]
  | [_, _] => by simp [triples]
  | a :: b :: c :: rest => by
    have ih := triples_length rest
    simp only [triples, List.length_cons, ih]
    omega

theorem triples_getElem? : ∀ (raw : List Str) (k : Nat), k < raw.length / 3 →
    ∃ a b c, raw[3 * k]? = some a ∧ raw[3 * k + 1]? = some b ∧ raw[3 * k + 2]? = some c
      ∧ (triples raw)[k]? = some (a, b, c)
  | [], k, h => by simp at h
  | [_], k, h => by simp only [List.length_cons, List.length_nil] at h; omega
  | [_, _], k, h => by simp only [List.length_cons, List.length_nil] at h; omega
  | a :: b :: c :: rest, 0, _ => ⟨a, b, c, by simp, by simp, by simp, by simp [triples]⟩
  | a :: b :: c :: rest, k + 1, h => by
    have hk : k < rest.length / 3 := by
      simp only [List.length_cons] at h
      omega
    obtain ⟨x, y, z, hx, hy, hz, ht⟩ := triples_getElem? rest k hk
    refine ⟨x, y, z, ?_, ?_, ?_, ?_⟩
    · rw [show 3 * (k + 1) = 3 * k + 1 + 1 + 1 by omega]; simpa using hx
    · rw [show 3 * (k + 1) + 1 = 3 * k + 1 + 1 + 1 + 1 by omega]; simpa using hy
    · rw [show 3 * (k + 1) + 2 = 3 * k + 2 + 1 + 1 + 1 by omega]; simpa using hz
    · simpa [triples] using ht

theorem takeWhile_run {β : Type} (p : β → Bool) :
    ∀ (l : List β), (∀ x, x ∈ l.takeWhile p → p x = true)
      ∧ l.take (l.takeWhile p).length = l.takeWhile p
      ∧ (∀ x, l[(l.takeWhile p).length]? = some x → p x = false)
  | [] => by simp
  | y :: ys => by
    obtain ⟨h1, h2, h3⟩ := takeWhile_run p ys
    by_cases hy : p y = true
    · simp only [List.takeWhile_cons, hy, if_true, List.length_cons, List.take_succ_cons, h2]
      refine ⟨?_, trivial, ?_⟩
      · intro x hx
        rcases List.mem_cons.mp hx with rfl | hx
        · exact hy
        · exact h1 x hx
      · intro x hx
        exact h3 x (by simpa using hx)
    · simp only [List.takeWhile_cons, hy]
      refine ⟨by simp, by simp, ?_⟩
      intro x hx
      have : y = x := by simpa using hx
      subst this
      simpa using hy

/-- Without room for the leading run `convertdata` panics on the full queue. -/
theorem convertRecords_full (parse : TimeParse) (cb : Brand) :
    ∀ (rs : List (Str × Str × Str)) (w : World),
      w.pq.cap < w.pq.items.length
        + (rs.takeWhile (fun r => decide (cb.time < recTime parse r))).length →
      w.pq.items.length ≤ w.pq.cap →
      ∃ s, convertRecords parse cb rs w = .halt .queueFull s
  | [], w, h, h2 => by simp at h; omega
  | (text, idStr, timeStr) :: rs, w, h, h2 => by
    simp only [convertRecords]
    by_cases hge : cb.time ≥ unixOf parse timeStr
    · have hlt : ¬ cb.time < recTime parse (text, idStr, timeStr) := by
        simp only [recTime]; omega
      simp only [List.takeWhile_cons, hlt, decide_False] at h
      simp at h
      omega
    · have hlt : cb.time < recTime parse (text, idStr, timeStr) := by
        simp only [recTime]; omega
      simp only [List.takeWhile_cons, hlt, decide_True, if_true, List.length_cons] at h
      simp only [hge, if_false]
      generalize hw1 : (if unixOf parse timeStr > w.tempTimestamp
        then ({ w with tempTimestamp := unixOf parse timeStr } : World) else w) = w1
      have hpq : w1.pq = w.pq := by subst hw1; split <;> rfl
      by_cases hroom : w1.pq.items.length < w1.pq.cap
      · obtain ⟨l, hl, hlen, _, _⟩ := heap_Push_ok w1.pq
          ({ mention := text, id := (ParseInt idStr).1, time := unixOf parse timeStr,
             index := 0 } : Item) hroom
        rw [hl]
        simp only []
        exact convertRecords_full parse cb rs _
          (by show w1.pq.cap < l.length + _; rw [hlen, hpq]; omega)
          (by show l.length ≤ w1.pq.cap; rw [hlen]; omega)
      · cases hP : heap.Push w1.pq
          ({ mention := text, id := (ParseInt idStr).1, time := unixOf parse timeStr,
             index := 0 } : Item) with
        | ok pq1 =>
          exfalso
          have hr : ¬ w1.pq.items.length + 1 ≤ w1.pq.cap := by omega
          simp [heap.Push, Queue.Push, hr] at hP
        | fail f =>
          simp only []
          rw [(heap_Push_fail _ _ _ hP).1]
          exact ⟨w1, rfl⟩

/-- What a returned `convertdata` has done. -/
theorem convertRecords_done (parse : TimeParse) (cb : Brand) :
    ∀ (rs : List (Str × Str × Str)) (w w1 : World),
      convertRecords parse cb rs w = .done w1 →
      w1.store = w.store
          ++ mentionsOf parse cb (rs.takeWhile (fun r => decide (cb.time < recTime parse r)))
      ∧ w1.tempTimestamp =
          (rs.takeWhile (fun r => decide (cb.time < recTime parse r))).foldl
            (fun m r => max m (recTime parse r)) w.tempTimestamp
      ∧ w1.pq.cap = w.pq.cap
      ∧ w1.pq.items.length = w.pq.items.length
          + (rs.takeWhile (fun r => decide (cb.time < recTime parse r))).length
      ∧ w1.fetched = w.fetched ∧ w1.extracted = w.extracted ∧ w1.popped = w.popped
  | [], w, w1, h => by
    simp only [convertRecords] at h
    cases h
    exact ⟨by simp [mentionsOf], rfl, rfl, rfl, rfl, rfl, rfl⟩
  | (text, idStr, timeStr) :: rs, w, w1, h => by
    simp only [convertRecords] at h
    by_cases hge : cb.time ≥ unixOf parse timeStr
    · have hlt : ¬ cb.time < recTime parse (text, idStr, timeStr) := by
        simp only [recTime]; omega
      simp only [hge, if_true] at h
      cases h
      simp [List.takeWhile_cons, hlt, mentionsOf]
    · have hlt : cb.time < recTime parse (text, idStr, timeStr) := by
        simp only [recTime]; omega
      simp only [hge, if_false] at h
      simp only [List.takeWhile_cons, hlt, decide_True, if_true]
      generalize hw1 : (if unixOf parse timeStr > w.tempTimestamp
        then ({ w with tempTimestamp := unixOf parse timeStr } : World) else w) = w2 at h
      have hpq : w2.pq = w.pq := by subst hw1; split <;> rfl
      have hst : w2.store = w.store := by subst hw1; split <;> rfl
      have hfe : w2.fetched = w.fetched := by subst hw1; split <;> rfl
      have hex : w2.extracted = w.extracted := by subst hw1; split <;> rfl
      have hpo : w2.popped = w.popped := by subst hw1; split <;> rfl
      have htt : w2.tempTimestamp = max w.tempTimestamp (unixOf parse timeStr) := by
        subst hw1
        split
        · rename_i h; simp only []; omega
        · rename_i h; omega
      cases hP : heap.Push w2.pq
        ({ mention := text, id := (ParseInt idStr).1, time := unixOf parse timeStr,
           index := 0 } : Item) with
      | fail f => rw [hP] at h; cases h
      | ok pq1 =>
        rw [hP] at h
        simp only [] at h
        obtain ⟨_, hc, hl⟩ := heap_Push_done _ _ _ hP
        obtain ⟨hs2, ht2, hc2, hl2, hf2, he2, hp2⟩ := convertRecords_done parse cb rs _ w1 h
        refine ⟨?_, ?_, ?_, ?_, ?_, ?_, ?_⟩
        · rw [hs2]; simp [mentionsOf, hst, recTime]
        · rw [ht2]; simp [htt, recTime]
        · have e : w1.pq.cap = pq1.cap := hc2
          rw [e, hc, hpq]
        · have e : w1.pq.items.length = pq1.items.length + _ := hl2
          rw [e, hl, hpq, List.length_cons]; omega
        · rw [hf2]; exact hfe
        · rw [he2]; exact hex
        · rw [hp2]; exact hpo

theorem mentionsOf_congr (parse : TimeParse) (cb cb1 : Brand) (hn : cb1.Name = cb.Name)
    (rs : List (Str × Str × Str)) : mentionsOf parse cb1 rs = mentionsOf parse cb rs := by
  simp [mentionsOf, mkMention, hn]

theorem pageMentions_congr (parse : TimeParse) (cb cb1 : Brand) (hn : cb1.Name = cb.Name)
    (ht : cb1.time = cb.time) :
    ∀ (ex : List (Int × List Str)), pageMentions parse cb1 ex = pageMentions parse cb ex
  | [] => rfl
  | e :: ex => by
    simp only [pageMentions, ht, mentionsOf_congr parse cb cb1 hn,
      pageMentions_congr parse cb cb1 hn ht ex]

/-! ## The pagination walk -/

theorem convertdata_frame (parse : TimeParse) (ml : List Str) (w : World) (cb : Brand) :
    (convertdata parse ml w cb).state.fetched = w.fetched
    ∧ (convertdata parse ml w cb).state.extracted = w.extracted
    ∧ (convertdata parse ml w cb).state.popped = w.popped := by
  rw [convertdata_eq]
  exact convertRecords_frame parse cb _ w

theorem convertdata_halt (parse : TimeParse) (ml : List Str) (w : World) (cb : Brand)
    (f : Fault) (s : World) (h : convertdata parse ml w cb = .halt f s) : f = .queueFull := by
  rw [convertdata_eq] at h
  exact convertRecords_halt parse cb _ w f s h

theorem convertdata_done (parse : TimeParse) (ml : List Str) (w w1 : World) (cb : Brand)
    (h : convertdata parse ml w cb = .done w1) :
    w1.store = w.store ++ mentionsOf parse cb (fresh parse cb.time ml)
    ∧ w1.tempTimestamp =
        (fresh parse cb.time ml).foldl (fun m r => max m (recTime parse r)) w.tempTimestamp
    ∧ w1.pq.cap = w.pq.cap
    ∧ w1.pq.items.length = w.pq.items.length + (fresh parse cb.time ml).length
    ∧ w1.fetched = w.fetched ∧ w1.extracted = w.extracted ∧ w1.popped = w.popped := by
  rw [convertdata_eq] at h
  exact convertRecords_done parse cb _ w w1 h

theorem wrapInt_small (p : Int) (h0 : 0 ≤ p) (h4 : p ≤ 4) : wrapInt (p + 1) = p + 1 := by
  unfold wrapInt
  omega

/-- The walk from a page index between 0 and 4: what it fetches, which pages
it hands to `convertdata`, and what it leaves in the brand and the store. -/
theorem crawlAux_spec (parse : TimeParse) (fetch : Transport) :
    ∀ (fuel : Nat) (resp : Str) (page : Int) (w : World) (cb : Brand),
      0 ≤ page → page ≤ 4 → 5 ≤ (fuel : Int) + page →
      ∃ (urls : List Str) (ex : List (Int × List Str)),
        (crawlAux parse fetch fuel resp page w cb).state.1.fetched = w.fetched ++ urls
        ∧ (urls.length : Int) ≤ 4 - page
        ∧ (crawlAux parse fetch fuel resp page w cb).state.1.popped = w.popped
        ∧ (∀ f s, crawlAux parse fetch fuel resp page w cb = .halt f s →
            f = .sliceBounds ∨ f = .queueFull ∨ f = .httpGet ∨ f = .readBody)
        ∧ (∀ w1 cb1, crawlAux parse fetch fuel resp page w cb = .done (w1, cb1) →
            w1.extracted = w.extracted ++ ex
            ∧ cb1 = { cb with searchedbefore := deepest cb.searchedbefore ex }
            ∧ w1.store = w.store ++ pageMentions parse cb ex
            ∧ ex.length = urls.length)
  | 0, _, page, _, _, _, h4, hf => by omega
  | fuel + 1, resp, page, w, cb, h0, h4, hf => by
    unfold crawlAux
    simp only [wrapInt_small page h0 h4]
    cases hgn : getnext resp with
    | fail f =>
      exact ⟨[], [], by simp [Run.state], by simp; omega, rfl,
        fun f1 s h => (by cases h; exact Or.inl (getnext_fail hgn)), fun _ _ h => (by cases h)⟩
    | ok nextLink =>
      simp only []
      by_cases hstop : page + 1 > 4 ∨ nextLink = []
      · rw [if_pos hstop]
        exact ⟨[], [], by simp [Run.state], by simp; omega, rfl, fun _ _ h => (by cases h),
          fun w1 cb1 h => (by cases h; simp [deepest, pageMentions])⟩
      · rw [if_neg hstop]
        cases hgu : getuntil nextLink with
        | fail f =>
          exact ⟨[], [], by simp [Run.state], by simp; omega, rfl,
            fun f1 s h => (by cases h; exact Or.inl (getuntil_fail hgu)),
            fun _ _ h => (by cases h)⟩
        | ok str =>
          simp only []
          by_cases hdeep : cb.pass > 1 ∧ cb.searchedbefore ≥ (Atoi str).1
          · rw [if_pos hdeep]
            exact ⟨[], [], by simp [Run.state], by simp; omega, rfl, fun _ _ h => (by cases h),
              fun w1 cb1 h => (by cases h; simp [deepest, pageMentions])⟩
          · rw [if_neg hdeep]
            cases hgd : getdata resp [] with
            | fail f =>
              exact ⟨[], [], by simp [Run.state], by simp; omega, rfl,
                fun f1 s h => (by cases h; exact Or.inl (getdata_fail _ _ _ hgd)),
                fun _ _ h => (by cases h)⟩
            | ok mentionList =>
              simp only []
              have hfr := convertdata_frame parse mentionList
                { w with extracted := w.extracted ++ [((Atoi str).1, mentionList)] }
                { cb with searchedbefore := maxint cb.searchedbefore (Atoi str).1 }
              cases hcd : convertdata parse mentionList
                { w with extracted := w.extracted ++ [((Atoi str).1, mentionList)] }
                { cb with searchedbefore := maxint cb.searchedbefore (Atoi str).1 } with
              | halt f w2 =>
                rw [hcd] at hfr
                exact ⟨[], [], by simpa [Run.state] using hfr.1, by simp; omega,
                  by simpa [Run.state] using hfr.2.2,
                  fun f1 s h => (by
                    cases h; exact Or.inr (Or.inl (convertdata_halt _ _ _ _ _ _ hcd))),
                  fun _ _ h => (by cases h)⟩
              | done w2 =>
                simp only []
                obtain ⟨hs, _, _, _, hfe, hex, hpo⟩ := convertdata_done _ _ _ _ _ hcd
                have hp4 : page + 1 ≤ 4 := by
                  by_contra hc
                  exact hstop (Or.inl (by omega))
                cases hfn : fetch nextLink with
                | getError =>
                  exact ⟨[nextLink], [], by simp [Run.state, hfe],
                    by simp only [List.length_cons, List.length_nil]; push_cast; omega,
                    by simpa [Run.state] using hpo,
                    fun f1 s h => (by cases h; exact Or.inr (Or.inr (Or.inl rfl))),
                    fun _ _ h => (by cases h)⟩
                | readError =>
                  exact ⟨[nextLink], [], by simp [Run.state, hfe],
                    by simp only [List.length_cons, List.length_nil]; push_cast; omega,
                    by simpa [Run.state] using hpo,
                    fun f1 s h => (by cases h; exact Or.inr (Or.inr (Or.inr rfl))),
                    fun _ _ h => (by cases h)⟩
                | body next =>
                simp only []
                obtain ⟨urls, ex, i1, i2, i3, i4, i5⟩ :=
                  crawlAux_spec parse fetch fuel next (page + 1)
                    { w2 with fetched := w2.fetched ++ [nextLink] }
                    { cb with searchedbefore := maxint cb.searchedbefore (Atoi str).1 }
                    (by omega) hp4 (by push_cast at hf; omega)
                refine ⟨nextLink :: urls, ((Atoi str).1, mentionList) :: ex, ?_, ?_, ?_, i4, ?_⟩
                · rw [i1]
                  show (w2.fetched ++ [nextLink]) ++ urls = _
                  rw [hfe]
                  simp
                · simp only [List.length_cons]; push_cast; omega
                · rw [i3]; exact hpo
                · intro w1 cb1 h
                  obtain ⟨j1, j2, j3, j4⟩ := i5 w1 cb1 h
                  refine ⟨?_, ?_, ?_, ?_⟩
                  · rw [j1]
                    show w2.extracted ++ ex = _
                    rw [hex]
                    simp
                  · rw [j2]; rfl
                  · rw [j3]
                    show w2.store ++ _ = _
                    rw [hs, pageMentions_congr parse cb
                      { cb with searchedbefore := maxint cb.searchedbefore (Atoi str).1 } rfl rfl ex,
                      mentionsOf_congr parse cb
                      { cb with searchedbefore := maxint cb.searchedbefore (Atoi str).1 } rfl]
                    simp [pageMentions]
                  · simp [j4]

/-- A budget of five steps or more makes no difference to a walk from page 0
to 4: the recursion ends by itself. -/
theorem crawlAux_fuel (parse : TimeParse) (fetch : Transport) :
    ∀ (fuel fuel2 : Nat) (resp : Str) (page : Int) (w : World) (cb : Brand),
      0 ≤ page → page ≤ 4 → 5 ≤ (fuel : Int) + page → 5 ≤ (fuel2 : Int) + page →
      crawlAux parse fetch fuel resp page w cb = crawlAux parse fetch fuel2 resp page w cb
  | 0, _, _, page, _, _, _, h4, hf, _ => by omega
  | _ + 1, 0, _, page, _, _, _, h4, _, hf => by omega
  | fuel + 1, fuel2 + 1, resp, page, w, cb, h0, h4, hf, hf2 => by
    unfold crawlAux
    simp only [wrapInt_small page h0 h4]
    by_cases hp : page + 1 > 4
    · simp only [hp, true_or, if_true]
    · have ih : ∀ r w1 c, crawlAux parse fetch fuel r (page + 1) w1 c
          = crawlAux parse fetch fuel2 r (page + 1) w1 c := fun r w1 c =>
        crawlAux_fuel parse fetch fuel fuel2 r (page + 1) w1 c (by omega) (by omega)
          (by push_cast at hf; omega) (by push_cast at hf2; omega)
      simp only [ih]

theorem deepest_spec : ∀ (ex : List (Int × List Str)) (sb : Int),
    sb ≤ deepest sb ex ∧ (∀ e, e ∈ ex → e.1 ≤ deepest sb ex)
      ∧ (deepest sb ex = sb ∨ ∃ e, e ∈ ex ∧ deepest sb ex = e.1)
  | [], sb => ⟨Int.le_refl _, by simp, Or.inl rfl⟩
  | e :: ex, sb => by
    obtain ⟨h1, h2, h3⟩ := deepest_spec ex (maxint sb e.1)
    have hm : sb ≤ maxint sb e.1 ∧ e.1 ≤ maxint sb e.1
        ∧ (maxint sb e.1 = sb ∨ maxint sb e.1 = e.1) := by
      unfold maxint
      split
      · exact ⟨Int.le_refl _, by omega, Or.inl rfl⟩
      · exact ⟨by omega, Int.le_refl _, Or.inr rfl⟩
    have hd : deepest sb (e :: ex) = deepest (maxint sb e.1) ex := rfl
    rw [hd]
    refine ⟨Int.le_trans hm.1 h1, ?_, ?_⟩
    · intro x hx
      rcases List.mem_cons.mp hx with rfl | hx
      · exact Int.le_trans hm.2.1 h1
      · exact h2 x hx
    · rcases h3 with h3 | ⟨x, hx, h3⟩
      · rcases hm.2.2 with h4 | h4
        · exact Or.inl (h3.trans h4)
        · exact Or.inr ⟨e, List.mem_cons_self _ _, h3.trans h4⟩
      · exact Or.inr ⟨x, List.mem_cons_of_mem _ hx, h3⟩

/-- The pages a returned walk has requested are the ones the stopping rules
of the walker pick: what `convertdata` did with the records plays no part. -/
theorem crawlAux_links (parse : TimeParse) (fetch : Transport) :
    ∀ (fuel : Nat) (resp : Str) (page : Int) (w w1 : World) (cb cb1 : Brand),
      0 ≤ page → page ≤ 4 →
      crawlAux parse fetch fuel resp page w cb = .done (w1, cb1) →
      w1.fetched = w.fetched ++ walkLinks fetch fuel resp page cb.pass cb.searchedbefore
  | 0, _, _, _, _, _, _, _, _, h => by simp [crawlAux] at h
  | fuel + 1, resp, page, w, w1, cb, cb1, h0, h4, h => by
    unfold crawlAux at h
    unfold walkLinks
    simp only [wrapInt_small page h0 h4] at h
    cases hgn : getnext resp with
    | fail f => rw [hgn] at h; cases h
    | ok nextLink =>
      rw [hgn] at h
      simp only [] at h ⊢
      by_cases hstop : page + 1 > 4 ∨ nextLink = []
      · rw [if_pos hstop] at h ⊢
        cases h
        simp
      · rw [if_neg hstop] at h ⊢
        cases hgu : getuntil nextLink with
        | fail f => rw [hgu] at h; cases h
        | ok str =>
          rw [hgu] at h
          simp only [] at h ⊢
          by_cases hdeep : cb.pass > 1 ∧ cb.searchedbefore ≥ (Atoi str).1
          · rw [if_pos hdeep] at h ⊢
            cases h
            simp
          · rw [if_neg hdeep] at h ⊢
            cases hgd : getdata resp [] with
            | fail f => rw [hgd] at h; cases h
            | ok mentionList =>
              rw [hgd] at h
              simp only [] at h
              cases hcd : convertdata parse mentionList
                { w with extracted := w.extracted ++ [((Atoi str).1, mentionList)] }
                { cb with searchedbefore := maxint cb.searchedbefore (Atoi str).1 } with
              | halt f s => rw [hcd] at h; cases h
              | done w3 =>
                rw [hcd] at h
                simp only [] at h
                have hfe := (convertdata_done _ _ _ _ _ hcd).2.2.2.2.1
                have hp4 : page + 1 ≤ 4 := by
                  by_contra hc
                  exact hstop (Or.inl (by omega))
                cases hfn : fetch nextLink with
                | getError => rw [hfn] at h; cases h
                | readError => rw [hfn] at h; cases h
                | body next =>
                  rw [hfn] at h
                  simp only [] at h ⊢
                  have ih := crawlAux_links parse fetch fuel next (page + 1) _ w1 _ cb1
                    (by omega) hp4 h
                  rw [ih]
                  show (w3.fetched ++ [nextLink]) ++ _ = _
                  rw [hfe]
                  simp

/-! ## One crawl cycle -/

/-- The cycle of a brand is its walk from the first search page, with the
tentative mark reset to the brand's time and the pass counted; whatever the
walk leaves in `tempTimestamp`, the time pushed back is the wall-clock
reading. -/
theorem cycle_eq (parse : TimeParse) (fetch : Transport) (now : Int) (w : World) (cb : Brand) :
    cycle parse fetch now w cb =
      match fetch (firstUrl cb.Name) with
      | .getError =>
        .halt .httpGet
          ({ w with tempTimestamp := cb.time, fetched := w.fetched ++ [firstUrl cb.Name] }, cb)
      | .readError =>
        .halt .readBody
          ({ w with tempTimestamp := cb.time, fetched := w.fetched ++ [firstUrl cb.Name] },
           { cb with pass := wrapInt (cb.pass + 1) })
      | .body resp =>
        match crawl parse fetch resp 0
            { w with tempTimestamp := cb.time, fetched := w.fetched ++ [firstUrl cb.Name] }
            { cb with pass := wrapInt (cb.pass + 1) } with
        | .halt f s => .halt f s
        | .done (w3, cb2) => .done (w3, { cb2 with time := toUint64 now }) := by
  unfold cycle
  rw [fixspace_eq]
  simp only []
  cases fetch (firstUrl cb.Name) with
  | getError => rfl
  | readError => rfl
  | body resp =>
    simp only []
    split
    · rfl
    · rename_i w3 cb2 _
      split <;> rfl

/-- The cycle of a brand whose first search page is read. -/
theorem cycle_body (parse : TimeParse) (fetch : Transport) (now : Int) (w : World) (cb : Brand)
    (resp : Str) (hf : fetch (firstUrl cb.Name) = .body resp) :
    cycle parse fetch now w cb =
      match crawl parse fetch resp 0
          { w with tempTimestamp := cb.time, fetched := w.fetched ++ [firstUrl cb.Name] }
          { cb with pass := wrapInt (cb.pass + 1) } with
      | .halt f s => .halt f s
      | .done (w3, cb2) => .done (w3, { cb2 with time := toUint64 now }) := by
  rw [cycle_eq, hf]

/-- A cycle that returns has read its first search page. -/
theorem cycle_done_body (parse : TimeParse) (fetch : Transport) (now : Int) (w w1 : World)
    (cb cb1 : Brand) (h : cycle parse fetch now w cb = .done (w1, cb1)) :
    ∃ resp, fetch (firstUrl cb.Name) = .body resp := by
  rw [cycle_eq] at h
  cases hf : fetch (firstUrl cb.Name) with
  | getError => rw [hf] at h; cases h
  | readError => rw [hf] at h; cases h
  | body resp => exact ⟨resp, rfl⟩

/-- Whatever its outcome, a cycle requests the first search page of the brand
and after it at most 4 pages. -/
theorem cycle_fetched (parse : TimeParse) (fetch : Transport) (now : Int) (w : World)
    (cb : Brand) :
    ∃ urls, (cycle parse fetch now w cb).state.1.fetched = w.fetched ++ firstUrl cb.Name :: urls
      ∧ urls.length ≤ 4 := by
  rw [cycle_eq]
  cases hf : fetch (firstUrl cb.Name) with
  | getError => exact ⟨[], by simp [Run.state], by simp⟩
  | readError => exact ⟨[], by simp [Run.state], by simp⟩
  | body resp =>
    simp only []
    obtain ⟨urls, ex, h1, h2, _⟩ :=
      crawlAux_spec parse fetch 5 resp 0
        { w with tempTimestamp := cb.time, fetched := w.fetched ++ [firstUrl cb.Name] }
        { cb with pass := wrapInt (cb.pass + 1) } (by omega) (by omega) (by omega)
    refine ⟨urls, ?_, by omega⟩
    simp only [crawl]
    generalize crawlAux parse fetch 5 resp 0
      { w with tempTimestamp := cb.time, fetched := w.fetched ++ [firstUrl cb.Name] }
      { cb with pass := wrapInt (cb.pass + 1) } = r at h1 ⊢
    cases r with
    | halt f s =>
      show s.1.fetched = _
      rw [show s.1.fetched = _ from h1]
      simp
    | done s =>
      show s.1.fetched = _
      rw [show s.1.fetched = _ from h1]
      simp

/-- A returned cycle hands back the brand with the wall-clock reading as its
time and leaves the trace of popped brands alone. -/
theorem cycle_done (parse : TimeParse) (fetch : Transport) (now : Int) (w w1 : World)
    (cb cb1 : Brand) (h : cycle parse fetch now w cb = .done (w1, cb1)) :
    cb1.time = toUint64 now ∧ w1.popped = w.popped := by
  obtain ⟨resp, hf⟩ := cycle_done_body parse fetch now w w1 cb cb1 h
  rw [cycle_body parse fetch now w cb resp hf] at h
  obtain ⟨urls, ex, _, _, h3, _, _⟩ :=
    crawlAux_spec parse fetch 5 resp 0
      { w with tempTimestamp := cb.time, fetched := w.fetched ++ [firstUrl cb.Name] }
      { cb with pass := wrapInt (cb.pass + 1) } (by omega) (by omega) (by omega)
  have h3b : (crawl parse fetch resp 0
      { w with tempTimestamp := cb.time, fetched := w.fetched ++ [firstUrl cb.Name] }
      { cb with pass := wrapInt (cb.pass + 1) }).state.1.popped = w.popped := h3
  revert h h3b
  cases crawl parse fetch resp 0
      { w with tempTimestamp := cb.time, fetched := w.fetched ++ [firstUrl cb.Name] }
      { cb with pass := wrapInt (cb.pass + 1) } with
  | halt f s => intro h _; cases h
  | done s =>
    obtain ⟨w3, cb2⟩ := s
    intro h h3b
    simp only [] at h
    cases h
    exact ⟨rfl, h3b⟩

/-- A cycle never stops because the model ran out of steps: its panics are a
slice out of range, the full in-memory queue and the errors of the
transport. -/
theorem cycle_halt (parse : TimeParse) (fetch : Transport) (now : Int) (w : World)
    (cb : Brand) (f : Fault) (s : World × Brand)
    (h : cycle parse fetch now w cb = .halt f s) :
    f = .sliceBounds ∨ f = .queueFull ∨ f = .httpGet ∨ f = .readBody := by
  rw [cycle_eq] at h
  cases hf : fetch (firstUrl cb.Name) with
  | getError => rw [hf] at h; cases h; exact Or.inr (Or.inr (Or.inl rfl))
  | readError => rw [hf] at h; cases h; exact Or.inr (Or.inr (Or.inr rfl))
  | body resp =>
    rw [hf] at h
    simp only [] at h
    obtain ⟨urls, ex, _, _, _, h4, _⟩ :=
      crawlAux_spec parse fetch 5 resp 0
        { w with tempTimestamp := cb.time, fetched := w.fetched ++ [firstUrl cb.Name] }
        { cb with pass := wrapInt (cb.pass + 1) } (by omega) (by omega) (by omega)
    have h4b : ∀ f s, crawl parse fetch resp 0
        { w with tempTimestamp := cb.time, fetched := w.fetched ++ [firstUrl cb.Name] }
        { cb with pass := wrapInt (cb.pass + 1) } = .halt f s →
          f = .sliceBounds ∨ f = .queueFull ∨ f = .httpGet ∨ f = .readBody := h4
    revert h h4b
    cases crawl parse fetch resp 0
        { w with tempTimestamp := cb.time, fetched := w.fetched ++ [firstUrl cb.Name] }
        { cb with pass := wrapInt (cb.pass + 1) } with
    | halt f1 s1 =>
      intro h h4b
      cases h
      exact h4b _ _ rfl
    | done s1 => intro h _; cases h

/-- The times a brand has after its successive cycles are the wall-clock
readings of the cycles that completed. -/
theorem cycles_times (parse : TimeParse) : ∀ (es : List Env) (w : World) (cb : Brand),
    ∃ k, (cycles parse es w cb).map Brand.time = (es.map (fun e => toUint64 e.now)).take k
  | [], _, _ => ⟨0, rfl⟩
  | e :: es, w, cb => by
    unfold cycles
    cases hc : cycle parse e.fetch e.now w cb with
    | halt f s => exact ⟨0, rfl⟩
    | done s =>
      obtain ⟨w1, cb1⟩ := s
      obtain ⟨k, hk⟩ := cycles_times parse es w1 cb1
      refine ⟨k + 1, ?_⟩
      simp only [List.map_cons, List.take_succ_cons, hk, (cycle_done _ _ _ _ _ _ _ hc).1]

/-! ## One sweep of `crawler` -/

theorem mem_unindexed_of_perm {l : List Brand} {M : List Brand} {r : Brand}
    (hp : (l.map unindexed).Perm M) (hr : r ∈ M) : ∃ c, c ∈ l ∧ unindexed c = r := by
  have : r ∈ l.map unindexed := hp.symm.subset hr
  obtain ⟨c, hc, hcr⟩ := List.mem_map.mp this
  exact ⟨c, hc, hcr⟩

theorem time_unindexed (b : Brand) : (unindexed b).time = b.time := rfl

/-- One pass of the loop of `crawler` pops a brand of the start of the sweep
that was not popped before, no earlier than the ones popped before it and no
later than the ones still waiting, and pushes it back behind them all. -/
theorem crawlerStep_inv (parse : TimeParse) (env : Env) (L0 : List Brand) (w0 : World)
    (cap : Nat) (wi : World) (q : Brands) (P : List Brand)
    (hinv : SweepInv L0 w0 cap wi q P) (hP : P.length < L0.length) (hcap : L0.length ≤ cap)
    (hclock : ∀ b, b ∈ L0 → b.time < toUint64 env.now) :
    (∀ w1 q1, crawlerStep parse env wi q = .done (w1, q1) →
        ∃ x, SweepInv L0 w0 cap w1 q1 (P ++ [x]))
    ∧ (∀ f s, crawlerStep parse env wi q = .halt f s → f ≠ .fuel) := by
  obtain ⟨hpop0, R, Q, hPR, hqR, hQ, hsorted, hPle, hord, hlen, hqcap⟩ := hinv
  have hne : q.items ≠ [] := by
    intro h
    rw [h] at hlen
    simp at hlen
    omega
  obtain ⟨x, q1, hpop, hmin, hperm, hlen1, hcap1, hord1⟩ := heap_Pop_least q hne hord
  -- the brand popped is one of the waiting ones
  have hRlen : P.length + R.length = L0.length := by
    have := hPR.length_eq
    simpa using this
  have hxRQ : unindexed x ∈ R ++ Q :=
    hqR.subset (hperm.subset (List.mem_cons_self _ _))
  have hxR : unindexed x ∈ R := by
    rcases List.mem_append.mp hxRQ with h | h
    · exact h
    · exfalso
      obtain ⟨r, hr⟩ : ∃ r, r ∈ R := by
        cases R with
        | nil => simp at hRlen; omega
        | cons r _ => exact ⟨r, List.mem_cons_self _ _⟩
      obtain ⟨c, hc, hcr⟩ := mem_unindexed_of_perm hqR (List.mem_append_left _ hr)
      have hrL : r ∈ L0.map unindexed := hPR.subset (List.mem_append_right _ hr)
      obtain ⟨b, hb, hbr⟩ := List.mem_map.mp hrL
      have h1 := hQ _ h b hb
      have h2 := hmin c hc
      have e1 : c.time = r.time := by rw [← hcr]; rfl
      have e2 : b.time = r.time := by rw [← hbr]; rfl
      have e3 : (unindexed x).time = x.time := rfl
      have h2b : x.time ≤ c.time := h2
      omega
  have hxmin : ∀ r, r ∈ R → x.time ≤ r.time := by
    intro r hr
    obtain ⟨c, hc, hcr⟩ := mem_unindexed_of_perm hqR (List.mem_append_left _ hr)
    have h2 : x.time ≤ c.time := hmin c hc
    have e1 : c.time = r.time := by rw [← hcr]; rfl
    omega
  have hRx : R.Perm (unindexed x :: R.erase (unindexed x)) := List.perm_cons_erase hxR
  have hq1 : (q1.items.map unindexed).Perm (R.erase (unindexed x) ++ Q) := by
    have h1 : (unindexed x :: q1.items.map unindexed).Perm
        (unindexed x :: (R.erase (unindexed x) ++ Q)) :=
      (hperm.trans hqR).trans (hRx.append_right Q)
    exact h1.cons_inv
  constructor
  · intro w1 q2 hstep
    unfold crawlerStep at hstep
    rw [hpop] at hstep
    simp only [] at hstep
    cases hcy : cycle parse env.fetch env.now { wi with popped := wi.popped ++ [x] } x with
    | halt f s =>
      rw [hcy] at hstep
      obtain ⟨s1, s2⟩ := s
      cases hstep
    | done s =>
      obtain ⟨w2, cb⟩ := s
      rw [hcy] at hstep
      simp only [] at hstep
      obtain ⟨hct, hcp⟩ := cycle_done _ _ _ _ _ _ _ hcy
      cases hpu : heap.Push q1 cb with
      | fail f => rw [hpu] at hstep; cases hstep
      | ok q3 =>
        rw [hpu] at hstep
        cases hstep
        obtain ⟨l, hl, hllen, hlperm, hlord⟩ := heap_Push_ok q1 cb (by omega)
        rw [hl] at hpu
        cases hpu
        refine ⟨x, ?_, R.erase (unindexed x), unindexed cb :: Q, ?_, ?_, ?_, ?_, ?_, ?_, ?_, ?_⟩
        · rw [hcp]
          show wi.popped ++ [x] = _
          rw [hpop0, List.append_assoc]
        · rw [List.map_append, List.map_singleton, List.append_assoc]
          exact (List.Perm.append_left _ hRx.symm).trans hPR
        · exact (hlperm.trans (List.Perm.cons _ hq1)).trans List.perm_middle.symm
        · intro y hy b hb
          rcases List.mem_cons.mp hy with rfl | hy
          · have : (unindexed cb).time = cb.time := rfl
            rw [this, hct]
            exact hclock b hb
          · exact hQ y hy b hb
        · rw [List.map_append, List.map_singleton, List.pairwise_append]
          refine ⟨hsorted, List.pairwise_singleton _ _, ?_⟩
          intro a ha b hb
          obtain ⟨p, hp, rfl⟩ := List.mem_map.mp ha
          have : b = x.time := by simpa using hb
          rw [this]
          exact hPle p hp (unindexed x) hxR
        · intro p hp r hr
          have hrR : r ∈ R := List.mem_of_mem_erase hr
          rcases List.mem_append.mp hp with hp | hp
          · exact hPle p hp r hrR
          · have : p = x := by simpa using hp
            rw [this]
            exact hxmin r hrR
        · exact hlord hord1
        · show l.length = _
          rw [hllen]; omega
        · exact hcap1.trans hqcap
  · intro f s hstep hfuel
    subst hfuel
    unfold crawlerStep at hstep
    rw [hpop] at hstep
    simp only [] at hstep
    cases hcy : cycle parse env.fetch env.now { wi with popped := wi.popped ++ [x] } x with
    | halt f s1 =>
      rw [hcy] at hstep
      obtain ⟨s2, s3⟩ := s1
      simp only [] at hstep
      cases hstep
      rcases cycle_halt _ _ _ _ _ _ _ hcy with h | h | h | h <;> cases h
    | done s1 =>
      obtain ⟨w2, cb⟩ := s1
      rw [hcy] at hstep
      simp only [] at hstep
      cases hpu : heap.Push q1 cb with
      | fail f =>
        rw [hpu] at hstep
        cases hstep
        have := (heap_Push_fail _ _ _ hpu).1
        cases this
      | ok q3 => rw [hpu] at hstep; cases hstep

/-- The loop of `crawler` keeps the invariant of the sweep up to its last
pass and never runs out of steps. -/
theorem crawlerLoop_inv (parse : TimeParse) (envs : Nat → Env) (L0 : List Brand) (w0 : World)
    (cap : Nat) (hcap : L0.length ≤ cap)
    (hclock : ∀ i, i < L0.length → ∀ b, b ∈ L0 → b.time < toUint64 (envs i).now) :
    ∀ (fuel i : Nat) (wi : World) (q : Brands) (P : List Brand),
      SweepInv L0 w0 cap wi q P → P.length = i → i ≤ L0.length → L0.length < fuel + i →
      (∀ w1 q1, crawlerLoop parse envs fuel i wi q = .done (w1, q1) →
          ∃ P1, SweepInv L0 w0 cap w1 q1 P1 ∧ P1.length = L0.length)
      ∧ (∀ f s, crawlerLoop parse envs fuel i wi q = .halt f s → f ≠ .fuel)
  | 0, i, _, _, _, _, _, hi, hf => by omega
  | fuel + 1, i, wi, q, P, hinv, hP, hi, hf => by
    have hlen : Queue.Len q = L0.length := hinv.2.choose_spec.choose_spec.2.2.2.2.2.2.1
    unfold crawlerLoop
    rw [hlen]
    by_cases hlt : i < L0.length
    · rw [if_pos hlt]
      obtain ⟨hs1, hs2⟩ := crawlerStep_inv parse (envs i) L0 w0 cap wi q P hinv (by omega) hcap
        (hclock i hlt)
      cases hst : crawlerStep parse (envs i) wi q with
      | halt f s =>
        simp only []
        exact ⟨fun _ _ h => (by cases h), fun f1 s1 h => (by cases h; exact hs2 _ _ hst)⟩
      | done s =>
        obtain ⟨w1, q1⟩ := s
        simp only []
        obtain ⟨x, hinv1⟩ := hs1 w1 q1 hst
        exact crawlerLoop_inv parse envs L0 w0 cap hcap hclock fuel (i + 1) w1 q1 (P ++ [x])
          hinv1 (by simp [hP]) (by omega) (by omega)
    · rw [if_neg hlt]
      exact ⟨fun w1 q1 h => (by cases h; exact ⟨P, hinv, by omega⟩), fun _ _ h => (by cases h)⟩

/-! ## `retrieveBrands` -/

/-- In a slice whose times are all 0 no slot is `Less` than its parent: `up`
leaves the slice as it is. -/
theorem up_no_swap {α : Type} [HeapElem α] (fuel : Nat) (l : List α) (j : Nat)
    (hj : j < l.length) (h0 : ∀ k, timeAt l k = 0) : heap.up (fuel + 1) l j = .ok l := by
  unfold heap.up
  by_cases hij : (j - 1) / 2 = j
  · simp [hij]
  · simp only [hij, if_false]
    rw [Less_ok l hj (by omega), h0, h0]
    rfl

theorem timeAt_append_zero {α : Type} [HeapElem α] (l : List α) (x : α)
    (hl : ∀ k, timeAt l k = 0) (hx : HeapElem.time x = 0) : ∀ k, timeAt (l ++ [x]) k = 0 := by
  intro k
  unfold timeAt
  by_cases hk : k < l.length
  · rw [List.getElem?_append_left hk]
    exact hl k
  · rw [List.getElem?_append_right (by omega)]
    by_cases hk2 : k - l.length = 0
    · simp [hk2, hx]
    · have : [x][k - l.length]? = none := List.getElem?_eq_none (by simp; omega)
      rw [this]

/-- The loop of `retrieveBrands` on a queue whose times are all 0 and that has
room: every push lands in the last slot and stays there. -/
theorem rebuild_eq : ∀ (rest : List Brand) (br : Brands),
    (∀ k, timeAt br.items k = 0) → br.items.length + rest.length ≤ br.cap →
    rebuild rest br
      = .ok { items := br.items ++ freshBrands br.items.length rest, cap := br.cap }
  | [], br, _, _ => by simp [rebuild, freshBrands]
  | r :: rest, br, h0, hroom => by
    simp only [List.length_cons] at hroom
    have hr : br.items.length + 1 ≤ br.cap := by omega
    have h1 : ∀ k, timeAt (br.items ++ [(⟨r.Name, [], 0, 0, 0, (br.items.length : Int)⟩ : Brand)]) k
        = 0 := timeAt_append_zero _ _ h0 rfl
    have hup := up_no_swap (br.items.length)
      (br.items ++ [(⟨r.Name, [], 0, 0, 0, (br.items.length : Int)⟩ : Brand)]) br.items.length
      (by simp) h1
    have hpush : heap.Push br (⟨r.Name, [], 0, 0, 0, 0⟩ : Brand)
        = .ok { items := br.items ++ [(⟨r.Name, [], 0, 0, 0, (br.items.length : Int)⟩ : Brand)],
                cap := br.cap } := by
      unfold heap.Push Queue.Push
      simp only [hr, if_true, Queue.Len, List.length_append, List.length_singleton,
        Nat.add_sub_cancel]
      have e : HeapElem.withIndex (⟨r.Name, [], 0, 0, 0, 0⟩ : Brand) (br.items.length : Int)
          = (⟨r.Name, [], 0, 0, 0, (br.items.length : Int)⟩ : Brand) := rfl
      rw [e, hup]
    unfold rebuild
    simp only []
    rw [hpush]
    simp only []
    rw [rebuild_eq rest _ h1
      (by simp only [List.length_append, List.length_singleton]; omega)]
    simp [freshBrands]

theorem freshBrands_getElem? : ∀ (l : List Brand) (start k : Nat),
    (freshBrands start l)[k]? = (l[k]?).map (fun r =>
      ({ Name := r.Name, Aliases := [], searchedbefore := 0, time := 0, pass := 0,
         index := ((start + k : Nat) : Int) } : Brand))
  | [], _, _ => by simp [freshBrands]
  | r :: rest, start, 0 => by simp [freshBrands]
  | r :: rest, start, k + 1 => by
    simp only [freshBrands, List.getElem?_cons_succ, freshBrands_getElem? rest (start + 1) k]
    have : start + 1 + k = start + (k + 1) := by omega
    rw [this]

theorem freshBrands_length : ∀ (l : List Brand) (start : Nat),
    (freshBrands start l).length = l.length
  | [], _ => rfl
  | _ :: rest, start => by simp [freshBrands, freshBrands_length rest (start + 1)]

theorem freshBrands_timeAt (l : List Brand) (start k : Nat) :
    timeAt (freshBrands start l) k = 0 := by
  unfold timeAt
  rw [freshBrands_getElem?]
  cases l[k]? <;> rfl

/-! ## The in-memory queue of mentions -/

theorem Grows.refl (w : World) : Grows w w := ⟨[], by simp, by simp, rfl⟩

theorem Grows.trans {w w1 w2 : World} (h1 : Grows w w1) (h2 : Grows w1 w2) : Grows w w2 := by
  obtain ⟨n1, a1, b1, c1⟩ := h1
  obtain ⟨n2, a2, b2, c2⟩ := h2
  exact ⟨n1 ++ n2, by rw [a2, a1, List.append_assoc],
    by rw [b2, b1, List.length_append]; omega, c2.trans c1⟩

/-- Whatever its outcome, `convertdata` has pushed one item per mention it has
written. -/
theorem convertRecords_grows (parse : TimeParse) (cb : Brand) :
    ∀ (rs : List (Str × Str × Str)) (w : World), Grows w (convertRecords parse cb rs w).state
  | [], w => Grows.refl w
  | (text, idStr, timeStr) :: rs, w => by
    simp only [convertRecords]
    split
    · exact Grows.refl w
    · generalize hw1 : (if unixOf parse timeStr > w.tempTimestamp
        then ({ w with tempTimestamp := unixOf parse timeStr } : World) else w) = w1
      have hpq : w1.pq = w.pq := by subst hw1; split <;> rfl
      have hst : w1.store = w.store := by subst hw1; split <;> rfl
      have hg1 : Grows w w1 := ⟨[], by simp [hst], by simp [hpq], by rw [hpq]⟩
      cases hP : heap.Push w1.pq
        ({ mention := text, id := (ParseInt idStr).1, time := unixOf parse timeStr,
           index := 0 } : Item) with
      | fail f => exact hg1
      | ok pq1 =>
        simp only []
        obtain ⟨_, hc, hl⟩ := heap_Push_done _ _ _ hP
        have hg2 : Grows w1
            ({ w1 with
                pq := pq1,
                store := w1.store ++ [mkMention cb text (unixOf parse timeStr)] } : World) :=
          ⟨[mkMention cb text (unixOf parse timeStr)], rfl, by simpa using hl, hc⟩
        exact (hg1.trans hg2).trans (convertRecords_grows parse cb rs _)

theorem convertdata_grows (parse : TimeParse) (ml : List Str) (w : World) (cb : Brand) :
    Grows w (convertdata parse ml w cb).state := by
  rw [convertdata_eq]
  exact convertRecords_grows parse cb _ w

/-- Whatever its outcome, a walk has pushed one item per mention written. -/
theorem crawlAux_grows (parse : TimeParse) (fetch : Transport) :
    ∀ (fuel : Nat) (resp : Str) (page : Int) (w : World) (cb : Brand),
      Grows w (crawlAux parse fetch fuel resp page w cb).state.1
  | 0, _, _, w, _ => Grows.refl w
  | fuel + 1, resp, page, w, cb => by
    unfold crawlAux
    simp only []
    cases getnext resp with
    | fail f => exact Grows.refl w
    | ok nextLink =>
      simp only []
      split
      · exact Grows.refl w
      · cases getuntil nextLink with
        | fail f => exact Grows.refl w
        | ok str =>
          simp only []
          split
          · exact Grows.refl w
          · cases getdata resp [] with
            | fail f => exact Grows.refl w
            | ok mentionList =>
              simp only []
              have hg := convertdata_grows parse mentionList
                { w with extracted := w.extracted ++ [((Atoi str).1, mentionList)] }
                { cb with searchedbefore := maxint cb.searchedbefore (Atoi str).1 }
              have hg0 : Grows w
                  ({ w with extracted := w.extracted ++ [((Atoi str).1, mentionList)] } : World) :=
                ⟨[], by simp, by simp, rfl⟩
              cases hcd : convertdata parse mentionList
                { w with extracted := w.extracted ++ [((Atoi str).1, mentionList)] }
                { cb with searchedbefore := maxint cb.searchedbefore (Atoi str).1 } with
              | halt f w2 =>
                rw [hcd] at hg
                exact hg0.trans hg
              | done w2 =>
                rw [hcd] at hg
                simp only []
                have hg2 : Grows w2 ({ w2 with fetched := w2.fetched ++ [nextLink] } : World) :=
                  ⟨[], by simp, by simp, rfl⟩
                cases fetch nextLink with
                | getError => exact (hg0.trans hg).trans hg2
                | readError => exact (hg0.trans hg).trans hg2
                | body next =>
                  exact ((hg0.trans hg).trans hg2).trans
                    (crawlAux_grows parse fetch fuel _ _ _ _)

theorem cycle_grows (parse : TimeParse) (fetch : Transport) (now : Int) (w : World)
    (cb : Brand) : Grows w (cycle parse fetch now w cb).state.1 := by
  rw [cycle_eq]
  have hg0 : Grows w
      ({ w with
          tempTimestamp := cb.time,
          fetched := w.fetched ++ [firstUrl cb.Name] } : World) := ⟨[], by simp, by simp, rfl⟩
  cases fetch (firstUrl cb.Name) with
  | getError => exact hg0
  | readError => exact hg0
  | body resp =>
    simp only []
    have hg := crawlAux_grows parse fetch 5 resp 0
      { w with tempTimestamp := cb.time, fetched := w.fetched ++ [firstUrl cb.Name] }
      { cb with pass := wrapInt (cb.pass + 1) }
    have hg1 : Grows w (crawl parse fetch resp 0
        { w with tempTimestamp := cb.time, fetched := w.fetched ++ [firstUrl cb.Name] }
        { cb with pass := wrapInt (cb.pass + 1) }).state.1 := hg0.trans hg
    revert hg1
    cases crawl parse fetch resp 0
        { w with tempTimestamp := cb.time, fetched := w.fetched ++ [firstUrl cb.Name] }
        { cb with pass := wrapInt (cb.pass + 1) } with
    | halt f s => exact fun h => h
    | done s => exact fun h => h

theorem crawlerStep_grows (parse : TimeParse) (env : Env) (w : World) (brand : Brands) :
    Grows w (crawlerStep parse env w brand).state.1 := by
  unfold crawlerStep
  cases heap.Pop brand with
  | fail f => exact Grows.refl w
  | ok r =>
    obtain ⟨x, brand1⟩ := r
    simp only []
    have hg := cycle_grows parse env.fetch env.now { w with popped := w.popped ++ [x] } x
    have hg0 : Grows w ({ w with popped := w.popped ++ [x] } : World) :=
      ⟨[], by simp, by simp, rfl⟩
    cases hcy : cycle parse env.fetch env.now { w with popped := w.popped ++ [x] } x with
    | halt f s =>
      obtain ⟨w2, cb⟩ := s
      rw [hcy] at hg
      exact hg0.trans hg
    | done s =>
      obtain ⟨w2, cb⟩ := s
      rw [hcy] at hg
      simp only []
      cases heap.Push brand1 cb with
      | fail f => exact hg0.trans hg
      | ok brand2 => exact hg0.trans hg

theorem crawlerLoop_grows (parse : TimeParse) (envs : Nat → Env) :
    ∀ (fuel i : Nat) (w : World) (brand : Brands),
      Grows w (crawlerLoop parse envs fuel i w brand).state.1
  | 0, _, w, _ => Grows.refl w
  | fuel + 1, i, w, brand => by
    unfold crawlerLoop
    split
    · have hg := crawlerStep_grows parse (envs i) w brand
      cases hst : crawlerStep parse (envs i) w brand with
      | halt f s => rw [hst] at hg; exact hg
      | done s =>
        obtain ⟨w1, brand1⟩ := s
        rw [hst] at hg
        exact hg.trans (crawlerLoop_grows parse envs fuel (i + 1) w1 brand1)
    · exact Grows.refl w

theorem crawler_grows (parse : TimeParse) (envs : Nat → Env) (w : World) (brand : Brands) :
    Grows w (crawler parse envs w brand).state.1 :=
  crawlerLoop_grows parse envs _ 0 w brand

/-- One more pass of the loop of `main` only adds to the store and the
in-memory queue of the passes before. -/
theorem mainRun_step_grows (parse : TimeParse) (loads : Nat → List Brand)
    (envs : Nat → Nat → Env) (n : Nat) :
    Grows (mainRun parse loads envs n).state.1 (mainRun parse loads envs (n + 1)).state.1 := by
  show Grows _ (match mainRun parse loads envs n with
    | .halt f s => (Run.halt f s : Run (World × Brands))
    | .done (w, brand) =>
      match retrieveBrands brand (loads n) with
      | .fail f => .halt f (w, brand)
      | .ok brand1 => crawler parse (envs n) w brand1).state.1
  cases mainRun parse loads envs n with
  | halt f s => exact Grows.refl _
  | done s =>
    obtain ⟨w, brand⟩ := s
    simp only []
    cases retrieveBrands brand (loads n) with
    | fail f => exact Grows.refl _
    | ok brand1 => exact crawler_grows parse (envs n) w brand1

theorem mainRun_grows (parse : TimeParse) (loads : Nat → List Brand)
    (envs : Nat → Nat → Env) : ∀ (n : Nat), Grows startWorld (mainRun parse loads envs n).state.1
  | 0 => Grows.refl _
  | n + 1 => (mainRun_grows parse loads envs n).trans (mainRun_step_grows parse loads envs n)

/-! ## `getuntil` -/

/-- A search that succeeds splits the string at the match. -/
theorem indexFrom_split (sep : Str) : ∀ (s : Str) (k : Nat), indexFrom sep s k ≠ -1 →
    ∃ front back, s = front ++ sep ++ back
      ∧ indexFrom sep s k = (k : Int) + (front.length : Int)
  | [], k, h => by
    unfold indexFrom at h ⊢
    split
    · rename_i he
      have : sep = [] := by simpa using he
      exact ⟨[], [], by simp [this], by simp⟩
    · rename_i he
      rw [if_neg he] at h
      exact absurd rfl h
  | c :: cs, k, h => by
    unfold indexFrom at h ⊢
    split
    · rename_i hp
      obtain ⟨back, hb⟩ := List.isPrefixOf_iff_prefix.1 hp
      exact ⟨[], back, by simp [hb], by simp⟩
    · rename_i hp
      rw [if_neg hp] at h
      obtain ⟨front, back, h1, h2⟩ := indexFrom_split sep cs (k + 1) h
      refine ⟨c :: front, back, by simp [h1], ?_⟩
      rw [h2]; simp only [List.length_cons]; push_cast; omega

/-- A search finds the first match. -/
theorem indexFrom_first (sep : Str) : ∀ (front back : Str) (k : Nat),
    indexFrom sep (front ++ sep ++ back) k ≠ -1
      ∧ indexFrom sep (front ++ sep ++ back) k ≤ (k : Int) + (front.length : Int)
  | [], back, k => by
    have hp : sep.isPrefixOf (sep ++ back) = true :=
      List.isPrefixOf_iff_prefix.2 ⟨back, rfl⟩
    simp only [List.nil_append, List.length_nil]
    cases hs : sep ++ back with
    | nil =>
      have : sep = [] := (List.append_eq_nil.1 hs).1
      subst this
      simp [indexFrom]
    | cons c cs =>
      rw [hs] at hp
      unfold indexFrom
      rw [if_pos hp]
      constructor <;> omega
  | a :: front, back, k => by
    have e : a :: front ++ sep ++ back = a :: (front ++ sep ++ back) := by simp
    rw [e]
    unfold indexFrom
    split
    · simp only [List.length_cons]; push_cast; constructor <;> omega
    · obtain ⟨h1, h2⟩ := indexFrom_first sep front back (k + 1)
      refine ⟨h1, ?_⟩
      simp only [List.length_cons]; push_cast at h2 ⊢; omega

theorem sliceFrom_append (a b : Str) : sliceFrom (a ++ b) (a.length : Int) = some b := by
  unfold sliceFrom slice
  have h : (0 : Int) ≤ (a.length : Int) ∧ (a.length : Int) ≤ ((a ++ b).length : Int)
      ∧ ((a ++ b).length : Int) ≤ ((a ++ b).length : Int) := by
    simp only [List.length_append]; omega
  rw [if_pos h]
  have e1 : ((a.length : Int)).toNat = a.length := by omega
  have e2 : (((a ++ b).length : Int) - (a.length : Int)).toNat = b.length := by
    simp only [List.length_append]; omega
  rw [e1, e2]
  simp

/-- What `getuntil` returns: the empty string for a link without `until=`,
and otherwise all that follows the first `until=`, to the end of the link. -/
theorem getuntil_spec (next : Str) :
    ((∀ front back, next ≠ front ++ "until=".toList ++ back) ∧ getuntil next = .ok [])
    ∨ ∃ front back, next = front ++ "until=".toList ++ back ∧ getuntil next = .ok back
        ∧ ∀ f b, next = f ++ "until=".toList ++ b → front.length ≤ f.length := by
  by_cases h : Index next "until=".toList = -1
  · left
    refine ⟨?_, by unfold getuntil; simp only []; rw [if_pos h]⟩
    intro front back e
    rw [e] at h
    exact (indexFrom_first "until=".toList front back 0).1 h
  · right
    obtain ⟨front, back, h1, h2⟩ := indexFrom_split "until=".toList next 0 h
    refine ⟨front, back, h1, ?_, ?_⟩
    · unfold getuntil
      simp only []
      rw [if_neg h]
      have e : Index next "until=".toList + ("until=".toList.length : Int)
          = ((front ++ "until=".toList).length : Int) := by
        simp only [Index, h2, List.length_append]; push_cast; omega
      rw [e, h1, sliceFrom_append]
    · intro f b e
      have h3 := (indexFrom_first "until=".toList f b 0).2
      rw [← e, h2] at h3
      omega

/-! ## The depth of a cursor -/

/-- The value `strconv.ParseInt` returns with an error: 0 with a syntax
error, the nearest bound with a range error. -/
theorem ParseInt_err (s : Str) :
    ((ParseInt s).2 = .errSyntax → (ParseInt s).1 = 0)
    ∧ ((ParseInt s).2 = .errRange →
        (ParseInt s).1 = 9223372036854775807 ∨ (ParseInt s).1 = -9223372036854775808) := by
  unfold ParseInt
  cases s with
  | nil => exact ⟨fun _ => rfl, fun h => (by cases h)⟩
  | cons c cs =>
    simp only []
    split
    · exact ⟨fun _ => rfl, fun h => (by cases h)⟩
    · rename_i un e hne _
      split
      · exact ⟨fun h => (by cases h), fun _ => Or.inl rfl⟩
      · split
        · exact ⟨fun h => (by cases h), fun _ => Or.inr rfl⟩
        · exact ⟨fun h => (by cases h), fun h => (by cases h)⟩

/-! ## One pass of the loop of `convertdata` -/

/-- One pass of the loop of `convertdata` at a record newer than the mark, with
room in the in-memory queue: the item is pushed, `tempTimestamp` becomes the
larger of its value and the record's timestamp, the mention is written, and the
loop goes on with the rest of the list. -/
theorem convertdata_pass (parse : TimeParse) (w : World) (cb : Brand)
    (text idStr timeStr : Str) (rest : List Str)
    (hfresh : cb.time < unixOf parse timeStr) (hroom : w.pq.items.length < w.pq.cap) :
    ∃ pq1, heap.Push w.pq
        ({ mention := text, id := (ParseInt idStr).1, time := unixOf parse timeStr,
           index := 0 } : Item) = .ok pq1
      ∧ pq1.items.length = w.pq.items.length + 1
      ∧ convertdata parse (text :: idStr :: timeStr :: rest) w cb
          = convertdata parse rest
              { w with
                  pq := pq1,
                  tempTimestamp := max w.tempTimestamp (unixOf parse timeStr),
                  store := w.store ++ [mkMention cb text (unixOf parse timeStr)] } cb := by
  obtain ⟨l, hl, hlen, _⟩ := heap_Push_ok w.pq
    ({ mention := text, id := (ParseInt idStr).1, time := unixOf parse timeStr,
       index := 0 } : Item) hroom
  refine ⟨_, hl, hlen, ?_⟩
  rw [convertdata_eq, convertdata_eq]
  simp only [triples, convertRecords]
  rw [if_neg (by omega)]
  by_cases hgt : unixOf parse timeStr > w.tempTimestamp
  · rw [if_pos hgt]
    simp only [hl]
    rw [show max w.tempTimestamp (unixOf parse timeStr) = unixOf parse timeStr from
      Nat.max_eq_right (by omega)]
  · rw [if_neg hgt]
    simp only [hl]
    rw [show max w.tempTimestamp (unixOf parse timeStr) = w.tempTimestamp from
      Nat.max_eq_left (by omega)]

/-- The mentions `convertdata` writes, its `tempTimestamp` and whether it
returns do not depend on the id strings of the records. -/
theorem convertRecords_ids (parse : TimeParse) (cb : Brand) :
    ∀ (rs rs2 : List (Str × Str × Str)) (w w2 : World),
      rs.map (fun r => (r.1, r.2.2)) = rs2.map (fun r => (r.1, r.2.2)) →
      w.store = w2.store → w.tempTimestamp = w2.tempTimestamp →
      w.pq.items.length = w2.pq.items.length → w.pq.cap = w2.pq.cap →
      (convertRecords parse cb rs w).state.store = (convertRecords parse cb rs2 w2).state.store
      ∧ (convertRecords parse cb rs w).state.tempTimestamp
          = (convertRecords parse cb rs2 w2).state.tempTimestamp
      ∧ ((∃ s, convertRecords parse cb rs w = .done s)
          ↔ ∃ s, convertRecords parse cb rs2 w2 = .done s)
  | [], [], w, w2, _, hs, ht, _, _ =>
    ⟨hs, ht, ⟨fun _ => ⟨w2, rfl⟩, fun _ => ⟨w, rfl⟩⟩⟩
  | [], _ :: _, _, _, h, _, _, _, _ => by simp at h
  | _ :: _, [], _, _, h, _, _, _, _ => by simp at h
  | (text, idStr, timeStr) :: rs, (text2, idStr2, timeStr2) :: rs2, w, w2, h, hs, ht, hl, hc => by
    simp only [List.map_cons, List.cons.injEq, Prod.mk.injEq] at h
    obtain ⟨⟨h1, h2⟩, h3⟩ := h
    subst h1
    subst h2
    simp only [convertRecords]
    by_cases hge : cb.time ≥ unixOf parse timeStr
    · rw [if_pos hge, if_pos hge]
      exact ⟨hs, ht, ⟨fun _ => ⟨w2, rfl⟩, fun _ => ⟨w, rfl⟩⟩⟩
    · rw [if_neg hge, if_neg hge]
      generalize hw1 : (if unixOf parse timeStr > w.tempTimestamp
        then ({ w with tempTimestamp := unixOf parse timeStr } : World) else w) = w1
      generalize hw3 : (if unixOf parse timeStr > w2.tempTimestamp
        then ({ w2 with tempTimestamp := unixOf parse timeStr } : World) else w2) = w3
      have a1 : w1.pq = w.pq ∧ w1.store = w.store := by subst hw1; split <;> exact ⟨rfl, rfl⟩
      have a3 : w3.pq = w2.pq ∧ w3.store = w2.store := by subst hw3; split <;> exact ⟨rfl, rfl⟩
      have at13 : w1.tempTimestamp = w3.tempTimestamp := by
        subst hw1; subst hw3
        by_cases hgt : unixOf parse timeStr > w.tempTimestamp
        · rw [if_pos hgt, if_pos (by rw [← ht]; exact hgt)]
        · rw [if_neg hgt, if_neg (by rw [← ht]; exact hgt)]
          exact ht
      by_cases hroom : w.pq.items.length < w.pq.cap
      · obtain ⟨l, hl1, hlen1, _⟩ := heap_Push_ok w1.pq
          ({ mention := text, id := (ParseInt idStr).1, time := unixOf parse timeStr,
             index := 0 } : Item) (by rw [a1.1]; exact hroom)
        obtain ⟨l2, hl2, hlen2, _⟩ := heap_Push_ok w3.pq
          ({ mention := text, id := (ParseInt idStr2).1, time := unixOf parse timeStr,
             index := 0 } : Item) (by rw [a3.1, ← hl, ← hc]; exact hroom)
        rw [hl1, hl2]
        simp only []
        apply convertRecords_ids parse cb rs rs2 _ _ h3
        · show w1.store ++ _ = w3.store ++ _
          rw [a1.2, a3.2, hs]
        · exact at13
        · show l.length = l2.length
          rw [hlen1, hlen2, a1.1, a3.1, hl]
        · show w1.pq.cap = w3.pq.cap
          rw [a1.1, a3.1, hc]
      · cases hP1 : heap.Push w1.pq
          ({ mention := text, id := (ParseInt idStr).1, time := unixOf parse timeStr,
             index := 0 } : Item) with
        | ok q =>
          have := (heap_Push_done _ _ _ hP1).1
          rw [a1.1] at this
          exact absurd this hroom
        | fail f =>
          cases hP2 : heap.Push w3.pq
            ({ mention := text, id := (ParseInt idStr2).1, time := unixOf parse timeStr,
               index := 0 } : Item) with
          | ok q =>
            have := (heap_Push_done _ _ _ hP2).1
            rw [a3.1, ← hl, ← hc] at this
            exact absurd this hroom
          | fail f2 =>
            refine ⟨?_, at13, ⟨?_, ?_⟩⟩
            · show w1.store = w3.store
              rw [a1.2, a3.2, hs]
            · rintro ⟨s, hsd⟩
              cases hsd
            · rintro ⟨s, hsd⟩
              cases hsd

/-- Raw lists that differ only in their id strings (the fields at the indices
1, 4, 7, ...) have the same messages and time strings, record by record. -/
theorem triples_ids : ∀ (raw raw2 : List Str), raw.length = raw2.length →
    (∀ i : Nat, i % 3 ≠ 1 → raw[i]? = raw2[i]?) →
    (triples raw).map (fun r => (r.1, r.2.2)) = (triples raw2).map (fun r => (r.1, r.2.2))
  | a :: b :: c :: rest, a2 :: b2 :: c2 :: rest2, hlen, h => by
    have h0 := h 0 (by decide)
    have h2 := h 2 (by decide)
    simp only [List.getElem?_cons_zero, List.getElem?_cons_succ, Option.some.injEq] at h0 h2
    have ih := triples_ids rest rest2 (by simpa using hlen) (fun i hi => by
      have := h (i + 3) (by omega)
      simpa using this)
    simp only [triples, List.map_cons, ih, h0, h2]
  | [], [], _, _ => rfl
  | [_], [_], _, _ => rfl
  | [_, _], [_, _], _, _ => rfl
  | [], _ :: _, hlen, _ => by simp at hlen
  | _ :: _, [], hlen, _ => by simp at hlen
  | [_], _ :: _ :: _, hlen, _ => by simp at hlen
  | _ :: _ :: _, [_], hlen, _ => by simp at hlen
  | [_, _], _ :: _ :: _ :: _, hlen, _ => by simp at hlen
  | _ :: _ :: _ :: _, [_, _], hlen, _ => by simp at hlen

/-! ## What a walk hands to `convertdata` -/

/-- Whatever its outcome, a walk has handed to `convertdata` only pages with a
next cursor, a page index of at most 4 and a depth the depth check lets pass,
at most `4 - page` of them. -/
theorem crawlAux_walked (parse : TimeParse) (fetch : Transport) :
    ∀ (fuel : Nat) (resp : Str) (page : Int) (w : World) (cb : Brand),
      0 ≤ page → page ≤ 4 →
      ∃ ex : List (Int × List Str),
        (crawlAux parse fetch fuel resp page w cb).state.1.extracted = w.extracted ++ ex
        ∧ walked fetch cb.pass page cb.searchedbefore resp ex
        ∧ (ex.length : Int) ≤ 4 - page
  | 0, _, page, w, _, _, h4 => ⟨[], by simp [crawlAux, Run.state], trivial, by simp; omega⟩
  | fuel + 1, resp, page, w, cb, h0, h4 => by
    have hnil : ∀ (r : Run (World × Brand)), r.state.1.extracted = w.extracted →
        ∃ ex : List (Int × List Str), r.state.1.extracted = w.extracted ++ ex
          ∧ walked fetch cb.pass page cb.searchedbefore resp ex
          ∧ (ex.length : Int) ≤ 4 - page :=
      fun r hr => ⟨[], by simp [hr], trivial, by simp; omega⟩
    unfold crawlAux
    simp only [wrapInt_small page h0 h4]
    cases hgn : getnext resp with
    | fail f => exact hnil _ rfl
    | ok nextLink =>
      simp only []
      by_cases hstop : page + 1 > 4 ∨ nextLink = []
      · rw [if_pos hstop]
        exact hnil _ rfl
      · rw [if_neg hstop]
        cases hgu : getuntil nextLink with
        | fail f => exact hnil _ rfl
        | ok str =>
          simp only []
          by_cases hdeep : cb.pass > 1 ∧ cb.searchedbefore ≥ (Atoi str).1
          · rw [if_pos hdeep]
            exact hnil _ rfl
          · rw [if_neg hdeep]
            cases hgd : getdata resp [] with
            | fail f => exact hnil _ rfl
            | ok ml =>
              simp only []
              have hfr := convertdata_frame parse ml
                { w with extracted := w.extracted ++ [((Atoi str).1, ml)] }
                { cb with searchedbefore := maxint cb.searchedbefore (Atoi str).1 }
              have hw : walked fetch cb.pass page cb.searchedbefore resp [((Atoi str).1, ml)] :=
                ⟨nextLink, str, hgn, fun h => hstop (Or.inr h), by omega, hgu, hdeep, rfl, hgd,
                  Or.inl rfl⟩
              have hone : (([((Atoi str).1, ml)] : List (Int × List Str)).length : Int)
                  ≤ 4 - page := by
                simp only [List.length_cons, List.length_nil]
                omega
              cases hcd : convertdata parse ml
                { w with extracted := w.extracted ++ [((Atoi str).1, ml)] }
                { cb with searchedbefore := maxint cb.searchedbefore (Atoi str).1 } with
              | halt f w2 =>
                rw [hcd] at hfr
                exact ⟨[((Atoi str).1, ml)], hfr.2.1, hw, hone⟩
              | done w2 =>
                rw [hcd] at hfr
                simp only []
                cases hfn : fetch nextLink with
                | getError => exact ⟨[((Atoi str).1, ml)], hfr.2.1, hw, hone⟩
                | readError => exact ⟨[((Atoi str).1, ml)], hfr.2.1, hw, hone⟩
                | body next =>
                  simp only []
                  obtain ⟨ex, e1, e2, e3⟩ := crawlAux_walked parse fetch fuel next
                    (page + 1) { w2 with fetched := w2.fetched ++ [nextLink] }
                    { cb with searchedbefore := maxint cb.searchedbefore (Atoi str).1 }
                    (by omega) (by omega)
                  refine ⟨((Atoi str).1, ml) :: ex, ?_, ?_, ?_⟩
                  · rw [e1]
                    show w2.extracted ++ ex = _
                    rw [show w2.extracted = w.extracted ++ [((Atoi str).1, ml)] from hfr.2.1]
                    simp
                  · exact ⟨nextLink, str, hgn, fun h => hstop (Or.inr h), by omega, hgu, hdeep,
                      rfl, hgd, Or.inr ⟨next, hfn, e2⟩⟩
                  · simp only [List.length_cons]
                    push_cast
                    omega

/-- Whatever its outcome, a walk leaves every field of the brand but
`searchedbefore` as it was. -/
theorem crawlAux_brand (parse : TimeParse) (fetch : Transport) :
    ∀ (fuel : Nat) (resp : Str) (page : Int) (w : World) (cb : Brand),
      (crawlAux parse fetch fuel resp page w cb).state.2
        = { cb with
            searchedbefore := (crawlAux parse fetch fuel resp page w cb).state.2.searchedbefore }
  | 0, _, _, _, _ => rfl
  | fuel + 1, resp, page, w, cb => by
    unfold crawlAux
    simp only []
    cases getnext resp with
    | fail f => rfl
    | ok nextLink =>
      simp only []
      split
      · rfl
      · cases getuntil nextLink with
        | fail f => rfl
        | ok str =>
          simp only []
          split
          · rfl
          · cases getdata resp [] with
            | fail f => rfl
            | ok ml =>
              simp only []
              cases convertdata parse ml
                { w with extracted := w.extracted ++ [((Atoi str).1, ml)] }
                { cb with searchedbefore := maxint cb.searchedbefore (Atoi str).1 } with
              | halt f w2 => rfl
              | done w2 =>
                simp only []
                cases fetch nextLink with
                | getError => rfl
                | readError => rfl
                | body next =>
                  simp only []
                  have ih := crawlAux_brand parse fetch fuel next (wrapInt (page + 1))
                    { w2 with fetched := w2.fetched ++ [nextLink] }
                    { cb with searchedbefore := maxint cb.searchedbefore (Atoi str).1 }
                  rw [ih]

/-- The tentative mark after a walk that returns: the largest of its value
before the walk and the timestamps of the mentions the walk has written. -/
theorem crawlAux_mark (parse : TimeParse) (fetch : Transport) :
    ∀ (fuel : Nat) (resp : Str) (page : Int) (w w1 : World) (cb cb1 : Brand),
      crawlAux parse fetch fuel resp page w cb = .done (w1, cb1) →
      ∃ ex : List (Int × List Str), w1.extracted = w.extracted ++ ex
        ∧ w1.tempTimestamp
            = (pageMentions parse cb ex).foldl (fun m x => max m x.Timestamp) w.tempTimestamp
  | 0, _, _, _, _, _, _, h => by simp [crawlAux] at h
  | fuel + 1, resp, page, w, w1, cb, cb1, h => by
    unfold crawlAux at h
    simp only [] at h
    cases hgn : getnext resp with
    | fail f => rw [hgn] at h; cases h
    | ok nextLink =>
      rw [hgn] at h
      simp only [] at h
      split at h
      · cases h
        exact ⟨[], by simp, rfl⟩
      · cases hgu : getuntil nextLink with
        | fail f => rw [hgu] at h; cases h
        | ok str =>
          rw [hgu] at h
          simp only [] at h
          split at h
          · cases h
            exact ⟨[], by simp, rfl⟩
          · cases hgd : getdata resp [] with
            | fail f => rw [hgd] at h; cases h
            | ok ml =>
              rw [hgd] at h
              simp only [] at h
              cases hcd : convertdata parse ml
                { w with extracted := w.extracted ++ [((Atoi str).1, ml)] }
                { cb with searchedbefore := maxint cb.searchedbefore (Atoi str).1 } with
              | halt f w2 => rw [hcd] at h; cases h
              | done w2 =>
                rw [hcd] at h
                simp only [] at h
                cases hfn : fetch nextLink with
                | getError => rw [hfn] at h; cases h
                | readError => rw [hfn] at h; cases h
                | body next =>
                rw [hfn] at h
                simp only [] at h
                obtain ⟨ex, e1, e2⟩ := crawlAux_mark parse fetch fuel _ _ _ _ _ _ h
                obtain ⟨_, c2, _, _, _, c6, _⟩ := convertdata_done parse ml _ w2 _ hcd
                refine ⟨((Atoi str).1, ml) :: ex, ?_, ?_⟩
                · rw [e1]
                  show w2.extracted ++ ex = _
                  rw [c6]
                  simp
                · rw [e2]
                  show List.foldl _ w2.tempTimestamp _ = _
                  rw [c2, pageMentions_congr parse cb
                    { cb with searchedbefore := maxint cb.searchedbefore (Atoi str).1 } rfl rfl]
                  simp only [pageMentions, List.foldl_append, mentionsOf, List.foldl_map]
                  rfl

/-- The largest of `t` and the timestamps of a list of mentions. -/
theorem foldl_max_spec : ∀ (l : List Mention) (t : Nat),
    t ≤ l.foldl (fun m x => max m x.Timestamp) t
    ∧ (∀ x, x ∈ l → x.Timestamp ≤ l.foldl (fun m x => max m x.Timestamp) t)
    ∧ (l.foldl (fun m x => max m x.Timestamp) t = t
        ∨ ∃ x, x ∈ l ∧ l.foldl (fun m x => max m x.Timestamp) t = x.Timestamp)
  | [], t => ⟨Nat.le_refl _, by simp, Or.inl rfl⟩
  | y :: l, t => by
    obtain ⟨h1, h2, h3⟩ := foldl_max_spec l (max t y.Timestamp)
    simp only [List.foldl_cons]
    refine ⟨by omega, ?_, ?_⟩
    · intro x hx
      rcases List.mem_cons.mp hx with rfl | hx
      · omega
      · exact h2 x hx
    · rcases h3 with h3 | ⟨x, hx, h3⟩
      · rcases Nat.le_total t y.Timestamp with hle | hle
        · exact Or.inr ⟨y, by simp, by rw [h3]; exact Nat.max_eq_right hle⟩
        · exact Or.inl (by rw [h3]; exact Nat.max_eq_left hle)
      · exact Or.inr ⟨x, by simp [hx], h3⟩

/-- The push succeeds exactly when the length is below the capacity of the
backing array, and then makes the queue one item longer. -/
theorem heap_Push_iff {α : Type} [HeapElem α] [LawfulHeapElem α] (q : Queue α) (x : α) :
    (∃ q1, heap.Push q x = .ok q1) ↔ q.items.length < q.cap := by
  constructor
  · rintro ⟨q1, h⟩
    exact (heap_Push_done q q1 x h).1
  · intro h
    obtain ⟨l, hl, _⟩ := heap_Push_ok q x h
    exact ⟨_, hl⟩

/-- At a record newer than the mark, with the in-memory queue full,
`convertdata` panics in the push and the mention is not written. -/
theorem convertdata_full (parse : TimeParse) (w : World) (cb : Brand)
    (text idStr timeStr : Str) (rest : List Str)
    (hfresh : cb.time < unixOf parse timeStr) (hfull : w.pq.cap ≤ w.pq.items.length) :
    ∃ s, convertdata parse (text :: idStr :: timeStr :: rest) w cb = .halt .queueFull s
      ∧ s.store = w.store := by
  rw [convertdata_eq]
  simp only [triples, convertRecords]
  rw [if_neg (by omega)]
  generalize hw1 : (if unixOf parse timeStr > w.tempTimestamp
    then ({ w with tempTimestamp := unixOf parse timeStr } : World) else w) = w1
  have a1 : w1.pq = w.pq ∧ w1.store = w.store := by subst hw1; split <;> exact ⟨rfl, rfl⟩
  cases hP : heap.Push w1.pq
    ({ mention := text, id := (ParseInt idStr).1, time := unixOf parse timeStr,
       index := 0 } : Item) with
  | ok q =>
    have := (heap_Push_done _ _ _ hP).1
    rw [a1.1] at this
    omega
  | fail f =>
    obtain ⟨hf, _⟩ := heap_Push_fail _ _ _ hP
    subst hf
    exact ⟨w1, rfl, a1.2⟩

/-! ## `convertdata` in every state -/

/-- What `convertdata` writes in a state with room for `w.pq.cap -
w.pq.items.length` more items: the mentions of that many records of the leading
run of records newer than the mark, each with the brand's name, the record's
timestamp and text and the fixed source fields.  It returns when the run fits,
and panics in the push right after the last record that fits otherwise. -/
theorem convertRecords_prefix (parse : TimeParse) (cb : Brand) :
    ∀ (rs : List (Str × Str × Str)) (w : World),
      (convertRecords parse cb rs w).state.store
        = w.store
          ++ ((rs.takeWhile (fun r => decide (cb.time < recTime parse r))).take
                (w.pq.cap - w.pq.items.length)).map
              (fun r => ({ Name := cb.Name, Timestamp := unixOf parse r.2.2,
                           Source := "facebook".toList, Text := r.1,
                           SourceLink := "n/a".toList } : Mention))
      ∧ ((rs.takeWhile (fun r => decide (cb.time < recTime parse r))).length
            ≤ w.pq.cap - w.pq.items.length →
          ∃ w1, convertRecords parse cb rs w = .done w1)
      ∧ (w.pq.cap - w.pq.items.length
            < (rs.takeWhile (fun r => decide (cb.time < recTime parse r))).length →
          ∃ s, convertRecords parse cb rs w = .halt .queueFull s)
  | [], w => ⟨by simp [convertRecords, Run.state], fun _ => ⟨w, rfl⟩, fun h => by simp at h⟩
  | (text, idStr, timeStr) :: rs, w => by
    simp only [convertRecords]
    by_cases hge : cb.time ≥ unixOf parse timeStr
    · have hlt : ¬ cb.time < recTime parse (text, idStr, timeStr) := by
        simp only [recTime]; omega
      rw [if_pos hge]
      simp only [List.takeWhile_cons, hlt, decide_False, Bool.false_eq_true, if_false]
      exact ⟨by simp [Run.state], fun _ => ⟨w, rfl⟩, fun h => by simp at h⟩
    · have hlt : cb.time < recTime parse (text, idStr, timeStr) := by
        simp only [recTime]; omega
      rw [if_neg hge]
      simp only [List.takeWhile_cons, hlt, decide_True, if_true]
      generalize hw1 : (if unixOf parse timeStr > w.tempTimestamp
        then ({ w with tempTimestamp := unixOf parse timeStr } : World) else w) = w1
      have a1 : w1.pq = w.pq ∧ w1.store = w.store := by subst hw1; split <;> exact ⟨rfl, rfl⟩
      by_cases hroom : w.pq.items.length < w.pq.cap
      · obtain ⟨l, hl1, hlen1, _⟩ := heap_Push_ok w1.pq
          ({ mention := text, id := (ParseInt idStr).1, time := unixOf parse timeStr,
             index := 0 } : Item) (by rw [a1.1]; exact hroom)
        rw [hl1]
        simp only []
        obtain ⟨i1, i2, i3⟩ := convertRecords_prefix parse cb rs
          { w1 with
              pq := { items := l, cap := w1.pq.cap },
              store := w1.store ++ [mkMention cb text (unixOf parse timeStr)] }
        have hk : w.pq.cap - w.pq.items.length = (w1.pq.cap - l.length) + 1 := by
          rw [hlen1, a1.1]; omega
        refine ⟨?_, ?_, ?_⟩
        · rw [i1]
          show (w1.store ++ [mkMention cb text (unixOf parse timeStr)]) ++ _ = _
          rw [hk, a1.2]
          simp [mkMention]
        · intro h
          apply i2
          show _ ≤ w1.pq.cap - l.length
          simp only [List.length_cons] at h
          omega
        · intro h
          apply i3
          show w1.pq.cap - l.length < _
          simp only [List.length_cons] at h
          omega
      · have hk : w.pq.cap - w.pq.items.length = 0 := by omega
        cases hP : heap.Push w1.pq
          ({ mention := text, id := (ParseInt idStr).1, time := unixOf parse timeStr,
             index := 0 } : Item) with
        | ok q =>
          have := (heap_Push_done _ _ _ hP).1
          rw [a1.1] at this
          exact absurd this hroom
        | fail f =>
          obtain ⟨hf, _⟩ := heap_Push_fail _ _ _ hP
          subst hf
          refine ⟨?_, ?_, ?_⟩
          · show w1.store = _
            rw [hk, a1.2]
            simp
          · intro h
            simp only [List.length_cons] at h
            omega
          · intro _
            exact ⟨w1, rfl⟩

/-- The records of a raw list that begins with whole records. -/
theorem triples_append : ∀ (pre xs : List Str), pre.length % 3 = 0 →
    triples (pre ++ xs) = triples pre ++ triples xs
  | [], xs, _ => by simp [triples]
  | [_], _, h => by simp at h
  | [_, _], _, h => by simp at h
  | a :: b :: c :: rest, xs, h => by
    have hr : rest.length % 3 = 0 := by
      simp only [List.length_cons] at h
      omega
    have ih := triples_append rest xs hr
    show triples (a :: b :: c :: (rest ++ xs)) = (a, b, c) :: triples rest ++ triples xs
    simp only [triples, ih, List.cons_append]

/-- The loop of `convertdata` over records that are all newer than the mark,
with room for them: it writes the mention of each and goes on with what
follows. -/
theorem convertRecords_append (parse : TimeParse) (cb : Brand) :
    ∀ (rs1 rs2 : List (Str × Str × Str)) (w : World),
      (∀ r, r ∈ rs1 → cb.time < unixOf parse r.2.2) →
      w.pq.items.length + rs1.length ≤ w.pq.cap →
      ∃ wk, convertRecords parse cb rs1 w = .done wk
        ∧ convertRecords parse cb (rs1 ++ rs2) w = convertRecords parse cb rs2 wk
        ∧ wk.store
            = w.store
              ++ rs1.map
                  (fun r => ({ Name := cb.Name, Timestamp := unixOf parse r.2.2,
                               Source := "facebook".toList, Text := r.1,
                               SourceLink := "n/a".toList } : Mention))
        ∧ wk.pq.items.length = w.pq.items.length + rs1.length
        ∧ wk.pq.cap = w.pq.cap
  | [], rs2, w, _, _ => ⟨w, rfl, rfl, by simp, rfl, rfl⟩
  | (text, idStr, timeStr) :: rs1, rs2, w, hall, hroom => by
    have hlt : cb.time < unixOf parse timeStr := hall (text, idStr, timeStr) (by simp)
    have step : ∀ L : List (Str × Str × Str),
        convertRecords parse cb ((text, idStr, timeStr) :: L) w
          = match heap.Push
                (if unixOf parse timeStr > w.tempTimestamp
                  then ({ w with tempTimestamp := unixOf parse timeStr } : World) else w).pq
                ({ mention := text, id := (ParseInt idStr).1, time := unixOf parse timeStr,
                   index := 0 } : Item) with
            | .fail f =>
              .halt f (if unixOf parse timeStr > w.tempTimestamp
                then ({ w with tempTimestamp := unixOf parse timeStr } : World) else w)
            | .ok pq1 =>
              convertRecords parse cb L
                { (if unixOf parse timeStr > w.tempTimestamp
                    then ({ w with tempTimestamp := unixOf parse timeStr } : World) else w) with
                  pq := pq1,
                  store := (if unixOf parse timeStr > w.tempTimestamp
                      then ({ w with tempTimestamp := unixOf parse timeStr } : World)
                      else w).store ++ [mkMention cb text (unixOf parse timeStr)] } := by
      intro L
      simp only [convertRecords]
      rw [if_neg (by omega)]
    rw [show (text, idStr, timeStr) :: rs1 ++ rs2 = (text, idStr, timeStr) :: (rs1 ++ rs2)
      from rfl, step rs1, step (rs1 ++ rs2)]
    generalize hw1 : (if unixOf parse timeStr > w.tempTimestamp
      then ({ w with tempTimestamp := unixOf parse timeStr } : World) else w) = w1
    have a1 : w1.pq = w.pq ∧ w1.store = w.store := by subst hw1; split <;> exact ⟨rfl, rfl⟩
    simp only [List.length_cons] at hroom
    obtain ⟨l, hl1, hlen1, _⟩ := heap_Push_ok w1.pq
      ({ mention := text, id := (ParseInt idStr).1, time := unixOf parse timeStr,
         index := 0 } : Item) (by rw [a1.1]; omega)
    rw [hl1]
    simp only []
    obtain ⟨wk, i1, i2, i3, i4, i5⟩ := convertRecords_append parse cb rs1 rs2
      { w1 with
          pq := { items := l, cap := w1.pq.cap },
          store := w1.store ++ [mkMention cb text (unixOf parse timeStr)] }
      (fun r hr => hall r (by simp [hr]))
      (by show l.length + rs1.length ≤ w1.pq.cap
          rw [hlen1, a1.1]; omega)
    refine ⟨wk, i1, i2, ?_, ?_, ?_⟩
    · rw [i3]
      show (w1.store ++ [mkMention cb text (unixOf parse timeStr)]) ++ _ = _
      rw [a1.2]
      simp [mkMention]
    · rw [i4]
      show l.length + rs1.length = _
      rw [hlen1, a1.1]
      simp only [List.length_cons]
      omega
    · rw [i5]
      show w1.pq.cap = _
      rw [a1.1]

/-! ## Claims -/

/-- C1: for every brand, every state and every raw list of any length `L`,
`convertdata` reads the `L / 3` complete `(text, id, timeString)` triples in
order and no index into the list is ever out of range: its only possible panic
is the full in-memory queue.  What it writes are mentions of the records of the
longest leading run whose timestamp is strictly greater than `cb.time`, in list
order, each with the brand's name, the record's timestamp and text, the source
`facebook` and the source link `n/a`: all of them, and then it returns, when
the in-memory queue has room for the run; otherwise those the queue has room
for, and then it panics in the push.  Every record of the run is newer than the
mark and the record right after the run is not. -/
theorem convertdata_emits_leading_run (parse : TimeParse) (cb : Brand) (raw : List Str)
    (w : World) :
    (triples raw).length = raw.length / 3
    ∧ (∀ k, k < raw.length / 3 → ∃ a b c, raw[3 * k]? = some a ∧ raw[3 * k + 1]? = some b
        ∧ raw[3 * k + 2]? = some c ∧ (triples raw)[k]? = some (a, b, c))
    ∧ (∀ (w0 : World) (f : Fault) (s : World),
        convertdata parse raw w0 cb = .halt f s → f = .queueFull)
    ∧ (convertdata parse raw w cb).state.store
        = w.store
          ++ ((fresh parse cb.time raw).take (w.pq.cap - w.pq.items.length)).map
              (fun r => ({ Name := cb.Name, Timestamp := unixOf parse r.2.2,
                           Source := "facebook".toList, Text := r.1,
                           SourceLink := "n/a".toList } : Mention))
    ∧ ((fresh parse cb.time raw).length ≤ w.pq.cap - w.pq.items.length →
        ∃ w1, convertdata parse raw w cb = .done w1
          ∧ w1.store
            = w.store
              ++ (fresh parse cb.time raw).map
                  (fun r => ({ Name := cb.Name, Timestamp := unixOf parse r.2.2,
                               Source := "facebook".toList, Text := r.1,
                               SourceLink := "n/a".toList } : Mention)))
    ∧ (w.pq.cap - w.pq.items.length < (fresh parse cb.time raw).length →
        ∃ s, convertdata parse raw w cb = .halt .queueFull s)
    ∧ (triples raw).take (fresh parse cb.time raw).length = fresh parse cb.time raw
    ∧ (∀ r, r ∈ fresh parse cb.time raw → cb.time < unixOf parse r.2.2)
    ∧ (∀ r, (triples raw)[(fresh parse cb.time raw).length]? = some r →
        unixOf parse r.2.2 ≤ cb.time) := by
  obtain ⟨h1, h2, h3⟩ :=
    takeWhile_run (fun r => decide (cb.time < recTime parse r)) (triples raw)
  obtain ⟨p1, p2, p3⟩ := convertRecords_prefix parse cb (triples raw) w
  refine ⟨triples_length raw, triples_getElem? raw, ?_, ?_, ?_, ?_, h2, ?_, ?_⟩
  · intro w0 f s h
    rw [convertdata_eq] at h
    exact convertRecords_halt parse cb _ w0 f s h
  · rw [convertdata_eq]
    exact p1
  · intro hfit
    rw [convertdata_eq]
    obtain ⟨w1, hw1⟩ := p2 hfit
    refine ⟨w1, hw1, ?_⟩
    have e := p1
    rw [hw1] at e
    have e2 : w1.store = _ := e
    rw [e2]
    have ht : (fresh parse cb.time raw).take (w.pq.cap - w.pq.items.length)
        = fresh parse cb.time raw := List.take_of_length_le hfit
    unfold fresh at ht ⊢
    rw [ht]
  · intro hfull
    rw [convertdata_eq]
    exact p3 hfull
  · intro r hr
    have := h1 r hr
    simpa [recTime] using this
  · intro r hr
    have := h3 r hr
    simp only [decide_eq_false_iff_not, recTime] at this
    omega

/-- C1 at the records with timestamps 100, 80, 50, 30 and the mark 80: one
mention, the one of timestamp 100 with the brand's name and the text of the
first record, is written, one item is pushed, and the loop stops at the second
record.  With an in-memory queue of capacity 1 and the two records of
`rawBadId`, both newer than the mark, the first mention is written and the push
of the second item panics. -/
theorem convertdata_emits_leading_run_witness :
    ((triples raw100).map (fun r => unixOf parseLayout r.2.2) = [100, 80, 50, 30]
      ∧ brand80.time = 80 ∧ brand80.Name = "acme".toList
      ∧ (convertdata parseLayout raw100 startWorld brand80).state.store
          = [({ Name := "acme".toList, Timestamp := 100, Source := "facebook".toList,
                Text := "first".toList, SourceLink := "n/a".toList } : Mention)]
      ∧ (convertdata parseLayout raw100 startWorld brand80).state.pq.items
          = [({ mention := "first".toList, id := 11, time := 100, index := 0 } : Item)]
      ∧ (∃ w1, convertdata parseLayout raw100 startWorld brand80 = .done w1)
      ∧ fresh parseLayout brand80.time raw100
          = [("first".toList, "11".toList, "1970-01-01T00:01:40+0000".toList)]
      ∧ convertdata parseLayout rawBadId
            { startWorld with pq := { items := [], cap := 1 } } brand80
          = .halt .queueFull
              { startWorld with
                  pq := { items := [({ mention := "first".toList, id := 0, time := 100,
                                       index := 0 } : Item)],
                          cap := 1 },
                  tempTimestamp := 100,
                  store := [({ Name := "acme".toList, Timestamp := 100,
                               Source := "facebook".toList, Text := "first".toList,
                               SourceLink := "n/a".toList } : Mention)] })
    ∧ ((triples raw100).length = raw100.length / 3
      ∧ (∀ k, k < raw100.length / 3 → ∃ a b c, raw100[3 * k]? = some a
          ∧ raw100[3 * k + 1]? = some b
          ∧ raw100[3 * k + 2]? = some c ∧ (triples raw100)[k]? = some (a, b, c))
      ∧ (∀ (w0 : World) (f : Fault) (s : World),
          convertdata parseLayout raw100 w0 brand80 = .halt f s → f = .queueFull)
      ∧ (convertdata parseLayout raw100 startWorld brand80).state.store
          = startWorld.store
            ++ ((fresh parseLayout brand80.time raw100).take
                  (startWorld.pq.cap - startWorld.pq.items.length)).map
                (fun r => ({ Name := brand80.Name, Timestamp := unixOf parseLayout r.2.2,
                             Source := "facebook".toList, Text := r.1,
                             SourceLink := "n/a".toList } : Mention))
      ∧ ((fresh parseLayout brand80.time raw100).length
            ≤ startWorld.pq.cap - startWorld.pq.items.length →
          ∃ w1, convertdata parseLayout raw100 startWorld brand80 = .done w1
            ∧ w1.store
              = startWorld.store
                ++ (fresh parseLayout brand80.time raw100).map
                    (fun r => ({ Name := brand80.Name, Timestamp := unixOf parseLayout r.2.2,
                                 Source := "facebook".toList, Text := r.1,
                                 SourceLink := "n/a".toList } : Mention)))
      ∧ (startWorld.pq.cap - startWorld.pq.items.length
            < (fresh parseLayout brand80.time raw100).length →
          ∃ s, convertdata parseLayout raw100 startWorld brand80 = .halt .queueFull s)
      ∧ (triples raw100).take (fresh parseLayout brand80.time raw100).length
          = fresh parseLayout brand80.time raw100
      ∧ (∀ r, r ∈ fresh parseLayout brand80.time raw100 →
          brand80.time < unixOf parseLayout r.2.2)
      ∧ (∀ r, (triples raw100)[(fresh parseLayout brand80.time raw100).length]? = some r →
          unixOf parseLayout r.2.2 ≤ brand80.time)) :=
  ⟨⟨by decide!, by decide!, by decide!, by decide!, by decide!,
      ⟨(convertdata parseLayout raw100 startWorld brand80).state, by decide!⟩, by decide!,
      by decide!⟩,
    convertdata_emits_leading_run parseLayout brand80 raw100 startWorld⟩

/-- C2, as the code has it: when `convertdata` abandons a page, only the rest
of that page is skipped.  The pages a returned walk requests are those picked
by the page limit, the next cursors and the depth check alone (`walkLinks`, which
looks at no record), one after each page handed to `convertdata`, and of every
such page the leading run of records newer than `cb.time` is written. -/
theorem walk_goes_on_after_abandon (parse : TimeParse) (fetch : Transport) (resp : Str)
    (w w1 : World) (cb cb1 : Brand)
    (h : crawl parse fetch resp 0 w cb = .done (w1, cb1)) :
    w1.fetched = w.fetched ++ walkLinks fetch 5 resp 0 cb.pass cb.searchedbefore
    ∧ ∃ ex, w1.extracted = w.extracted ++ ex
        ∧ ex.length = (walkLinks fetch 5 resp 0 cb.pass cb.searchedbefore).length
        ∧ w1.store = w.store ++ pageMentions parse cb ex := by
  have hl := crawlAux_links parse fetch 5 resp 0 w w1 cb cb1 (by omega) (by omega) h
  obtain ⟨urls, ex, h1, _, _, _, h5⟩ :=
    crawlAux_spec parse fetch 5 resp 0 w cb (by omega) (by omega) (by omega)
  obtain ⟨j1, _, j3, j4⟩ := h5 w1 cb1 h
  have hu : urls = walkLinks fetch 5 resp 0 cb.pass cb.searchedbefore := by
    have e : (crawl parse fetch resp 0 w cb).state.1.fetched = w.fetched ++ urls := h1
    rw [h] at e
    have e2 : w1.fetched = w.fetched ++ urls := e
    rw [hl] at e2
    exact (List.append_cancel_left e2).symm
  exact ⟨hl, ex, j1, by rw [j4, hu], j3⟩

/-- C2 fails on the small feed with the mark 80: `convertdata` abandons the
first page at its first record (timestamp 80), yet the walk requests the second
and the third page and writes the record of timestamp 100 of the second page. -/
theorem walk_goes_on_after_abandon_counterexample :
    getdata feedPage1 [] = .ok ["old news".toList, "11".toList,
      "1970-01-01T00:01:20+0000".toList, []]
    ∧ recTime parseLayout ("old news".toList, "11".toList, "1970-01-01T00:01:20+0000".toList)
        ≤ brand80.time
    ∧ (crawl parseLayout feed feedPage1 0 startWorld brand80).state.1.fetched
        = ["https://graph.facebook.com/search?q=acme&until=70".toList,
           "https://graph.facebook.com/search?q=acme&until=60".toList]
    ∧ (crawl parseLayout feed feedPage1 0 startWorld brand80).state.1.store
        = [mkMention brand80 "fresh news".toList 100]
    ∧ ¬ ((crawl parseLayout feed feedPage1 0 startWorld brand80).state.1.fetched = []
        ∧ (crawl parseLayout feed feedPage1 0 startWorld brand80).state.1.store = []) := by
  decide!

/-- The amended C2 on the small feed. -/
theorem walk_goes_on_after_abandon_witness :
    crawl parseLayout feed feedPage1 0 startWorld brand80
      = .done ((crawl parseLayout feed feedPage1 0 startWorld brand80).state.1,
               { brand80 with searchedbefore := 70 })
    ∧ ((crawl parseLayout feed feedPage1 0 startWorld brand80).state.1.fetched
        = startWorld.fetched
          ++ walkLinks feed 5 feedPage1 0 brand80.pass brand80.searchedbefore
      ∧ ∃ ex, (crawl parseLayout feed feedPage1 0 startWorld brand80).state.1.extracted
            = startWorld.extracted ++ ex
          ∧ ex.length = (walkLinks feed 5 feedPage1 0 brand80.pass brand80.searchedbefore).length
          ∧ (crawl parseLayout feed feedPage1 0 startWorld brand80).state.1.store
            = startWorld.store ++ pageMentions parseLayout brand80 ex) :=
  ⟨by decide!,
    walk_goes_on_after_abandon parseLayout feed feedPage1 startWorld
      (crawl parseLayout feed feedPage1 0 startWorld brand80).state.1 brand80
      { brand80 with searchedbefore := 70 } (by decide!)⟩

/-- C3: for every feed (the transport `fetch` is arbitrary, so every page may
carry a next cursor) and every brand state, the walk `crawl` from page 0
terminates (the recursion is never cut short: any budget of five calls or more
gives the same outcome, and a panic is never the budget) and requests at most
4 continuation pages, so that a cycle requests at most 5 pages, the first one
included. -/
theorem walk_fetches_at_most_five (parse : TimeParse) (fetch : Transport) (now : Int)
    (w : World) (cb : Brand) :
    (∀ resp, ∃ urls, (crawl parse fetch resp 0 w cb).state.1.fetched = w.fetched ++ urls
        ∧ urls.length ≤ 4
        ∧ (∀ s, crawl parse fetch resp 0 w cb ≠ .halt .fuel s)
        ∧ (∀ fuel, 5 ≤ fuel →
            crawlAux parse fetch fuel resp 0 w cb = crawl parse fetch resp 0 w cb))
    ∧ (∃ urls, (cycle parse fetch now w cb).state.1.fetched = w.fetched ++ urls
        ∧ urls.length ≤ 5)
    ∧ (∀ s, cycle parse fetch now w cb ≠ .halt .fuel s) := by
  refine ⟨?_, ?_, ?_⟩
  · intro resp
    obtain ⟨urls, ex, h1, h2, _, h4, _⟩ :=
      crawlAux_spec parse fetch 5 resp 0 w cb (by omega) (by omega) (by omega)
    refine ⟨urls, h1, by omega, ?_, ?_⟩
    · intro s hs
      rcases h4 _ s hs with h | h | h | h <;> cases h
    · intro fuel hfuel
      exact crawlAux_fuel parse fetch fuel 5 resp 0 w cb (by omega) (by omega)
        (by omega) (by omega)
  · obtain ⟨urls, h1, h2⟩ := cycle_fetched parse fetch now w cb
    exact ⟨firstUrl cb.Name :: urls, h1, by simp only [List.length_cons]; omega⟩
  · intro s hs
    rcases cycle_halt parse fetch now w cb _ s hs with h | h | h | h <;> cases h

/-- The bound of five pages is reached: on a feed whose every page carries a
next cursor, the first cycle of a rebuilt brand requests the first page and
four continuations, and hands four pages to `convertdata`. -/
theorem endless_feed_five_pages :
    (cycle parseLayout (fun _ => .body feedPage1) 1367366400 startWorld brand0).state.1.fetched.length
      = 5
    ∧ (cycle parseLayout (fun _ => .body feedPage1) 1367366400 startWorld
        brand0).state.1.extracted.length = 4 := by
  decide!

/-- C4: for every `Brands` queue in min-heap order on `time` and wall-clock
readings that are all later than every time in the queue at the start of the
sweep, a call of `crawler` that returns has popped every brand exactly once
(the brands popped are, up to the `index` field, a permutation of the queue at
the start) and the times the popped brands had form a non-decreasing sequence;
the loop itself always ends within one pass per brand. -/
theorem sweep_pops_every_brand_once (parse : TimeParse) (envs : Nat → Env) (w w1 : World)
    (brand brand1 : Brands)
    (hwf : brand.items.length ≤ brand.cap) (hord : brand.ordered)
    (hclock : ∀ i, i < brand.items.length → ∀ b, b ∈ brand.items →
      b.time < toUint64 (envs i).now)
    (hrun : crawler parse envs w brand = .done (w1, brand1)) :
    (∃ popped, w1.popped = w.popped ++ popped
      ∧ (popped.map unindexed).Perm (brand.items.map unindexed)
      ∧ popped.length = brand.items.length
      ∧ (popped.map Brand.time).Pairwise (fun a b => a ≤ b))
    ∧ (∀ s, crawler parse envs w brand ≠ .halt .fuel s) := by
  have hinv0 : SweepInv brand.items w brand.cap w brand [] :=
    ⟨by simp, brand.items.map unindexed, [], by simp, by simp, by simp, by simp, by simp,
      hord, rfl, rfl⟩
  obtain ⟨h1, h2⟩ := crawlerLoop_inv parse envs brand.items w brand.cap hwf hclock
    (Queue.Len brand + 1) 0 w brand [] hinv0 rfl (Nat.zero_le _)
    (by simp only [Queue.Len]; omega)
  refine ⟨?_, fun s hs => h2 _ s hs rfl⟩
  obtain ⟨P, ⟨hpop, R, Q, hPR, _, _, hsorted, _⟩, hlen⟩ := h1 w1 brand1 hrun
  have hR : R = [] := by
    have := hPR.length_eq
    simp only [List.length_append, List.length_map] at this
    exact List.length_eq_zero.mp (by omega)
  subst hR
  exact ⟨P, hpop, by simpa using hPR, hlen, hsorted⟩

/-- C4 on the queue of three brands with times 10, 30, 20 and the clock at
1367366400: the sweep returns having popped the brands of times 10, 20, 30. -/
theorem sweep_pops_every_brand_once_witness :
    brands3.items.length ≤ brands3.cap ∧ brands3.ordered
    ∧ (∀ i, i < brands3.items.length → ∀ b, b ∈ brands3.items →
        b.time < toUint64 ((fun _ => (⟨feed, 1367366400⟩ : Env)) i).now)
    ∧ crawler parseLayout (fun _ => ⟨feed, 1367366400⟩) startWorld brands3
        = .done ((crawler parseLayout (fun _ => ⟨feed, 1367366400⟩) startWorld brands3).state.1,
                 (crawler parseLayout (fun _ => ⟨feed, 1367366400⟩) startWorld brands3).state.2)
    ∧ ((∃ popped,
          (crawler parseLayout (fun _ => ⟨feed, 1367366400⟩) startWorld brands3).state.1.popped
            = startWorld.popped ++ popped
        ∧ (popped.map unindexed).Perm (brands3.items.map unindexed)
        ∧ popped.length = brands3.items.length
        ∧ (popped.map Brand.time).Pairwise (fun a b => a ≤ b))
      ∧ (∀ s, crawler parseLayout (fun _ => ⟨feed, 1367366400⟩) startWorld brands3
          ≠ .halt .fuel s))
    ∧ (crawler parseLayout (fun _ => ⟨feed, 1367366400⟩) startWorld brands3).state.1.popped.map
        Brand.time = [10, 20, 30] :=
  ⟨by decide!, by decide!, by decide!, by decide!,
    sweep_pops_every_brand_once parseLayout (fun _ => ⟨feed, 1367366400⟩) startWorld
      (crawler parseLayout (fun _ => ⟨feed, 1367366400⟩) startWorld brands3).state.1 brands3
      (crawler parseLayout (fun _ => ⟨feed, 1367366400⟩) startWorld brands3).state.2
      (by decide!) (by decide!) (by decide!) (by decide!),
    by decide!⟩

/-- C5: on every non-empty `Brands` queue in min-heap order on `time`,
`heap.Pop` returns a brand whose `time` is at most the `time` of every brand
that was in the queue; the queue afterwards holds exactly the other brands
(up to the `index` bookkeeping, the returned brand and the remaining ones are
a permutation of the old contents) and is again in min-heap order. -/
theorem heap_Pop_returns_least (br : Brands) (hne : br.items ≠ []) (hord : br.ordered) :
    ∃ (b : Brand) (rest : Brands), heap.Pop br = .ok (b, rest)
      ∧ (∀ c, c ∈ br.items → b.time ≤ c.time)
      ∧ (unindexed b :: rest.items.map unindexed).Perm (br.items.map unindexed)
      ∧ rest.items.length + 1 = br.items.length
      ∧ rest.cap = br.cap
      ∧ rest.ordered :=
  heap_Pop_least br hne hord

/-- C5 on a queue of three brands with times 10, 30, 20: the brand of time 10
is returned and the two others stay, in heap order. -/
theorem heap_Pop_returns_least_witness :
    brands3.items ≠ [] ∧ brands3.ordered
    ∧ (∃ (b : Brand) (rest : Brands), heap.Pop brands3 = .ok (b, rest)
      ∧ (∀ c, c ∈ brands3.items → b.time ≤ c.time)
      ∧ (unindexed b :: rest.items.map unindexed).Perm (brands3.items.map unindexed)
      ∧ rest.items.length + 1 = brands3.items.length
      ∧ rest.cap = brands3.cap
      ∧ rest.ordered)
    ∧ heap.Pop brands3 = .ok
        ({ Name := "acme".toList, Aliases := [], searchedbefore := 0, time := 10, pass := 1,
           index := -1 },
         { items :=
             [{ Name := "coil".toList, Aliases := [], searchedbefore := 0, time := 20, pass := 1,
                index := 0 },
              { Name := "bolt".toList, Aliases := [], searchedbefore := 0, time := 30, pass := 1,
                index := 1 }],
           cap := 3 }) :=
  ⟨by decide!, by decide!, heap_Pop_returns_least brands3 (by decide!) (by decide!), by decide!⟩

/-- C6 does not hold of the code: a post dated five seconds after the clock
reading of the cycle that wrote it (1367402405 against 1367402400) is written
again by the next cycle, once the next cursor of its page has moved. -/
theorem mention_written_in_two_cycles :
    cycle parseLayout skewFeed1 1367402400 startWorld brand0
      = .done (cycle parseLayout skewFeed1 1367402400 startWorld brand0).state
    ∧ (cycle parseLayout skewFeed1 1367402400 startWorld brand0).state.1.store
        = [mkMention brand0 "launch day".toList 1367402405]
    ∧ (cycle parseLayout skewFeed1 1367402400 startWorld brand0).state.2.time = 1367402400
    ∧ cycle parseLayout skewFeed2 1367402460
          (cycle parseLayout skewFeed1 1367402400 startWorld brand0).state.1
          (cycle parseLayout skewFeed1 1367402400 startWorld brand0).state.2
        = .done (cycle parseLayout skewFeed2 1367402460
          (cycle parseLayout skewFeed1 1367402400 startWorld brand0).state.1
          (cycle parseLayout skewFeed1 1367402400 startWorld brand0).state.2).state
    ∧ (cycle parseLayout skewFeed2 1367402460
          (cycle parseLayout skewFeed1 1367402400 startWorld brand0).state.1
          (cycle parseLayout skewFeed1 1367402400 startWorld brand0).state.2).state.1.store
        = [mkMention brand0 "launch day".toList 1367402405,
           mkMention brand0 "launch day".toList 1367402405] := by
  decide!

/-- C7, as the code has it: the time a brand has when a returned cycle hands it
back for the push is the wall-clock reading taken at the end of the cycle;
when no mention written in the cycle is dated after that reading, it is at
least the timestamp of each of them (and not their maximum). -/
theorem cycle_commits_clock_reading (parse : TimeParse) (fetch : Transport) (now : Int)
    (w w1 : World) (cb cb1 : Brand)
    (h : cycle parse fetch now w cb = .done (w1, cb1))
    (hpast : ∀ m, m ∈ w1.store.drop w.store.length → m.Timestamp ≤ toUint64 now) :
    cb1.time = toUint64 now
    ∧ (∀ m, m ∈ w1.store.drop w.store.length → m.Timestamp ≤ cb1.time) := by
  have ht := (cycle_done parse fetch now w w1 cb cb1 h).1
  exact ⟨ht, fun m hm => by rw [ht]; exact hpast m hm⟩

/-- C7 fails on the small feed: a cycle of the rebuilt brand, read off the
clock at 1367366400, writes the mentions of timestamps 80 and 100 and hands the
brand back with time 1367366400, not 100. -/
theorem cycle_commits_clock_reading_counterexample :
    cycle parseLayout feed 1367366400 startWorld brand0
      = .done (cycle parseLayout feed 1367366400 startWorld brand0).state
    ∧ (cycle parseLayout feed 1367366400 startWorld brand0).state.1.store.map Mention.Timestamp
        = [80, 100]
    ∧ (cycle parseLayout feed 1367366400 startWorld brand0).state.2.time = 1367366400
    ∧ (cycle parseLayout feed 1367366400 startWorld brand0).state.2.time ≠ 100 := by
  decide!

/-- The amended C7 on the small feed. -/
theorem cycle_commits_clock_reading_witness :
    cycle parseLayout feed 1367366400 startWorld brand0
      = .done ((cycle parseLayout feed 1367366400 startWorld brand0).state.1,
               (cycle parseLayout feed 1367366400 startWorld brand0).state.2)
    ∧ (∀ m, m ∈ (cycle parseLayout feed 1367366400 startWorld brand0).state.1.store.drop
          startWorld.store.length → m.Timestamp ≤ toUint64 1367366400)
    ∧ ((cycle parseLayout feed 1367366400 startWorld brand0).state.2.time = toUint64 1367366400
      ∧ (∀ m, m ∈ (cycle parseLayout feed 1367366400 startWorld brand0).state.1.store.drop
          startWorld.store.length →
            m.Timestamp ≤ (cycle parseLayout feed 1367366400 startWorld brand0).state.2.time)) :=
  ⟨by decide!, by decide!,
    cycle_commits_clock_reading parseLayout feed 1367366400 startWorld _ brand0 _
      (by decide!) (by decide!)⟩

/-- C8: for every sequence of crawl cycles on a brand that starts with time 0,
the wall-clock readings taken by `crawler` being non-decreasing, the brand's
time after each completed cycle is at least its time after the cycles before
it (and at least the initial 0), whatever the feeds returned. -/
theorem time_never_decreases (parse : TimeParse) (es : List Env) (w : World) (cb : Brand)
    (h0 : cb.time = 0)
    (hs : (es.map (fun e => toUint64 e.now)).Pairwise (fun a b => a ≤ b)) :
    (cb.time :: (cycles parse es w cb).map Brand.time).Pairwise (fun a b => a ≤ b) := by
  obtain ⟨k, hk⟩ := cycles_times parse es w cb
  rw [hk, List.pairwise_cons]
  exact ⟨fun a _ => by rw [h0]; exact Nat.zero_le _, hs.sublist (List.take_sublist _ _)⟩

/-- C8 on two cycles of the small feed, read off the clock at 1367366400 and
1367366405: both complete, and the times are 0, 1367366400, 1367366405. -/
theorem time_never_decreases_witness :
    brand0.time = 0
    ∧ (([⟨feed, 1367366400⟩, ⟨feed, 1367366405⟩] : List Env).map
        (fun e => toUint64 e.now)).Pairwise (fun a b => a ≤ b)
    ∧ (brand0.time :: (cycles parseLayout [⟨feed, 1367366400⟩, ⟨feed, 1367366405⟩]
        startWorld brand0).map Brand.time).Pairwise (fun a b => a ≤ b)
    ∧ (cycles parseLayout [⟨feed, 1367366400⟩, ⟨feed, 1367366405⟩] startWorld brand0).map
        Brand.time = [1367366400, 1367366405] :=
  ⟨by decide!, by decide!,
    time_never_decreases parseLayout [⟨feed, 1367366400⟩, ⟨feed, 1367366405⟩] startWorld brand0
      (by decide!) (by decide!),
    by decide!⟩

/-- C9: after a full walk on a feed has returned, a second full walk on the
same unchanged feed, with `pass > 1` and the `searchedbefore` the first walk
left, returns at its first page: it writes no mention and requests no page, and
leaves the process state and the brand as they were. -/
theorem second_walk_emits_nothing (parse : TimeParse) (fetch : Transport) (resp : Str)
    (w w1 : World) (cb cb1 : Brand)
    (h1 : crawl parse fetch resp 0 w cb = .done (w1, cb1))
    (w2 : World) (cb2 : Brand) (hpass : cb2.pass > 1)
    (hsb : cb2.searchedbefore = cb1.searchedbefore) :
    crawl parse fetch resp 0 w2 cb2 = .done (w2, cb2)
    ∧ (crawl parse fetch resp 0 w2 cb2).state.1.store = w2.store
    ∧ (crawl parse fetch resp 0 w2 cb2).state.1.fetched = w2.fetched := by
  have key : crawl parse fetch resp 0 w2 cb2 = .done (w2, cb2) := by
    unfold crawl at h1 ⊢
    rw [show (5 : Nat) = 4 + 1 from rfl] at h1 ⊢
    rw [crawlAux] at h1 ⊢
    simp only [wrapInt_small 0 (Int.le_refl _) (by omega)] at h1 ⊢
    cases hgn : getnext resp with
    | fail f => rw [hgn] at h1; cases h1
    | ok nextLink =>
      rw [hgn] at h1
      simp only [] at h1 ⊢
      by_cases hstop : (0 : Int) + 1 > 4 ∨ nextLink = []
      · rw [if_pos hstop]
      · rw [if_neg hstop] at h1 ⊢
        cases hgu : getuntil nextLink with
        | fail f => rw [hgu] at h1; cases h1
        | ok str =>
          rw [hgu] at h1
          simp only [] at h1 ⊢
          by_cases hdeep : cb.pass > 1 ∧ cb.searchedbefore ≥ (Atoi str).1
          · rw [if_pos hdeep] at h1
            cases h1
            rw [if_pos ⟨hpass, by rw [hsb]; exact hdeep.2⟩]
          · rw [if_neg hdeep] at h1
            cases hgd : getdata resp [] with
            | fail f => rw [hgd] at h1; cases h1
            | ok mentionList =>
              rw [hgd] at h1
              simp only [] at h1
              cases hcd : convertdata parse mentionList
                { w with extracted := w.extracted ++ [((Atoi str).1, mentionList)] }
                { cb with searchedbefore := maxint cb.searchedbefore (Atoi str).1 } with
              | halt f s => rw [hcd] at h1; cases h1
              | done w3 =>
                rw [hcd] at h1
                simp only [] at h1
                cases hfn : fetch nextLink with
                | getError => rw [hfn] at h1; cases h1
                | readError => rw [hfn] at h1; cases h1
                | body next =>
                rw [hfn] at h1
                simp only [] at h1
                obtain ⟨urls, ex, _, _, _, _, h5⟩ :=
                  crawlAux_spec parse fetch 4 next (0 + 1)
                    { w3 with fetched := w3.fetched ++ [nextLink] }
                    { cb with searchedbefore := maxint cb.searchedbefore (Atoi str).1 }
                    (by omega) (by omega) (by omega)
                obtain ⟨_, j2, _, _⟩ := h5 w1 cb1 h1
                have hd := (deepest_spec ex (maxint cb.searchedbefore (Atoi str).1)).1
                have hm : (Atoi str).1 ≤ maxint cb.searchedbefore (Atoi str).1 := by
                  unfold maxint
                  split
                  · omega
                  · exact Int.le_refl _
                have hge : cb2.searchedbefore ≥ (Atoi str).1 := by
                  rw [hsb, j2]
                  exact Int.le_trans hm hd
                rw [if_pos ⟨hpass, hge⟩]
  exact ⟨key, by rw [key]; rfl, by rw [key]; rfl⟩

/-- C9 on the small feed: the first walk (pass 1) leaves `searchedbefore` at
70; the walk repeated with pass 2 returns at once. -/
theorem second_walk_emits_nothing_witness :
    crawl parseLayout feed feedPage1 0 startWorld brand80
      = .done ((crawl parseLayout feed feedPage1 0 startWorld brand80).state.1,
               { brand80 with searchedbefore := 70 })
    ∧ ({ brand80 with searchedbefore := 70, pass := 2 } : Brand).pass > 1
    ∧ ({ brand80 with searchedbefore := 70, pass := 2 } : Brand).searchedbefore
        = ({ brand80 with searchedbefore := 70 } : Brand).searchedbefore
    ∧ (crawl parseLayout feed feedPage1 0 startWorld
          { brand80 with searchedbefore := 70, pass := 2 }
        = .done (startWorld, { brand80 with searchedbefore := 70, pass := 2 })
      ∧ (crawl parseLayout feed feedPage1 0 startWorld
          { brand80 with searchedbefore := 70, pass := 2 }).state.1.store = startWorld.store
      ∧ (crawl parseLayout feed feedPage1 0 startWorld
          { brand80 with searchedbefore := 70, pass := 2 }).state.1.fetched
            = startWorld.fetched) :=
  ⟨by decide!, by decide!, by decide!,
    second_walk_emits_nothing parseLayout feed feedPage1 startWorld
      (crawl parseLayout feed feedPage1 0 startWorld brand80).state.1 brand80
      { brand80 with searchedbefore := 70 } (by decide!)
      startWorld { brand80 with searchedbefore := 70, pass := 2 } (by decide!) (by decide!)⟩

/-- C10: when the walk `crawl` returns, `cb.searchedbefore` is the maximum of
its value before the walk and the cursor depths of the pages handed to
`convertdata` during the walk (the pages added to the trace `extracted`): it is
at least each of them and equal to one of them.  So it never decreases and,
starting from 0, is never negative. -/
theorem searchedbefore_is_deepest (parse : TimeParse) (fetch : Transport) (resp : Str)
    (w w1 : World) (cb cb1 : Brand)
    (h : crawl parse fetch resp 0 w cb = .done (w1, cb1)) :
    ∃ ex, w1.extracted = w.extracted ++ ex
      ∧ cb1.searchedbefore = deepest cb.searchedbefore ex
      ∧ cb.searchedbefore ≤ cb1.searchedbefore
      ∧ (∀ e, e ∈ ex → e.1 ≤ cb1.searchedbefore)
      ∧ (cb1.searchedbefore = cb.searchedbefore ∨ ∃ e, e ∈ ex ∧ cb1.searchedbefore = e.1)
      ∧ (cb.searchedbefore = 0 → 0 ≤ cb1.searchedbefore) := by
  obtain ⟨urls, ex, _, _, _, _, h5⟩ :=
    crawlAux_spec parse fetch 5 resp 0 w cb (by omega) (by omega) (by omega)
  obtain ⟨j1, j2, _, _⟩ := h5 w1 cb1 h
  obtain ⟨d1, d2, d3⟩ := deepest_spec ex cb.searchedbefore
  have hsb : cb1.searchedbefore = deepest cb.searchedbefore ex := by rw [j2]
  refine ⟨ex, j1, hsb, by rw [hsb]; exact d1, fun e he => by rw [hsb]; exact d2 e he, ?_, ?_⟩
  · rw [hsb]; exact d3
  · intro h0
    rw [hsb]
    omega

/-- C10 on the small feed: the walk hands two pages, of depths 70 and 60, to
`convertdata` and leaves `searchedbefore` at 70. -/
theorem searchedbefore_is_deepest_witness :
    crawl parseLayout feed feedPage1 0 startWorld brand80
      = .done ((crawl parseLayout feed feedPage1 0 startWorld brand80).state.1,
               { brand80 with searchedbefore := 70 })
    ∧ ((crawl parseLayout feed feedPage1 0 startWorld brand80).state.1.extracted.map Prod.fst
        = [70, 60])
    ∧ ∃ ex, (crawl parseLayout feed feedPage1 0 startWorld brand80).state.1.extracted
          = startWorld.extracted ++ ex
      ∧ ({ brand80 with searchedbefore := 70 } : Brand).searchedbefore
          = deepest brand80.searchedbefore ex
      ∧ brand80.searchedbefore ≤ ({ brand80 with searchedbefore := 70 } : Brand).searchedbefore
      ∧ (∀ e, e ∈ ex → e.1 ≤ ({ brand80 with searchedbefore := 70 } : Brand).searchedbefore)
      ∧ (({ brand80 with searchedbefore := 70 } : Brand).searchedbefore = brand80.searchedbefore
          ∨ ∃ e, e ∈ ex
            ∧ ({ brand80 with searchedbefore := 70 } : Brand).searchedbefore = e.1)
      ∧ (brand80.searchedbefore = 0
          → 0 ≤ ({ brand80 with searchedbefore := 70 } : Brand).searchedbefore) :=
  ⟨by decide!, by decide!,
    searchedbefore_is_deepest parseLayout feed feedPage1 startWorld _ brand80 _ (by decide!)⟩

/-- C11: for every current brand queue and every loaded brand list of the same
length, `retrieveBrands` returns the current queue unchanged: the same brands
in the same slots, with their `time`, `searchedbefore` and `pass` as they
were (whatever the loaded records are). -/
theorem retrieveBrands_keeps_queue (brand : Brands) (brandList : List Brand)
    (h : brand.items.length = brandList.length) :
    retrieveBrands brand brandList = .ok brand := by
  unfold retrieveBrands
  rw [if_pos h]

/-- C11 on the queue of three brands (times 10, 30, 20) and three loaded
records, one of them under a new name. -/
theorem retrieveBrands_keeps_queue_witness :
    brands3.items.length = loaded3.length
    ∧ retrieveBrands brands3 loaded3 = .ok brands3 :=
  ⟨by decide!, retrieveBrands_keeps_queue brands3 loaded3 (by decide!)⟩

/-- C12: for every current brand queue and every loaded brand list of another
length, `retrieveBrands` returns a fresh queue with one brand per loaded
record, in the order of the list: slot `k` holds the name of record `k` with
`time`, `searchedbefore` and `pass` 0 and `index` `k` (the aliases of the
record are not taken over); its capacity is the number of records and it is
in min-heap order. -/
theorem retrieveBrands_rebuilds (brand : Brands) (brandList : List Brand)
    (h : brand.items.length ≠ brandList.length) :
    ∃ br, retrieveBrands brand brandList = .ok br
      ∧ br.items.length = brandList.length
      ∧ br.cap = brandList.length
      ∧ (∀ (k : Nat) (r : Brand), brandList[k]? = some r →
          br.items[k]? = some ({ Name := r.Name, Aliases := [], searchedbefore := 0, time := 0,
                                 pass := 0, index := (k : Int) } : Brand))
      ∧ br.ordered := by
  unfold retrieveBrands
  rw [if_neg h]
  have hr := rebuild_eq brandList { items := [], cap := brandList.length }
    (fun k => by simp [timeAt]) (by simp)
  simp only [List.nil_append, List.length_nil] at hr
  refine ⟨_, hr, freshBrands_length _ _, rfl, ?_, ?_⟩
  · intro k r hk
    show (freshBrands 0 brandList)[k]? = _
    rw [freshBrands_getElem?, hk]
    simp
  · intro j _
    show timeAt (freshBrands 0 brandList) ((j - 1) / 2) ≤ timeAt (freshBrands 0 brandList) j
    rw [freshBrands_timeAt, freshBrands_timeAt]

/-- C12 on the queue of three brands and two loaded records: the queue is
rebuilt with the two names, all marks 0. -/
theorem retrieveBrands_rebuilds_witness :
    brands3.items.length ≠ loaded2.length
    ∧ (∃ br, retrieveBrands brands3 loaded2 = .ok br
      ∧ br.items.length = loaded2.length
      ∧ br.cap = loaded2.length
      ∧ (∀ (k : Nat) (r : Brand), loaded2[k]? = some r →
          br.items[k]? = some ({ Name := r.Name, Aliases := [], searchedbefore := 0, time := 0,
                                 pass := 0, index := (k : Int) } : Brand))
      ∧ br.ordered)
    ∧ retrieveBrands brands3 loaded2 = .ok
        { items :=
            [{ Name := "acme".toList, Aliases := [], searchedbefore := 0, time := 0, pass := 0,
               index := 0 },
             { Name := "bolt".toList, Aliases := [], searchedbefore := 0, time := 0, pass := 0,
               index := 1 }],
          cap := 2 } :=
  ⟨by decide!, retrieveBrands_rebuilds brands3 loaded2 (by decide!), by decide!⟩

/-- C13, as the code has it: the error of `strconv.Atoi` is ignored, so a depth
string that is no integer gives the depth 0 (the nearest 64-bit bound when its
digits are out of range) and the walk goes on under the depth check as with any
other depth.  On a pass above 1 with `searchedbefore` at least that depth
`crawl` stops at that page, leaving the state and the brand as they were.
Otherwise, and so on every first pass, it hands the page to `convertdata` and,
when that returns, calls `http.Get` on the next link, whatever becomes of the
walk after that: when `http.Get` reports an error for the link the walk panics
there, and a walk that returns has read the page behind the link.  The panics
of the walk are a slice out of range in a page parser, the full in-memory queue
and the errors of the transport; none is raised for the depth string. -/
theorem unparsed_depth_is_a_depth (parse : TimeParse) (fetch : Transport) (resp : Str)
    (w : World) (cb : Brand) (nextLink str : Str)
    (hn : getnext resp = .ok nextLink) (hne : nextLink ≠ [])
    (hu : getuntil nextLink = .ok str) (herr : (Atoi str).2 ≠ .ok) :
    (((Atoi str).2 = .errSyntax ∧ (Atoi str).1 = 0)
      ∨ ((Atoi str).2 = .errRange
          ∧ ((Atoi str).1 = 9223372036854775807 ∨ (Atoi str).1 = -9223372036854775808)))
    ∧ (∀ f s, crawl parse fetch resp 0 w cb = .halt f s →
        f = .sliceBounds ∨ f = .queueFull ∨ f = .httpGet ∨ f = .readBody)
    ∧ (cb.pass > 1 ∧ cb.searchedbefore ≥ (Atoi str).1 →
        crawl parse fetch resp 0 w cb = .done (w, cb))
    ∧ (¬ (cb.pass > 1 ∧ cb.searchedbefore ≥ (Atoi str).1) →
        ∀ (ml : List Str) (w2 : World), getdata resp [] = .ok ml →
          convertdata parse ml
            { w with extracted := w.extracted ++ [((Atoi str).1, ml)] }
            { cb with searchedbefore := maxint cb.searchedbefore (Atoi str).1 } = .done w2 →
          (∃ urls, (crawl parse fetch resp 0 w cb).state.1.fetched
              = w.fetched ++ nextLink :: urls)
          ∧ (fetch nextLink = .getError →
              crawl parse fetch resp 0 w cb
                = .halt .httpGet
                    ({ w2 with fetched := w2.fetched ++ [nextLink] },
                     { cb with searchedbefore := maxint cb.searchedbefore (Atoi str).1 })))
    ∧ (¬ (cb.pass > 1 ∧ cb.searchedbefore ≥ (Atoi str).1) →
        ∀ w1 cb1, crawl parse fetch resp 0 w cb = .done (w1, cb1) →
          ∃ urls ml ex next, fetch nextLink = .body next
            ∧ w1.fetched = w.fetched ++ nextLink :: urls
            ∧ getdata resp [] = .ok ml
            ∧ w1.extracted = w.extracted ++ ((Atoi str).1, ml) :: ex) := by
  have hpage : ¬ ((0 : Int) + 1 > 4 ∨ nextLink = []) := by
    rintro (h | h)
    · omega
    · exact hne h
  have hunf : ¬ (cb.pass > 1 ∧ cb.searchedbefore ≥ (Atoi str).1) →
      crawl parse fetch resp 0 w cb =
        match getdata resp [] with
        | .fail f =>
          .halt f (w, { cb with searchedbefore := maxint cb.searchedbefore (Atoi str).1 })
        | .ok ml =>
          match convertdata parse ml
              { w with extracted := w.extracted ++ [((Atoi str).1, ml)] }
              { cb with searchedbefore := maxint cb.searchedbefore (Atoi str).1 } with
          | .halt f w2 =>
            .halt f (w2, { cb with searchedbefore := maxint cb.searchedbefore (Atoi str).1 })
          | .done w2 =>
            match fetch nextLink with
            | .getError =>
              .halt .httpGet
                ({ w2 with fetched := w2.fetched ++ [nextLink] },
                 { cb with searchedbefore := maxint cb.searchedbefore (Atoi str).1 })
            | .readError =>
              .halt .readBody
                ({ w2 with fetched := w2.fetched ++ [nextLink] },
                 { cb with searchedbefore := maxint cb.searchedbefore (Atoi str).1 })
            | .body next =>
              crawlAux parse fetch 4 next (0 + 1)
                { w2 with fetched := w2.fetched ++ [nextLink] }
                { cb with searchedbefore := maxint cb.searchedbefore (Atoi str).1 } := by
    intro hgo
    unfold crawl
    rw [show (5 : Nat) = 4 + 1 from rfl, crawlAux]
    simp only [wrapInt_small 0 (Int.le_refl _) (by omega), hn]
    rw [if_neg hpage]
    simp only [hu]
    rw [if_neg hgo]
  refine ⟨?_, ?_, ?_, ?_, ?_⟩
  · cases he : (Atoi str).2 with
    | ok => exact absurd he herr
    | errSyntax => exact Or.inl ⟨rfl, (ParseInt_err str).1 he⟩
    | errRange => exact Or.inr ⟨rfl, (ParseInt_err str).2 he⟩
  · obtain ⟨_, _, _, _, _, h4, _⟩ :=
      crawlAux_spec parse fetch 5 resp 0 w cb (by omega) (by omega) (by omega)
    exact h4
  · intro hstop
    unfold crawl
    rw [show (5 : Nat) = 4 + 1 from rfl, crawlAux]
    simp only [wrapInt_small 0 (Int.le_refl _) (by omega), hn]
    rw [if_neg hpage]
    simp only [hu]
    rw [if_pos hstop]
  · intro hgo ml w2 hgd hcd
    have e1 := (convertdata_done parse ml _ w2 _ hcd).2.2.2.2.1
    have e1b : w2.fetched = w.fetched := e1
    rw [hunf hgo, hgd]
    simp only [hcd]
    cases hfn : fetch nextLink with
    | getError => exact ⟨⟨[], by simp [Run.state, e1b]⟩, fun _ => rfl⟩
    | readError => exact ⟨⟨[], by simp [Run.state, e1b]⟩, fun h => by cases h⟩
    | body next =>
      simp only []
      obtain ⟨urls, ex, h1, _⟩ :=
        crawlAux_spec parse fetch 4 next (0 + 1)
          { w2 with fetched := w2.fetched ++ [nextLink] }
          { cb with searchedbefore := maxint cb.searchedbefore (Atoi str).1 }
          (by omega) (by omega) (by omega)
      refine ⟨⟨urls, ?_⟩, fun h => by cases h⟩
      rw [h1]
      show w2.fetched ++ [nextLink] ++ urls = _
      rw [e1b]
      simp
  · intro hgo w1 cb1 h
    rw [hunf hgo] at h
    cases hgd : getdata resp [] with
    | fail f => rw [hgd] at h; cases h
    | ok ml =>
      rw [hgd] at h
      simp only [] at h
      cases hcd : convertdata parse ml
        { w with extracted := w.extracted ++ [((Atoi str).1, ml)] }
        { cb with searchedbefore := maxint cb.searchedbefore (Atoi str).1 } with
      | halt f s => rw [hcd] at h; cases h
      | done w3 =>
        rw [hcd] at h
        simp only [] at h
        cases hfn : fetch nextLink with
        | getError => rw [hfn] at h; cases h
        | readError => rw [hfn] at h; cases h
        | body next =>
          rw [hfn] at h
          simp only [] at h
          obtain ⟨urls, ex, h1, _, _, _, h5⟩ :=
            crawlAux_spec parse fetch 4 next (0 + 1)
              { w3 with fetched := w3.fetched ++ [nextLink] }
              { cb with searchedbefore := maxint cb.searchedbefore (Atoi str).1 }
              (by omega) (by omega) (by omega)
          obtain ⟨j1, _, _, _⟩ := h5 w1 cb1 h
          rw [h] at h1
          obtain ⟨_, _, _, _, e1, e2, _⟩ := convertdata_done parse ml _ w3 _ hcd
          refine ⟨urls, ml, ex, next, rfl, ?_, rfl, ?_⟩
          · have : w1.fetched = w3.fetched ++ [nextLink] ++ urls := h1
            rw [this, e1]; simp
          · have : w1.extracted = w3.extracted ++ ex := j1
            rw [this, e2]; simp

/-- C13 fails in both of its parts on the first pass.  The next link of
`badCursorPage` carries the cursor `soon`, which is no integer, yet the walk of
a brand on pass 1 requests that link instead of stopping at the page.  The next
link of `tabCursorPage` carries a cursor with a tab character in it; the walk
calls `http.Get` on the link, which reports an error for such a URL, and the
walk panics. -/
theorem unparsed_depth_is_a_depth_counterexample :
    getnext badCursorPage = .ok "https://graph.facebook.com/search?q=acme&until=soon".toList
    ∧ getuntil "https://graph.facebook.com/search?q=acme&until=soon".toList = .ok "soon".toList
    ∧ Atoi "soon".toList = (0, .errSyntax)
    ∧ brand80.pass = 1
    ∧ (crawl parseLayout badCursorFeed badCursorPage 0 startWorld brand80).state.1.fetched
        = ["https://graph.facebook.com/search?q=acme&until=soon".toList]
    ∧ ¬ ((crawl parseLayout badCursorFeed badCursorPage 0 startWorld brand80).state.1.fetched
        = [])
    ∧ getnext tabCursorPage = .ok "https://graph.facebook.com/search?q=acme&until=\t5".toList
    ∧ Atoi "\t5".toList = (0, .errSyntax)
    ∧ strictFeed "https://graph.facebook.com/search?q=acme&until=\t5".toList = .getError
    ∧ (∃ s, crawl parseLayout strictFeed tabCursorPage 0 startWorld brand80
        = .halt .httpGet s) := by
  refine ⟨by decide!, by decide!, by decide!, by decide!, by decide!, by decide!, by decide!,
    by decide!, by decide!, ?_⟩
  exact ⟨(crawl parseLayout strictFeed tabCursorPage 0 startWorld brand80).state, by decide!⟩

/-- The amended C13 on `badCursorPage`, for the brand on pass 1. -/
theorem unparsed_depth_is_a_depth_witness :
    crawl parseLayout badCursorFeed badCursorPage 0 startWorld brand80
      = .done ((crawl parseLayout badCursorFeed badCursorPage 0 startWorld brand80).state.1,
               brand80)
    ∧ ((((Atoi "soon".toList).2 = .errSyntax ∧ (Atoi "soon".toList).1 = 0)
        ∨ ((Atoi "soon".toList).2 = .errRange
            ∧ ((Atoi "soon".toList).1 = 9223372036854775807
                ∨ (Atoi "soon".toList).1 = -9223372036854775808)))
      ∧ (∀ f s, crawl parseLayout badCursorFeed badCursorPage 0 startWorld brand80 = .halt f s →
          f = .sliceBounds ∨ f = .queueFull ∨ f = .httpGet ∨ f = .readBody)
      ∧ (brand80.pass > 1 ∧ brand80.searchedbefore ≥ (Atoi "soon".toList).1 →
          crawl parseLayout badCursorFeed badCursorPage 0 startWorld brand80
            = .done (startWorld, brand80))
      ∧ (¬ (brand80.pass > 1 ∧ brand80.searchedbefore ≥ (Atoi "soon".toList).1) →
          ∀ (ml : List Str) (w2 : World), getdata badCursorPage [] = .ok ml →
            convertdata parseLayout ml
              { startWorld with
                  extracted := startWorld.extracted ++ [((Atoi "soon".toList).1, ml)] }
              { brand80 with
                  searchedbefore := maxint brand80.searchedbefore (Atoi "soon".toList).1 }
                = .done w2 →
            (∃ urls, (crawl parseLayout badCursorFeed badCursorPage 0 startWorld
                brand80).state.1.fetched
                = startWorld.fetched
                  ++ "https://graph.facebook.com/search?q=acme&until=soon".toList :: urls)
            ∧ (badCursorFeed "https://graph.facebook.com/search?q=acme&until=soon".toList
                  = .getError →
                crawl parseLayout badCursorFeed badCursorPage 0 startWorld brand80
                  = .halt .httpGet
                      ({ w2 with
                          fetched := w2.fetched
                            ++ ["https://graph.facebook.com/search?q=acme&until=soon".toList] },
                       { brand80 with
                          searchedbefore :=
                            maxint brand80.searchedbefore (Atoi "soon".toList).1 })))
      ∧ (¬ (brand80.pass > 1 ∧ brand80.searchedbefore ≥ (Atoi "soon".toList).1) →
          ∀ w1 cb1, crawl parseLayout badCursorFeed badCursorPage 0 startWorld brand80
              = .done (w1, cb1) →
            ∃ urls ml ex next,
              badCursorFeed "https://graph.facebook.com/search?q=acme&until=soon".toList
                = .body next
              ∧ w1.fetched
                = startWorld.fetched
                  ++ "https://graph.facebook.com/search?q=acme&until=soon".toList :: urls
              ∧ getdata badCursorPage [] = .ok ml
              ∧ w1.extracted = startWorld.extracted ++ ((Atoi "soon".toList).1, ml) :: ex)) :=
  ⟨by decide!,
    unparsed_depth_is_a_depth parseLayout badCursorFeed badCursorPage startWorld brand80
      "https://graph.facebook.com/search?q=acme&until=soon".toList "soon".toList
      (by decide!) (by decide!) (by decide!) (by decide!)⟩

/-- C14, as the code has it: a record whose id string does not parse is
emitted like any other record, provided the loop of `convertdata` reaches it.
For a raw list that begins with whole records all newer than the mark,
followed by a record newer than the mark whose id string `strconv.ParseInt`
rejects, and with room in the in-memory queue for these records: the loop
writes the mentions of the records before it, pushes an item carrying the value
`ParseInt` returned with the error (0 for a string that is no number, the
nearest bound for digits out of range), writes the mention of the record, with
the brand's name and the record's timestamp and text, and goes on with the
records after it.  In every state the mentions written, in order, and whether
`convertdata` returns are the same for two raw lists that differ only in their
id strings. -/
theorem bad_id_still_emits (parse : TimeParse) (w : World) (cb : Brand)
    (pre : List Str) (text idStr timeStr : Str) (rest : List Str)
    (hpre : pre.length % 3 = 0)
    (hreach : ∀ r, r ∈ triples pre → cb.time < unixOf parse r.2.2)
    (hid : (ParseInt idStr).2 ≠ .ok)
    (hfresh : cb.time < unixOf parse timeStr)
    (hroom : w.pq.items.length + pre.length / 3 < w.pq.cap) :
    (((ParseInt idStr).2 = .errSyntax ∧ (ParseInt idStr).1 = 0)
      ∨ ((ParseInt idStr).2 = .errRange
          ∧ ((ParseInt idStr).1 = 9223372036854775807
              ∨ (ParseInt idStr).1 = -9223372036854775808)))
    ∧ (∃ wk pq1,
        convertdata parse pre w cb = .done wk
        ∧ wk.store
            = w.store
              ++ (triples pre).map
                  (fun r => ({ Name := cb.Name, Timestamp := unixOf parse r.2.2,
                               Source := "facebook".toList, Text := r.1,
                               SourceLink := "n/a".toList } : Mention))
        ∧ heap.Push wk.pq
            ({ mention := text, id := (ParseInt idStr).1, time := unixOf parse timeStr,
               index := 0 } : Item) = .ok pq1
        ∧ convertdata parse (pre ++ text :: idStr :: timeStr :: rest) w cb
            = convertdata parse rest
                { wk with
                    pq := pq1,
                    tempTimestamp := max wk.tempTimestamp (unixOf parse timeStr),
                    store := wk.store
                      ++ [({ Name := cb.Name, Timestamp := unixOf parse timeStr,
                             Source := "facebook".toList, Text := text,
                             SourceLink := "n/a".toList } : Mention)] } cb)
    ∧ (∃ later : List Mention,
        (convertdata parse (pre ++ text :: idStr :: timeStr :: rest) w cb).state.store
          = w.store
            ++ (triples pre).map
                (fun r => ({ Name := cb.Name, Timestamp := unixOf parse r.2.2,
                             Source := "facebook".toList, Text := r.1,
                             SourceLink := "n/a".toList } : Mention))
            ++ ({ Name := cb.Name, Timestamp := unixOf parse timeStr,
                  Source := "facebook".toList, Text := text,
                  SourceLink := "n/a".toList } : Mention) :: later)
    ∧ (∀ (w0 : World) (raw raw2 : List Str), raw.length = raw2.length →
        (∀ i : Nat, i % 3 ≠ 1 → raw[i]? = raw2[i]?) →
        (convertdata parse raw w0 cb).state.store = (convertdata parse raw2 w0 cb).state.store
        ∧ ((∃ s, convertdata parse raw w0 cb = .done s)
            ↔ ∃ s, convertdata parse raw2 w0 cb = .done s)) := by
  have hlen : (triples pre).length = pre.length / 3 := triples_length pre
  obtain ⟨wk, k1, k2, k3, k4, k5⟩ := convertRecords_append parse cb (triples pre)
    ((text, idStr, timeStr) :: triples rest) w hreach (by rw [hlen]; omega)
  obtain ⟨pq1, p1, _, p3⟩ := convertdata_pass parse wk cb text idStr timeStr rest hfresh
    (by rw [k4, k5, hlen]; exact hroom)
  have hsplit : convertdata parse (pre ++ text :: idStr :: timeStr :: rest) w cb
      = convertdata parse (text :: idStr :: timeStr :: rest) wk cb := by
    rw [convertdata_eq, convertdata_eq, triples_append pre _ hpre]
    exact k2
  have hgo : convertdata parse (pre ++ text :: idStr :: timeStr :: rest) w cb
      = convertdata parse rest
          { wk with
              pq := pq1,
              tempTimestamp := max wk.tempTimestamp (unixOf parse timeStr),
              store := wk.store
                ++ [({ Name := cb.Name, Timestamp := unixOf parse timeStr,
                       Source := "facebook".toList, Text := text,
                       SourceLink := "n/a".toList } : Mention)] } cb :=
    hsplit.trans p3
  refine ⟨?_, ⟨wk, pq1, by rw [convertdata_eq]; exact k1, k3, p1, hgo⟩, ?_, ?_⟩
  · cases he : (ParseInt idStr).2 with
    | ok => exact absurd he hid
    | errSyntax => exact Or.inl ⟨rfl, (ParseInt_err idStr).1 he⟩
    | errRange => exact Or.inr ⟨rfl, (ParseInt_err idStr).2 he⟩
  · obtain ⟨new, g1, _, _⟩ := convertdata_grows parse rest
      { wk with
          pq := pq1,
          tempTimestamp := max wk.tempTimestamp (unixOf parse timeStr),
          store := wk.store
            ++ [({ Name := cb.Name, Timestamp := unixOf parse timeStr,
                   Source := "facebook".toList, Text := text,
                   SourceLink := "n/a".toList } : Mention)] } cb
    refine ⟨new, ?_⟩
    rw [hgo, g1]
    show (wk.store ++ [_]) ++ new = _
    rw [k3]
    simp
  · intro w0 raw raw2 hl h
    rw [convertdata_eq, convertdata_eq]
    obtain ⟨h1, _, h3⟩ := convertRecords_ids parse cb (triples raw) (triples raw2) w0 w0
      (triples_ids raw raw2 hl h) rfl rfl rfl rfl
    exact ⟨h1, h3⟩

/-- C14 fails when a record not newer than the mark comes first: in
`rawBehind`, for the mark 80, the second record has an id that is no number and
a valid time string of timestamp 100, above the mark, yet `convertdata` returns
at the first record, of timestamp 80, and writes nothing. -/
theorem bad_id_still_emits_counterexample :
    triples rawBehind
      = [("old".toList, "21".toList, "1970-01-01T00:01:20+0000".toList),
         ("new".toList, "x22".toList, "1970-01-01T00:01:40+0000".toList)]
    ∧ ParseInt "x22".toList = (0, .errSyntax)
    ∧ parseLayout "1970-01-01T00:01:40+0000".toList = some 100
    ∧ brand80.time = 80
    ∧ unixOf parseLayout "1970-01-01T00:01:20+0000".toList = 80
    ∧ convertdata parseLayout rawBehind startWorld brand80 = .done startWorld
    ∧ (convertdata parseLayout rawBehind startWorld brand80).state.store = [] := by
  decide!

/-- The amended C14 on a raw list of two records newer than the mark 80, the
second with the id `x12`, which is no number: both mentions are written and the
item of the second record carries the id 0. -/
theorem bad_id_still_emits_witness :
    (ParseInt "x12".toList = (0, .errSyntax)
      ∧ (convertdata parseLayout
          (["first".toList, "11".toList, "1970-01-01T00:01:40+0000".toList]
            ++ "second".toList :: "x12".toList :: "1970-01-01T00:01:30+0000".toList :: [[]])
          startWorld brand80).state.store
          = [({ Name := "acme".toList, Timestamp := 100, Source := "facebook".toList,
                Text := "first".toList, SourceLink := "n/a".toList } : Mention),
             ({ Name := "acme".toList, Timestamp := 90, Source := "facebook".toList,
                Text := "second".toList, SourceLink := "n/a".toList } : Mention)]
      ∧ (convertdata parseLayout
          (["first".toList, "11".toList, "1970-01-01T00:01:40+0000".toList]
            ++ "second".toList :: "x12".toList :: "1970-01-01T00:01:30+0000".toList :: [[]])
          startWorld brand80).state.pq.items
          = [({ mention := "second".toList, id := 0, time := 90, index := 0 } : Item),
             ({ mention := "first".toList, id := 11, time := 100, index := 1 } : Item)])
    ∧ ((((ParseInt "x12".toList).2 = .errSyntax ∧ (ParseInt "x12".toList).1 = 0)
        ∨ ((ParseInt "x12".toList).2 = .errRange
            ∧ ((ParseInt "x12".toList).1 = 9223372036854775807
                ∨ (ParseInt "x12".toList).1 = -9223372036854775808)))
      ∧ (∃ wk pq1,
          convertdata parseLayout
              ["first".toList, "11".toList, "1970-01-01T00:01:40+0000".toList]
              startWorld brand80 = .done wk
          ∧ wk.store
              = startWorld.store
                ++ (triples ["first".toList, "11".toList,
                      "1970-01-01T00:01:40+0000".toList]).map
                    (fun r => ({ Name := brand80.Name, Timestamp := unixOf parseLayout r.2.2,
                                 Source := "facebook".toList, Text := r.1,
                                 SourceLink := "n/a".toList } : Mention))
          ∧ heap.Push wk.pq
              ({ mention := "second".toList, id := (ParseInt "x12".toList).1,
                 time := unixOf parseLayout "1970-01-01T00:01:30+0000".toList,
                 index := 0 } : Item) = .ok pq1
          ∧ convertdata parseLayout
              (["first".toList, "11".toList, "1970-01-01T00:01:40+0000".toList]
                ++ "second".toList :: "x12".toList :: "1970-01-01T00:01:30+0000".toList :: [[]])
              startWorld brand80
              = convertdata parseLayout [[]]
                  { wk with
                      pq := pq1,
                      tempTimestamp := max wk.tempTimestamp
                        (unixOf parseLayout "1970-01-01T00:01:30+0000".toList),
                      store := wk.store
                        ++ [({ Name := brand80.Name,
                               Timestamp := unixOf parseLayout "1970-01-01T00:01:30+0000".toList,
                               Source := "facebook".toList, Text := "second".toList,
                               SourceLink := "n/a".toList } : Mention)] } brand80)
      ∧ (∃ later : List Mention,
          (convertdata parseLayout
              (["first".toList, "11".toList, "1970-01-01T00:01:40+0000".toList]
                ++ "second".toList :: "x12".toList :: "1970-01-01T00:01:30+0000".toList :: [[]])
              startWorld brand80).state.store
            = startWorld.store
              ++ (triples ["first".toList, "11".toList,
                    "1970-01-01T00:01:40+0000".toList]).map
                  (fun r => ({ Name := brand80.Name, Timestamp := unixOf parseLayout r.2.2,
                               Source := "facebook".toList, Text := r.1,
                               SourceLink := "n/a".toList } : Mention))
              ++ ({ Name := brand80.Name,
                    Timestamp := unixOf parseLayout "1970-01-01T00:01:30+0000".toList,
                    Source := "facebook".toList, Text := "second".toList,
                    SourceLink := "n/a".toList } : Mention) :: later)
      ∧ (∀ (w0 : World) (raw raw2 : List Str), raw.length = raw2.length →
          (∀ i : Nat, i % 3 ≠ 1 → raw[i]? = raw2[i]?) →
          (convertdata parseLayout raw w0 brand80).state.store
            = (convertdata parseLayout raw2 w0 brand80).state.store
          ∧ ((∃ s, convertdata parseLayout raw w0 brand80 = .done s)
              ↔ ∃ s, convertdata parseLayout raw2 w0 brand80 = .done s))) :=
  ⟨by decide!,
    bad_id_still_emits parseLayout startWorld brand80
      ["first".toList, "11".toList, "1970-01-01T00:01:40+0000".toList]
      "second".toList "x12".toList "1970-01-01T00:01:30+0000".toList [[]]
      (by decide!) (by decide!) (by decide!) (by decide!) (by decide!)⟩

/-- C15: a walk changes no field of the brand but `searchedbefore` (so `time`,
`Name` and `pass` are as before, whatever the outcome of the walk), and
`convertdata` has the brand only to read.  With `tempTimestamp` set to the
brand's time at the start of the cycle (line 121), a walk that returns has
written a list `new` of mentions and leaves `tempTimestamp` at the largest of
the brand's time and the timestamps of `new`: it is at least the brand's time
and every such timestamp, and equal to one of them. -/
theorem walk_changes_depth_and_mark_only (parse : TimeParse) (fetch : Transport) (resp : Str)
    (w w1 : World) (cb cb1 : Brand)
    (h : crawl parse fetch resp 0 w cb = .done (w1, cb1))
    (hmark : w.tempTimestamp = cb.time) :
    cb1.time = cb.time ∧ cb1.Name = cb.Name ∧ cb1.pass = cb.pass
    ∧ cb1 = { cb with searchedbefore := cb1.searchedbefore }
    ∧ (∀ (resp2 : Str) (w2 : World),
        (crawl parse fetch resp2 0 w2 cb).state.2
          = { cb with searchedbefore := (crawl parse fetch resp2 0 w2 cb).state.2.searchedbefore })
    ∧ ∃ new : List Mention, w1.store = w.store ++ new
        ∧ w1.tempTimestamp = new.foldl (fun m x => max m x.Timestamp) cb.time
        ∧ cb.time ≤ w1.tempTimestamp
        ∧ (∀ x, x ∈ new → x.Timestamp ≤ w1.tempTimestamp)
        ∧ (w1.tempTimestamp = cb.time ∨ ∃ x, x ∈ new ∧ w1.tempTimestamp = x.Timestamp) := by
  have hb := crawlAux_brand parse fetch 5 resp 0 w cb
  have hb1 : cb1 = { cb with searchedbefore := cb1.searchedbefore } := by
    have e : crawlAux parse fetch 5 resp 0 w cb = .done (w1, cb1) := h
    rw [e] at hb
    exact hb
  obtain ⟨ex, e1, e2⟩ := crawlAux_mark parse fetch 5 resp 0 w w1 cb cb1 h
  obtain ⟨urls, ex2, _, _, _, _, h5⟩ :=
    crawlAux_spec parse fetch 5 resp 0 w cb (by omega) (by omega) (by omega)
  obtain ⟨j1, _, j3, _⟩ := h5 w1 cb1 h
  have hex : ex2 = ex := List.append_cancel_left (j1.symm.trans e1)
  subst hex
  rw [hmark] at e2
  obtain ⟨f1, f2, f3⟩ := foldl_max_spec (pageMentions parse cb ex2) cb.time
  refine ⟨by rw [hb1], by rw [hb1], by rw [hb1], hb1,
    fun resp2 w2 => crawlAux_brand parse fetch 5 resp2 0 w2 cb,
    pageMentions parse cb ex2, j3, e2, by rw [e2]; exact f1,
    fun x hx => (by rw [e2]; exact f2 x hx), ?_⟩
  rw [e2]
  exact f3

/-- C15 on the small feed, for the brand with mark 0: the walk writes the
records of timestamps 80 and 100 and leaves `tempTimestamp` at 100. -/
theorem walk_changes_depth_and_mark_only_witness :
    ((crawl parseLayout feed feedPage1 0 startWorld brand0).state.1.tempTimestamp = 100
      ∧ (crawl parseLayout feed feedPage1 0 startWorld brand0).state.1.store
          = [mkMention brand0 "old news".toList 80, mkMention brand0 "fresh news".toList 100])
    ∧ (({ brand0 with searchedbefore := 70 } : Brand).time = brand0.time
      ∧ ({ brand0 with searchedbefore := 70 } : Brand).Name = brand0.Name
      ∧ ({ brand0 with searchedbefore := 70 } : Brand).pass = brand0.pass
      ∧ ({ brand0 with searchedbefore := 70 } : Brand)
          = { brand0 with
              searchedbefore := ({ brand0 with searchedbefore := 70 } : Brand).searchedbefore }
      ∧ (∀ (resp2 : Str) (w2 : World),
          (crawl parseLayout feed resp2 0 w2 brand0).state.2
            = { brand0 with
                searchedbefore :=
                  (crawl parseLayout feed resp2 0 w2 brand0).state.2.searchedbefore })
      ∧ ∃ new : List Mention,
          (crawl parseLayout feed feedPage1 0 startWorld brand0).state.1.store
            = startWorld.store ++ new
          ∧ (crawl parseLayout feed feedPage1 0 startWorld brand0).state.1.tempTimestamp
              = new.foldl (fun m x => max m x.Timestamp) brand0.time
          ∧ brand0.time
              ≤ (crawl parseLayout feed feedPage1 0 startWorld brand0).state.1.tempTimestamp
          ∧ (∀ x, x ∈ new → x.Timestamp
              ≤ (crawl parseLayout feed feedPage1 0 startWorld brand0).state.1.tempTimestamp)
          ∧ ((crawl parseLayout feed feedPage1 0 startWorld brand0).state.1.tempTimestamp
                = brand0.time
              ∨ ∃ x, x ∈ new
                ∧ (crawl parseLayout feed feedPage1 0 startWorld brand0).state.1.tempTimestamp
                    = x.Timestamp)) :=
  ⟨by decide!,
    walk_changes_depth_and_mark_only parseLayout feed feedPage1 startWorld
      (crawl parseLayout feed feedPage1 0 startWorld brand0).state.1 brand0
      { brand0 with searchedbefore := 70 } (by decide!) (by decide!)⟩

/-- C16: `fixspace` terminates for every brand name, and a name without spaces
is returned unchanged; but a name with a space is returned unchanged as well,
because the string built with `%20` is passed to the recursive call and the
result of that call is dropped.  For the name `coca cola` the result is
`coca cola`, not `coca%20cola`, it contains a space, and so does the URL of the
first search page that `crawler` requests. -/
theorem fixspace_returns_its_argument :
    (∀ name : Str, fixspace name = .ok name)
    ∧ fixspace "coca cola".toList = .ok "coca cola".toList
    ∧ fixspace "coca cola".toList ≠ .ok "coca%20cola".toList
    ∧ (∀ r, fixspace "coca cola".toList = .ok r → Char.ofNat 32 ∈ r)
    ∧ (∀ (parse : TimeParse) (fetch : Transport) (now : Int) (w : World) (cb : Brand),
        cb.Name = "coca cola".toList →
        ∃ urls, (cycle parse fetch now w cb).state.1.fetched
            = w.fetched
              ++ "https://graph.facebook.com//search?fields=message&q=coca cola&type=post&limit=100".toList
              :: urls) := by
  refine ⟨fixspace_eq, fixspace_eq _, ?_, ?_, ?_⟩
  · rw [fixspace_eq]; decide
  · intro r hr
    rw [fixspace_eq] at hr
    cases hr
    decide
  · intro parse fetch now w cb hname
    have hu : firstUrl cb.Name
        = "https://graph.facebook.com//search?fields=message&q=coca cola&type=post&limit=100".toList := by
      rw [hname]; decide
    obtain ⟨urls, h1, _⟩ := cycle_fetched parse fetch now w cb
    exact ⟨urls, by rw [h1, hu]⟩

/-- C17: `getuntil` returns the empty string for a link without `until=`, and
otherwise all that follows the first `until=`, to the end of the link.  When
`until=<digits>` is the last parameter this is the digit string; when another
parameter follows, as in `...&until=1367402000&limit=100`, the result is
`1367402000&limit=100`, which `strconv.Atoi` rejects with a syntax error and
depth 0. -/
theorem getuntil_returns_rest_of_link :
    (∀ next : Str, (∀ front back, next ≠ front ++ "until=".toList ++ back) →
        getuntil next = .ok [])
    ∧ (∀ next : Str, (∃ front back, next = front ++ "until=".toList ++ back) →
        ∃ front back, next = front ++ "until=".toList ++ back ∧ getuntil next = .ok back
          ∧ ∀ f b, next = f ++ "until=".toList ++ b → front.length ≤ f.length)
    ∧ getuntil "https://graph.facebook.com/search?q=acme&limit=100&until=1367402000".toList
        = .ok "1367402000".toList
    ∧ getuntil "https://graph.facebook.com/search?q=acme&until=1367402000&limit=100".toList
        = .ok "1367402000&limit=100".toList
    ∧ Atoi "1367402000&limit=100".toList = (0, .errSyntax)
    ∧ Atoi "1367402000".toList = (1367402000, .ok) := by
  refine ⟨?_, ?_, by decide!, by decide!, by decide!, by decide!⟩
  · intro next h
    rcases getuntil_spec next with ⟨_, h2⟩ | ⟨front, back, h1, _⟩
    · exact h2
    · exact absurd h1 (h front back)
  · intro next ⟨f0, b0, h0⟩
    rcases getuntil_spec next with ⟨h1, _⟩ | h
    · exact absurd h0 (h1 f0 b0)
    · exact h

/-- C18: whatever the outcome of a walk, every page it has handed to
`convertdata` had a next cursor, a page index of at most 4 and a depth the
depth check let pass, and there are at most 4 such pages.  A walk that returns
has handed over one page per next link requested, that is every page it
visited except the last one; when the first page has no next cursor the walk
returns at once, with the state and the brand as they were, so nothing is
written. -/
theorem walk_extracts_pages_with_next_only (parse : TimeParse) (fetch : Transport)
    (resp : Str) (w : World) (cb : Brand) :
    (∃ ex : List (Int × List Str),
        (crawl parse fetch resp 0 w cb).state.1.extracted = w.extracted ++ ex
        ∧ walked fetch cb.pass 0 cb.searchedbefore resp ex
        ∧ ex.length ≤ 4)
    ∧ (∀ w1 cb1, crawl parse fetch resp 0 w cb = .done (w1, cb1) →
        ∃ (urls : List Str) (ex : List (Int × List Str)),
          w1.fetched = w.fetched ++ urls ∧ w1.extracted = w.extracted ++ ex
          ∧ w1.store = w.store ++ pageMentions parse cb ex
          ∧ ex.length = urls.length
          ∧ ex.length < (Response.body resp :: urls.map fetch).length)
    ∧ (getnext resp = .ok [] → crawl parse fetch resp 0 w cb = .done (w, cb)) := by
  refine ⟨?_, ?_, ?_⟩
  · obtain ⟨ex, h1, h2, h3⟩ := crawlAux_walked parse fetch 5 resp 0 w cb (by omega) (by omega)
    exact ⟨ex, h1, h2, by omega⟩
  · intro w1 cb1 h
    obtain ⟨urls, ex, h1, _, _, _, h5⟩ :=
      crawlAux_spec parse fetch 5 resp 0 w cb (by omega) (by omega) (by omega)
    obtain ⟨j1, _, j3, j4⟩ := h5 w1 cb1 h
    have e : (crawl parse fetch resp 0 w cb).state.1.fetched = w.fetched ++ urls := h1
    rw [h] at e
    refine ⟨urls, ex, e, j1, j3, j4, ?_⟩
    simp only [List.length_cons, List.length_map]
    omega
  · intro hn
    unfold crawl
    rw [show (5 : Nat) = 4 + 1 from rfl, crawlAux]
    rw [hn]
    exact if_pos (Or.inr rfl)

/-- C19: at every point of the endless loop of `main` the in-memory queue
holds as many items as mentions have been written since the start, in a
backing array of capacity 99999, and from one pass of the loop to a later one
the store and the queue only grow.  A push onto a queue succeeds exactly when
its length is below its capacity.  So at a record `convertdata` is to emit, the
push succeeds and the mention is written when fewer than 99999 mentions were
written before, and with 99999 of them the push panics (index out of range of
the re-slice) and the mention is not written. -/
theorem pq_holds_every_mention (parse : TimeParse) (loads : Nat → List Brand)
    (envs : Nat → Nat → Env) :
    (∀ n : Nat,
        (mainRun parse loads envs n).state.1.pq.items.length
          = (mainRun parse loads envs n).state.1.store.length
        ∧ (mainRun parse loads envs n).state.1.pq.cap = 99999)
    ∧ (∀ n m : Nat, n ≤ m →
        Grows (mainRun parse loads envs n).state.1 (mainRun parse loads envs m).state.1
        ∧ (mainRun parse loads envs n).state.1.pq.items.length
            ≤ (mainRun parse loads envs m).state.1.pq.items.length)
    ∧ (∀ (q : PriorityQueue) (x : Item),
        ((∃ q1, heap.Push q x = .ok q1) ↔ q.items.length < q.cap)
        ∧ (∀ q1, heap.Push q x = .ok q1 →
            q1.items.length = q.items.length + 1 ∧ q1.cap = q.cap)
        ∧ (∀ f, heap.Push q x = .fail f → f = .queueFull))
    ∧ (∀ (w : World) (cb : Brand) (text idStr timeStr : Str) (rest : List Str),
        w.pq.cap = 99999 → w.pq.items.length = w.store.length →
        cb.time < unixOf parse timeStr →
        (w.store.length < 99999 →
          ∃ pq1, heap.Push w.pq
              ({ mention := text, id := (ParseInt idStr).1, time := unixOf parse timeStr,
                 index := 0 } : Item) = .ok pq1
            ∧ pq1.items.length = w.store.length + 1
            ∧ convertdata parse (text :: idStr :: timeStr :: rest) w cb
                = convertdata parse rest
                    { w with
                        pq := pq1,
                        tempTimestamp := max w.tempTimestamp (unixOf parse timeStr),
                        store := w.store ++ [mkMention cb text (unixOf parse timeStr)] } cb)
        ∧ (w.store.length = 99999 →
          ∃ s, convertdata parse (text :: idStr :: timeStr :: rest) w cb = .halt .queueFull s
            ∧ s.store = w.store)) := by
  have hstep : ∀ n k : Nat,
      Grows (mainRun parse loads envs n).state.1 (mainRun parse loads envs (n + k)).state.1 := by
    intro n k
    induction k with
    | zero => exact Grows.refl _
    | succ k ih => exact ih.trans (mainRun_step_grows parse loads envs (n + k))
  refine ⟨?_, ?_, ?_, ?_⟩
  · intro n
    obtain ⟨new, h1, h2, h3⟩ := mainRun_grows parse loads envs n
    refine ⟨?_, h3⟩
    rw [h2, h1]
    simp [startWorld]
  · intro n m hnm
    obtain ⟨k, rfl⟩ := Nat.exists_eq_add_of_le hnm
    refine ⟨hstep n k, ?_⟩
    obtain ⟨new, _, h2, _⟩ := hstep n k
    omega
  · intro q x
    refine ⟨heap_Push_iff q x, ?_, ?_⟩
    · intro q1 h
      obtain ⟨_, h2, h3⟩ := heap_Push_done q q1 x h
      exact ⟨h3, h2⟩
    · intro f h
      exact (heap_Push_fail q x f h).1
  · intro w cb text idStr timeStr rest hcap hlen hfresh
    constructor
    · intro hlt
      obtain ⟨pq1, h1, h2, h3⟩ := convertdata_pass parse w cb text idStr timeStr rest hfresh
        (by omega)
      exact ⟨pq1, h1, by omega, h3⟩
    · intro hfull
      exact convertdata_full parse w cb text idStr timeStr rest hfresh (by omega)

/-- C20, as the code has it: a time string the layout rejects gives the
timestamp `uint64(-62135596800)`, that is 18446744011573954816.  When the loop
of `convertdata` is at such a record, the mark of the brand being below that
value (and with room in the in-memory queue), the record is pushed and its
mention written with that timestamp, the loop goes on, and `tempTimestamp`
becomes the larger of its value and that timestamp: that timestamp when it was
not above it. -/
theorem unparsed_time_is_zero_time (parse : TimeParse) (w : World) (cb : Brand)
    (text idStr timeStr : Str) (rest : List Str)
    (hparse : parse timeStr = none) (hmark : cb.time < 18446744011573954816)
    (hroom : w.pq.items.length < w.pq.cap) :
    unixOf parse timeStr = 18446744011573954816
    ∧ toUint64 zeroTimeUnix = 2 ^ 64 - 62135596800
    ∧ (∃ pq1, heap.Push w.pq
        ({ mention := text, id := (ParseInt idStr).1, time := 18446744011573954816,
           index := 0 } : Item) = .ok pq1
      ∧ convertdata parse (text :: idStr :: timeStr :: rest) w cb
          = convertdata parse rest
              { w with
                  pq := pq1,
                  tempTimestamp := max w.tempTimestamp 18446744011573954816,
                  store := w.store ++ [mkMention cb text 18446744011573954816] } cb)
    ∧ (w.tempTimestamp ≤ 18446744011573954816 →
        max w.tempTimestamp 18446744011573954816 = 18446744011573954816) := by
  have hz : unixOf parse timeStr = 18446744011573954816 := by
    unfold unixOf
    rw [hparse]
    decide
  refine ⟨hz, by decide, ?_, fun h => Nat.max_eq_right h⟩
  obtain ⟨pq1, h1, _, h3⟩ := convertdata_pass parse w cb text idStr timeStr rest
    (by rw [hz]; exact hmark) hroom
  rw [hz] at h1 h3
  exact ⟨pq1, h1, h3⟩

/-- C20 fails when a record dated before 1970 was met earlier in the cycle:
from the mark 0, the record dated 1969-12-31 23:59:59 raises `tempTimestamp` to
2^64 - 1, and the record after it, whose time string `yesterday` is no time, is
written with the timestamp 18446744011573954816 but leaves `tempTimestamp` at
2^64 - 1. -/
theorem unparsed_time_is_zero_time_counterexample :
    parseLayout "yesterday".toList = none
    ∧ brand0.time < 18446744011573954816
    ∧ startWorld.tempTimestamp = brand0.time
    ∧ (convertdata parseLayout rawBadTime startWorld brand0).state.store
        = [mkMention brand0 "early".toList 18446744073709551615,
           mkMention brand0 "undated".toList 18446744011573954816]
    ∧ (convertdata parseLayout rawBadTime startWorld brand0).state.tempTimestamp
        = 18446744073709551615
    ∧ ¬ ((convertdata parseLayout rawBadTime startWorld brand0).state.tempTimestamp
        = 18446744011573954816) := by
  decide!

/-- The amended C20 on a record whose time string is `yesterday`, first of its
list, for the brand with mark 0. -/
theorem unparsed_time_is_zero_time_witness :
    (convertdata parseLayout ["undated".toList, "42".toList, "yesterday".toList, []]
        startWorld brand0).state.tempTimestamp = 18446744011573954816
    ∧ (unixOf parseLayout "yesterday".toList = 18446744011573954816
      ∧ toUint64 zeroTimeUnix = 2 ^ 64 - 62135596800
      ∧ (∃ pq1, heap.Push startWorld.pq
          ({ mention := "undated".toList, id := (ParseInt "42".toList).1,
             time := 18446744011573954816, index := 0 } : Item) = .ok pq1
        ∧ convertdata parseLayout ("undated".toList :: "42".toList :: "yesterday".toList :: [[]])
            startWorld brand0
            = convertdata parseLayout [[]]
                { startWorld with
                    pq := pq1,
                    tempTimestamp := max startWorld.tempTimestamp 18446744011573954816,
                    store := startWorld.store
                      ++ [mkMention brand0 "undated".toList 18446744011573954816] } brand0)
      ∧ (startWorld.tempTimestamp ≤ 18446744011573954816 →
          max startWorld.tempTimestamp 18446744011573954816 = 18446744011573954816)) :=
  ⟨by decide!,
    unparsed_time_is_zero_time parseLayout startWorld brand0 "undated".toList "42".toList
      "yesterday".toList [[]] (by decide!) (by decide!) (by decide!)⟩

end FacebookCrawler
